import Mathlib

/-!
# troll: bit-packed configuration store, compatibility graph and clique cover

A shallow embedding of `troll.cc`.  Machine words (`unsigned long long`) are natural
numbers kept below `2 ^ 64`; every left shift is reduced modulo `2 ^ 64`.  Loop counters and
indices (`int`, `long`) are natural numbers: the program only ever stores non-negative values in
them, and they are assumed not to overflow.  The one exception is the counter `int edges` of
`dump_graph`, which a matrix of 65537 rows can already take past `2 ^ 31 - 1`: it is an integer
reduced to the range of a 32-bit `int` after every increment (`wrap_int`).
-/

namespace Troll

/-! ## The bit-packed store (`class Config`) -/

/-- The class `Config`: the word array `symbols` (its length is the allocated number of
words, `SYM_ENTRIES` at the time of the allocation) and the two scan bounds. -/
structure Config where
  symbols : List Nat
  max_index : Nat
  min_index : Nat
deriving DecidableEq

/-- The constructor `Config()`: `calloc` of `SYM_ENTRIES` zero words, both bounds zero. -/
def Config.new (SYM_ENTRIES : Nat) : Config :=
  { symbols := List.replicate SYM_ENTRIES 0, max_index := 0, min_index := 0 }

/-- The value `(unsigned long long) value << pos`. -/
def shifted_value (value pos : Nat) : Nat := (value <<< pos) % 2 ^ 64

/-- The method `Config::add_symbol`.  A word index outside the allocated array is a write out
of bounds in the source; it is reported as `none`. -/
def Config.add_symbol (c : Config) (symbol value : Nat) : Option Config :=
  let index := symbol / 21
  let pos := (symbol % 21) * 3
  if index < c.symbols.length then
    some
      { symbols := c.symbols.set index (c.symbols.getD index 0 ||| shifted_value value pos)
        max_index := if index > c.max_index then index else c.max_index
        min_index :=
          if index > c.max_index then c.min_index
          else if index < c.min_index then index else c.min_index }
  else none

/-- A sequence of `add_symbol` calls, in list order. -/
def Config.add_symbols (c : Config) : List (Nat × Nat) → Option Config
  | [] => some c
  | (symbol, value) :: rest =>
    match c.add_symbol symbol value with
    | none => none
    | some c' => c'.add_symbols rest

/-- The call `syms->insert(it, pair)` of an `unordered_map`: the pair is added unless the key is
already present.  The map is kept as an association list in insertion order. -/
def umap_insert (syms : List (Nat × Nat)) (sym val : Nat) : List (Nat × Nat) :=
  if (syms.lookup sym).isSome then syms else syms ++ [(sym, val)]

/-- The inner loop of `get_set_symbols` over the slots `j` of word `i` (whose value is `w`);
`none` is a failure of `assert(val <= 3)`. -/
def scan_slots (w i : Nat) : List Nat → List (Nat × Nat) → Option (List (Nat × Nat))
  | [], syms => some syms
  | j :: js, syms =>
    let val := ((w >>> (j * 3)) % 2 ^ 32) &&& 7
    if val = 0 then scan_slots w i js syms
    else if val ≤ 3 then scan_slots w i js (umap_insert syms (i * 21 + j) val)
    else none

/-- The outer loop of `get_set_symbols` over the word indices. -/
def scan_words (c : Config) : List Nat → List (Nat × Nat) → Option (List (Nat × Nat))
  | [], syms => some syms
  | i :: is, syms =>
    if c.symbols.getD i 0 = 0 then scan_words c is syms
    else
      match scan_slots (c.symbols.getD i 0) i (List.range 21) syms with
      | none => none
      | some syms' => scan_words c is syms'

/-- The method `Config::get_set_symbols`: the words `min_index .. max_index` are scanned and
every non-zero slot is entered into the returned map. -/
def Config.get_set_symbols (c : Config) : Option (List (Nat × Nat)) :=
  scan_words c (List.range' c.min_index (c.max_index + 1 - c.min_index)) []

/-- The word test of `Config::conflict`:
`(((a << 1) & b) ^ ((b << 1) & a)) == 0` is `compatible`; this is its negation. -/
def incompatible (a b : Nat) : Bool :=
  ((((a <<< 1) % 2 ^ 64) &&& b) ^^^ (((b <<< 1) % 2 ^ 64) &&& a)) != 0

/-- The method `Config::conflict`: the words from `max (min_index)` to `max (max_index)` are
tested in order and the first incompatible pair returns `true`. -/
def Config.conflict (this other : Config) : Bool :=
  let max_index := max this.max_index other.max_index
  let min_index := max this.min_index other.min_index
  (List.range' min_index (max_index + 1 - min_index)).any fun i =>
    incompatible (this.symbols.getD i 0) (other.symbols.getD i 0)

/-- The function `str_to_val`; `none` is the `assert(false)` on an unknown value. -/
def str_to_val (value : List Char) : Option Nat :=
  if value = ['n'] then some 1
  else if value = ['m'] then some 2
  else if value = ['y'] then some 3
  else none

/-- The 3-bit slot of symbol `sid` in a configuration. -/
def Config.value_of (c : Config) (sid : Nat) : Nat :=
  (c.symbols.getD (sid / 21) 0 >>> (3 * (sid % 21))) % 8

/-- The 3-bit slot `j` of a word. -/
def slot (w j : Nat) : Nat := (w >>> (3 * j)) % 8

/-- The shape of a word of the store: only the two low bits of a slot may be set, and no bit
from bit 63 on. -/
def WordOK (w : Nat) : Prop := ∀ k, w.testBit k = true → k < 63 ∧ k % 3 ≠ 2

/-- The invariant of the store that the scans rely on. -/
structure Config.Inv (c : Config) : Prop where
  min_zero : c.min_index = 0
  words : ∀ i, WordOK (c.symbols.getD i 0)
  beyond : ∀ i, c.max_index < i → c.symbols.getD i 0 = 0

/-- The outcome of `conflict` on the two configurations obtained from empty ones of `cap` words
by the two sequences of `add_symbol` calls. -/
def conflict_of_ops (cap : Nat) (opsA opsB : List (Nat × Nat)) : Option Bool :=
  match (Config.new cap).add_symbols opsA, (Config.new cap).add_symbols opsB with
  | some A, some B => some (A.conflict B)
  | _, _ => none

/-- The entries that `get_set_symbols` emits for word `i` of value `w`: one per non-zero slot,
in slot order. -/
def word_entries (w i : Nat) : List (Nat × Nat) :=
  ((List.range 21).filter fun j => slot w j ≠ 0).map fun j => (i * 21 + j, slot w j)

/-! ## Merging the configurations of a clique (`merge_and_dump_configs`) -/

/-- The state of the merge loop: the merged map `config` (an `unordered_map`, kept as an
association list in insertion order) and the diagnostics written to `cout`, one
`(val, sym, config[sym])` per entry into the disagreement branch. -/
abbrev MergeState := List (Nat × Nat) × List (Nat × Nat × Nat)

/-- The body of the innermost loop of `merge_and_dump_configs` for one `(sym, val)` of
`cur_syms`. -/
def merge_entry (st : MergeState) (e : Nat × Nat) : MergeState :=
  match st.1.lookup e.1 with
  | some old => if old ≠ e.2 then (st.1, st.2 ++ [(e.2, e.1, old)]) else st
  | none => (st.1 ++ [(e.1, e.2)], st.2)

/-- The loop of `merge_and_dump_configs` over the members of one clique.  The order in which
an `unordered_map` is iterated is not fixed by the language; `order` maps the scan-order list
of a member's symbols to the order in which the loop visits them.  `none` stands for an access
outside `configs` or a failed assertion of `get_set_symbols`. -/
def merge_clique (order : List (Nat × Nat) → List (Nat × Nat)) (configs : List Config) :
    List Nat → MergeState → Option MergeState
  | [], st => some st
  | cur :: rest, st =>
    match configs[cur]? with
    | none => none
    | some c =>
      match c.get_set_symbols with
      | none => none
      | some cur_syms => merge_clique order configs rest ((order cur_syms).foldl merge_entry st)

/-- The merge part of `merge_and_dump_configs`: for every clique, in order, the merged map and
the diagnostics of its merge. -/
def merge_and_dump_configs (order : List (Nat × Nat) → List (Nat × Nat))
    (configs : List Config) : List (List Nat) → Option (List MergeState)
  | [] => some []
  | clique :: rest =>
    match merge_clique order configs clique ([], []) with
    | none => none
    | some st =>
      match merge_and_dump_configs order configs rest with
      | none => none
      | some sts => some (st :: sts)

/-! ## The compatibility graph (`build_graph`) -/

/-- The matrix `char** graph`: the cell at row `i`, column `j`.  Its extent `gsize` is passed
alongside, as in the source. -/
abbrev Graph := Nat → Nat → Nat

/-- The matrix after the `calloc` calls of `build_graph`. -/
def Graph.zero : Graph := fun _ _ => 0

/-- The store `graph[i][j] = v`. -/
def Graph.set (g : Graph) (i j v : Nat) : Graph :=
  fun a b => if a = i ∧ b = j then v else g a b

/-- The element `configs[i]` of the global array (for `i` within the array). -/
def config_at (configs : List Config) (i : Nat) : Config := configs.getD i (Config.new 0)

/-- The struct `build_graph_data` without the shared matrix pointer (`from`, `to` are the
row bounds). -/
structure build_graph_data where
  gsize : Nat
  from_row : Nat
  to_row : Nat
deriving DecidableEq

/-- The matrix together with a pair of counters: the worker-local `_conflicts`,
`_compatibles` inside a worker, the globals `conflicts`, `compatibles` outside. -/
structure BuildState where
  graph : Graph
  conflicts : Nat
  compatibles : Nat

/-- The body of the inner loop of `task_build_graph` for the cell `(i, j)`. -/
def build_cell (configs : List Config) (i : Nat) (st : BuildState) (j : Nat) : BuildState :=
  if j = i then { st with graph := st.graph.set i j 1 }
  else if (config_at configs i).conflict (config_at configs j) then
    { st with conflicts := st.conflicts + 1 }
  else
    { st with graph := (st.graph.set i j 1).set j i 1, compatibles := st.compatibles + 1 }

/-- The two nested loops of `task_build_graph` over the given rows. -/
def build_rows (configs : List Config) (gsize : Nat) (rows : List Nat) (st : BuildState) :
    BuildState :=
  rows.foldl (fun st i => (List.range gsize).foldl (build_cell configs i) st) st

/-- The worker `task_build_graph`: the loops run with local counters starting at zero, which
are then added to the global ones (under the mutex). -/
def task_build_graph (configs : List Config) (data : build_graph_data) (st : BuildState) :
    BuildState :=
  let loc := build_rows configs data.gsize
    (List.range' data.from_row (data.to_row - data.from_row)) ⟨st.graph, 0, 0⟩
  { graph := loc.graph
    conflicts := st.conflicts + loc.conflicts
    compatibles := st.compatibles + loc.compatibles }

/-- The task data `args[i]` that `build_graph` prepares for worker `i`. -/
def build_graph_args (gsize MAXTHREADS i : Nat) : build_graph_data :=
  let chunk := gsize / MAXTHREADS + 1
  { gsize := gsize
    from_row := i * chunk
    to_row := if (i + 1) * chunk > gsize then gsize else (i + 1) * chunk }

/-- The function `build_graph`: the workers `0 .. MAXTHREADS - 1` are started on a zero matrix
and joined; `sched` is the order in which they run.  The incoming values of the global
counters are arguments. -/
def build_graph (configs : List Config) (gsize MAXTHREADS : Nat) (sched : List Nat)
    (conflicts compatibles : Nat) : BuildState :=
  sched.foldl
    (fun st w => task_build_graph configs (build_graph_args gsize MAXTHREADS w) st)
    ⟨Graph.zero, conflicts, compatibles⟩

/-- The matrix that the specification expects of `build_graph`. -/
def compat_matrix (configs : List Config) (i j : Nat) : Nat :=
  if i = j then 1
  else if (config_at configs i).conflict (config_at configs j) then 0 else 1

/-- What the builder maintains: a cell is 0 or 1, and a 1 sits only inside the matrix at a
pair that is equal or non-conflicting. -/
def GraphSound (configs : List Config) (gsize : Nat) (g : Graph) : Prop :=
  ∀ a b, g a b = 0 ∨ (g a b = 1 ∧ a < gsize ∧ b < gsize ∧ compat_matrix configs a b = 1)

/-! ## The serialized graph (`dump_graph`) -/

/-- A line of `graph.mtx`: a text line, a line of non-negative integers separated by blanks,
or the size line `rows cols edges`, whose last entry is the value of the `int` counter `edges`
as it is printed (a signed number). -/
inductive Line where
  | text (s : String)
  | ints (xs : List Nat)
  | size (rows cols : Nat) (edges : Int)
deriving DecidableEq

/-- The header line of the Matrix Market file. -/
def mtx_header : String := "%%MatrixMarket matrix coordinate real symmetric"

/-- The value that a 32-bit `int` holds for the integer `x`: `x` reduced modulo `2 ^ 32` into
the range `[-2 ^ 31, 2 ^ 31)` (two's complement wrap-around). -/
def wrap_int (x : Int) : Int := (x + 2 ^ 31) % 2 ^ 32 - 2 ^ 31

/-- The body of the inner loop of `dump_graph` for the cell `(i, j)`; the state is the `body`
stream written so far and the counter `int edges`, which `edges++` increments within the
range of `int`.  The indices `j + 1` and `i + 1` are at most `gsize`, itself an `int`. -/
def dump_cell (graph : Graph) (i : Nat) (st : List Line × Int) (j : Nat) : List Line × Int :=
  if graph i j ≠ 0 then (st.1 ++ [Line.ints [j + 1, i + 1]], wrap_int (st.2 + 1)) else st

/-- The function `dump_graph`: the lines written to `graph.mtx`, the header stream first and
then the body stream. -/
def dump_graph (graph : Graph) (gsize : Nat) : List Line :=
  let st := (List.range gsize).foldl
    (fun st i => (List.range' (i + 1) (gsize - (i + 1))).foldl (dump_cell graph i) st) ([], 0)
  [Line.text mtx_header, Line.size gsize gsize st.2] ++ st.1

/-- The pairs `(i, j)` of row `i` with `i < j < N` whose cell is set, by increasing `j`. -/
def row_pairs (G : Graph) (N i : Nat) : List (Nat × Nat) :=
  ((List.range' (i + 1) (N - (i + 1))).filter fun j => G i j ≠ 0).map fun j => (i, j)

/-- The pairs `(i, j)` with `0 ≤ i < j < N` whose cell is set, in row-major order. -/
def edge_pairs (G : Graph) (N : Nat) : List (Nat × Nat) :=
  (List.range N).flatMap (row_pairs G N)

/-- The contribution of the cell `(i, j)` to the counter of conflicts. -/
def cell_conflict (configs : List Config) (i j : Nat) : Nat :=
  if j ≠ i ∧ (config_at configs i).conflict (config_at configs j) = true then 1 else 0

/-- The contribution of the cell `(i, j)` to the counter of compatible pairs. -/
def cell_compat (configs : List Config) (i j : Nat) : Nat :=
  if j ≠ i ∧ (config_at configs i).conflict (config_at configs j) = false then 1 else 0

/-- The rows of worker `w`. -/
def worker_rows (gsize MAXTHREADS w : Nat) : List Nat :=
  List.range' (build_graph_args gsize MAXTHREADS w).from_row
    ((build_graph_args gsize MAXTHREADS w).to_row
      - (build_graph_args gsize MAXTHREADS w).from_row)

/-- The contribution of the pair `i < j` to the number of compatible unordered pairs. -/
def pair_compat (configs : List Config) (i j : Nat) : Nat :=
  if i < j ∧ (config_at configs i).conflict (config_at configs j) = false then 1 else 0

/-! ## Removing a clique from the graph (`update_graph`) and the cover driver -/

/-- The body of the loop of `task_update_graph` for one node: row `node` is zeroed, then
column `node`. -/
def zero_node (gsize : Nat) (graph : Graph) (node : Nat) : Graph :=
  (List.range gsize).foldl (fun g i => g.set i node 0)
    ((List.range gsize).foldl (fun g i => g.set node i 0) graph)

/-- The worker `task_update_graph` on its list of nodes. -/
def task_update_graph (gsize : Nat) (nodes : List Nat) (graph : Graph) : Graph :=
  nodes.foldl (zero_node gsize) graph

/-- The inner loop of the chunking in `update_graph`: at most `chunk` times the back of the
working vector is moved to the worker's list, stopping when the vector is empty.  The working
vector is kept as a list with its back at the head. -/
def take_chunk : Nat → List Nat → List Nat → List Nat × List Nat
  | 0, mine, stack => (mine, stack)
  | _ + 1, mine, [] => (mine, [])
  | n + 1, mine, x :: stack =>
    if stack.isEmpty then (mine ++ [x], stack) else take_chunk n (mine ++ [x]) stack

/-- The outer loop of the chunking in `update_graph` over at most the given number of
threads; the result is the list of the started workers' node lists (`steps` is its length) and
what is left of the working vector. -/
def chunk_loop (chunk : Nat) : Nat → List (List Nat) → List Nat → List (List Nat) × List Nat
  | 0, args, stack => (args, stack)
  | t + 1, args, stack =>
    if (take_chunk chunk [] stack).2.isEmpty then
      (args ++ [(take_chunk chunk [] stack).1], (take_chunk chunk [] stack).2)
    else
      chunk_loop chunk t (args ++ [(take_chunk chunk [] stack).1]) (take_chunk chunk [] stack).2

/-- The function `update_graph`; `none` is a failure of `assert(!nodes.empty())` or of
`assert(nodes.empty())`.  The started workers only store zeros; they are run one after the
other. -/
def update_graph (MAXTHREADS : Nat) (graph : Graph) (clique : List Nat) (gsize : Nat) :
    Option Graph :=
  if clique.isEmpty then none
  else
    let chunk := clique.length / MAXTHREADS + 1
    let r := chunk_loop chunk MAXTHREADS [] clique.reverse
    if r.2.isEmpty then some (r.1.foldl (fun g nodes => task_update_graph gsize nodes g) graph)
    else none

/-- The function `empty_graph`: a singleton clique for every vertex whose diagonal cell is
still set. -/
def empty_graph (graph : Graph) (gsize : Nat) : List (List Nat) :=
  ((List.range gsize).filter fun i => graph i i ≠ 0).map fun i => [i]

/-- Where the driver loop of `main` stands. -/
inductive Status where
  | running
  | finished
  | aborted
deriving DecidableEq

/-- The state of the driver loop of `main`: the matrix, the cliques recorded so far, and
whether the loop is still running, has left through `break`, or has died in an assertion. -/
structure Driver where
  graph : Graph
  cliques : List (List Nat)
  status : Status

/-- One iteration of the `while (true)` loop of `main`.  The external solver together with the
parsing of its answer is the parameter `find_clique`, a function of the file written by
`dump_graph`. -/
def driver_step (find_clique : List Line → List Nat) (MAXTHREADS gsize : Nat) (d : Driver) :
    Driver :=
  match d.status with
  | Status.running =>
    if (find_clique (dump_graph d.graph gsize)).isEmpty then { d with status := Status.finished }
    else
      match update_graph MAXTHREADS d.graph (find_clique (dump_graph d.graph gsize)) gsize with
      | none =>
        { d with
          cliques := d.cliques ++ [find_clique (dump_graph d.graph gsize)]
          status := Status.aborted }
      | some g =>
        { graph := g
          cliques := d.cliques ++ [find_clique (dump_graph d.graph gsize)]
          status := Status.running }
  | _ => d

/-- The driver loop of `main` after `k` iterations (fewer if it has stopped before). -/
def driver_loop (find_clique : List Line → List Nat) (MAXTHREADS gsize : Nat) (graph : Graph) :
    Nat → Driver
  | 0 => { graph := graph, cliques := [], status := Status.running }
  | k + 1 => driver_step find_clique MAXTHREADS gsize
      (driver_loop find_clique MAXTHREADS gsize graph k)

/-- The clique list that `main` hands to `merge_and_dump_configs`: the recorded cliques
followed by the singletons of `empty_graph`, provided the loop has left through `break` within
`fuel` iterations. -/
def main_cliques (find_clique : List Line → List Nat) (MAXTHREADS gsize : Nat) (graph : Graph)
    (fuel : Nat) : Option (List (List Nat)) :=
  if (driver_loop find_clique MAXTHREADS gsize graph fuel).status = Status.finished then
    some ((driver_loop find_clique MAXTHREADS gsize graph fuel).cliques
      ++ empty_graph (driver_loop find_clique MAXTHREADS gsize graph fuel).graph gsize)
  else none

/-- The matrix `g` with the rows and the columns of `nodes` zeroed within the extent `N`. -/
def cleared (N : Nat) (nodes : List Nat) (g : Graph) : Graph :=
  fun a b => if (a ∈ nodes ∧ b < N) ∨ (b ∈ nodes ∧ a < N) then 0 else g a b

/-- The assumption on the solver used for the soundness of the cover: the vertices it returns
for a file written by `dump_graph` are pairwise adjacent in that file. -/
def SolverAdjacent (find_clique : List Line → List Nat) (gsize : Nat) : Prop :=
  ∀ G : Graph, ∀ u ∈ find_clique (dump_graph G gsize), ∀ v ∈ find_clique (dump_graph G gsize),
    u ≠ v → Line.ints [max u v + 1, min u v + 1] ∈ dump_graph G gsize

/-- The assumption on the solver used for the partition property: for a file written by
`dump_graph` it returns a list (possibly empty) of distinct vertices of `[0, gsize)` that are
pairwise adjacent in that file. -/
def SolverSpec (find_clique : List Line → List Nat) (gsize : Nat) : Prop :=
  ∀ G : Graph, (find_clique (dump_graph G gsize)).Nodup
    ∧ (∀ v ∈ find_clique (dump_graph G gsize), v < gsize)
    ∧ ∀ u ∈ find_clique (dump_graph G gsize), ∀ v ∈ find_clique (dump_graph G gsize),
        u ≠ v → Line.ints [max u v + 1, min u v + 1] ∈ dump_graph G gsize

/-- A simple solver: the two end points of the first edge line of the file, if there is one
(a clique of size two), and nothing otherwise. -/
def first_edge_solver : List Line → List Nat
  | _ :: _ :: Line.ints [a, b] :: _ => [a - 1, b - 1]
  | _ => []

/-- Invariant of the driver while every recorded clique was made of vertices still present:
the recorded vertices are distinct vertices of `[0, N)`, their rows and columns are zero, and
the diagonal cell of a vertex is set exactly when the vertex is not recorded. -/
structure DriverGood (N : Nat) (d : Driver) : Prop where
  not_aborted : d.status ≠ Status.aborted
  nodup : d.cliques.flatten.Nodup
  below : ∀ v ∈ d.cliques.flatten, v < N
  diag : ∀ v, v < N → (d.graph v v ≠ 0 ↔ v ∉ d.cliques.flatten)
  zeroed : ∀ v ∈ d.cliques.flatten, ∀ i, i < N → d.graph v i = 0 ∧ d.graph i v = 0

/-- A state from which the loop never leaves: the solver answers with a single vertex that has
no set cell in the upper triangle, so that removing it does not change the file. -/
def DriverStuck (find_clique : List Line → List Nat) (N : Nat) (d : Driver) : Prop :=
  d.status = Status.running ∧ ∃ v, find_clique (dump_graph d.graph N) = [v] ∧ v < N
    ∧ ∀ i j, i < j → j < N → (i = v ∨ j = v) → d.graph i j = 0

/-! ## The parser (`parse_configs`) -/

/-- The state of `parse_configs`: the local map `symbols` from names to sids, the global map
`translate` from sids to names, the globals `SYM_COUNT` and `SYM_ENTRIES`, and the global
array `configs`.  A map is an association list whose first entry for a key is the current
one. -/
structure ParseState where
  symbols : List (List Char × Nat)
  translate : List (Nat × List Char)
  SYM_COUNT : Nat
  SYM_ENTRIES : Nat
  configs : List Config
deriving DecidableEq

/-- The state at the start of `parse_configs`: nothing interned, `SYM_ENTRIES = 100`, and
`nr_configs` freshly constructed configurations. -/
def ParseState.init (nr_configs : Nat) : ParseState :=
  { symbols := [], translate := [], SYM_COUNT := 0, SYM_ENTRIES := 100
    configs := List.replicate nr_configs (Config.new 100) }

/-- The function `resize_configs`: `SYM_ENTRIES` grows by 100 and every configuration gets
100 further zero words (every configuration holds `SYM_ENTRIES` words before the call). -/
def resize_configs (st : ParseState) : ParseState :=
  { st with
    SYM_ENTRIES := st.SYM_ENTRIES + 100
    configs := st.configs.map fun c => { c with symbols := c.symbols ++ List.replicate 100 0 } }

/-- The test `line.compare(0, 1, "#") == 0`: the line starts with `#`. -/
def is_comment (line : List Char) : Bool := line.take 1 == ['#']

/-- The pair `(line.substr(0, pos), line.substr(pos + 1))` for `pos = line.find_first_of('=')`.
Without a `=` in the line `pos` is `npos`, `pos + 1` wraps to 0, and both parts are the whole
line. -/
def split_line (line : List Char) : List Char × List Char :=
  match line.span (fun c => c != '=') with
  | (symbol, _ :: value) => (symbol, value)
  | (_, []) => (line, line)

/-- The body of the `while (getline(file, line))` loop of `parse_configs` for the
configuration `counter`.  `none` stands for the failed assertion of `str_to_val` or an access
out of bounds. -/
def parse_line (st : ParseState) (counter : Nat) (line : List Char) : Option ParseState :=
  if is_comment line then some st
  else
    match str_to_val (split_line line).2 with
    | none => none
    | some value =>
      match st.configs[counter]? with
      | none => none
      | some c =>
        match st.symbols.lookup (split_line line).1 with
        | some sid =>
          match c.add_symbol sid value with
          | none => none
          | some c' => some { st with configs := st.configs.set counter c' }
        | none =>
          match c.add_symbol st.SYM_COUNT value with
          | none => none
          | some c' =>
            let st' : ParseState :=
              { symbols := ((split_line line).1, st.SYM_COUNT) :: st.symbols
                translate := (st.SYM_COUNT, (split_line line).1) :: st.translate
                SYM_COUNT := st.SYM_COUNT + 1
                SYM_ENTRIES := st.SYM_ENTRIES
                configs := st.configs.set counter c' }
            if st'.SYM_COUNT / 21 + 1 > st'.SYM_ENTRIES then some (resize_configs st')
            else some st'

/-- The `while (getline(file, line))` loop of `parse_configs` over the lines of one file. -/
def parse_file (counter : Nat) : ParseState → List (List Char) → Option ParseState
  | st, [] => some st
  | st, line :: lines =>
    match parse_line st counter line with
    | none => none
    | some st' => parse_file counter st' lines

/-- The loop of `parse_configs` over the files, each given by its lines. -/
def parse_files : Nat → ParseState → List (List (List Char)) → Option ParseState
  | _, st, [] => some st
  | counter, st, file :: files =>
    match parse_file counter st file with
    | none => none
    | some st' => parse_files (counter + 1) st' files

/-- The function `parse_configs` on the contents of the files named in `paths`. -/
def parse_configs (files : List (List (List Char))) : Option ParseState :=
  parse_files 0 (ParseState.init files.length) files

/-- A line `NAME=v` with `v` one of `n`, `m`, `y`, with no `=` in `NAME`, and not starting
with `#`. -/
def is_assignment (line : List Char) : Bool :=
  !is_comment line &&
    match line.span (fun c => c != '=') with
    | (_, _ :: value) => value == ['n'] || value == ['m'] || value == ['y']
    | (_, []) => false

/-- What the parser maintains before every line of file `counter`: the configuration exists,
every configuration holds `SYM_ENTRIES` words, the next sid has room, and the interned sids
are below `SYM_COUNT`. -/
structure ParseState.WF (st : ParseState) (counter : Nat) : Prop where
  counter_lt : counter < st.configs.length
  lengths : ∀ c ∈ st.configs, c.symbols.length = st.SYM_ENTRIES
  room : st.SYM_COUNT / 21 + 1 ≤ st.SYM_ENTRIES
  sids : ∀ p ∈ st.symbols, p.2 < st.SYM_COUNT

/-- The conflict test as a scan of all allocated words `[0, E)`, after the words of the
specification: the reference that the bounded scan of `Config::conflict` is compared with. -/
def conflict_full (A B : Config) (E : Nat) : Bool :=
  (List.range E).any fun i => incompatible (A.symbols.getD i 0) (B.symbols.getD i 0)

/-- The outcome of the chunking loop of `update_graph` for a clique: the node lists of the
started workers and what is left of the working vector. -/
def update_workers (MAXTHREADS : Nat) (clique : List Nat) : List (List Nat) × List Nat :=
  chunk_loop (clique.length / MAXTHREADS + 1) MAXTHREADS [] clique.reverse

/-- The write footprint of an update worker with the node list `nodes`: the cells `(v, i)`
and `(i, v)` for `v` in `nodes` and `i` in `[0, N)`. -/
abbrev footprint (N : Nat) (nodes : List Nat) (a b : Nat) : Prop :=
  (a ∈ nodes ∧ b < N) ∨ (b ∈ nodes ∧ a < N)

/-- The call `realloc(symbols, n * sizeof(unsigned long long))`: the words below the old
length are kept; the content of the others is not determined by the language and is taken
from `junk`. -/
def realloc_words (junk : Nat → Nat) (symbols : List Nat) (n : Nat) : List Nat :=
  (List.range n).map fun j => if j < symbols.length then symbols.getD j 0 else junk j

/-- The loop `for (j = SYM_ENTRIES - 100; j < SYM_ENTRIES; j++) symbols[j] = 0` of
`resize_configs`. -/
def zero_new_words (symbols : List Nat) (SYM_ENTRIES : Nat) : List Nat :=
  (List.range' (SYM_ENTRIES - 100) 100).foldl (fun s j => s.set j 0) symbols

/-- The body of the loop of `resize_configs` for one configuration in detail: `realloc` to the
enlarged `SYM_ENTRIES`, then the zeroing of the last 100 words. -/
def resize_config (junk : Nat → Nat) (SYM_ENTRIES : Nat) (c : Config) : Config :=
  { c with symbols := zero_new_words (realloc_words junk c.symbols SYM_ENTRIES) SYM_ENTRIES }

/-- The function `val_to_sym` on the global map `translate`; `none` is the `exit(-1)` for a
value that is not in the map. -/
def val_to_sym (translate : List (Nat × List Char)) (value : Nat) : Option (List Char) :=
  translate.lookup value

/-- The names that the per-line loop observes in the given lines: the part before the first
`=` of every line that is not a comment, in order. -/
def observed (lines : List (List Char)) : List (List Char) :=
  (lines.filter fun line => !is_comment line).map fun line => (split_line line).1

/-- The number of distinct names among `names` that come before the first occurrence of
`name`. -/
def expected_sid (names : List (List Char)) (name : List Char) : Nat :=
  ((names.takeWhile fun x => decide (x ≠ name)).dedup).length

/-- The interning tables of a parser state agree with the list of the names observed so
far. -/
structure Interned (st : ParseState) (names : List (List Char)) : Prop where
  count : st.SYM_COUNT = names.dedup.length
  known : ∀ n ∈ names, st.symbols.lookup n = some (expected_sid names n)
  unknown : ∀ n, n ∉ names → st.symbols.lookup n = none
  back : ∀ n ∈ names, val_to_sym st.translate (expected_sid names n) = some n
  onto : ∀ sid, sid < st.SYM_COUNT → ∃ n ∈ names, expected_sid names n = sid

/-! # Theorems -/

/-! ## Facts about single words -/

theorem testBit_shifted_value (v pos k : Nat) :
    (shifted_value v pos).testBit k
      = (decide (k < 64) && (decide (pos ≤ k) && v.testBit (k - pos))) := by
  rw [shifted_value, Nat.testBit_mod_two_pow, Nat.testBit_shiftLeft]

theorem testBit_slot (w j r : Nat) :
    (slot w j).testBit r = (decide (r < 3) && w.testBit (3 * j + r)) := by
  have h8 : (8 : Nat) = 2 ^ 3 := by norm_num
  rw [slot, h8, Nat.testBit_mod_two_pow, Nat.testBit_shiftRight]

theorem wordOK_zero : WordOK 0 := by
  intro k hk
  simp at hk

theorem slot_zero (j : Nat) : slot 0 j = 0 := by
  simp [slot]

theorem slot_eq_iff {a b : Nat} (ha : WordOK a) (hb : WordOK b) (j : Nat) :
    slot a j = slot b j ↔
      (a.testBit (3 * j) = b.testBit (3 * j) ∧ a.testBit (3 * j + 1) = b.testBit (3 * j + 1)) := by
  constructor
  · intro h
    have h0 := congrArg (fun x => Nat.testBit x 0) h
    have h1 := congrArg (fun x => Nat.testBit x 1) h
    simp only [testBit_slot] at h0 h1
    simpa using And.intro h0 h1
  · rintro ⟨h0, h1⟩
    apply Nat.eq_of_testBit_eq
    intro r
    rw [testBit_slot, testBit_slot]
    rcases Nat.lt_or_ge r 3 with hr | hr
    · have : r = 0 ∨ r = 1 ∨ r = 2 := by omega
      rcases this with rfl | rfl | rfl
      · simpa using h0
      · simpa using h1
      · have ha2 : a.testBit (3 * j + 2) = false := by
          by_contra hne
          have := ha (3 * j + 2) (by simpa using hne)
          omega
        have hb2 : b.testBit (3 * j + 2) = false := by
          by_contra hne
          have := hb (3 * j + 2) (by simpa using hne)
          omega
        simp [ha2, hb2]
    · have : ¬ r < 3 := by omega
      simp [this]

theorem slot_eq_zero_iff {a : Nat} (ha : WordOK a) (j : Nat) :
    slot a j = 0 ↔ (a.testBit (3 * j) = false ∧ a.testBit (3 * j + 1) = false) := by
  have h := slot_eq_iff ha wordOK_zero j
  rw [slot_zero] at h
  simpa using h

theorem slot_le_three {a : Nat} (ha : WordOK a) (j : Nat) : slot a j ≤ 3 := by
  have h4 : slot a j < 2 ^ 2 := by
    apply Nat.lt_pow_two_of_testBit
    intro r hr
    rw [testBit_slot]
    rcases Nat.lt_or_ge r 3 with h3 | h3
    · have : r = 2 := by omega
      subst this
      have ha2 : a.testBit (3 * j + 2) = false := by
        by_contra hne
        have := ha (3 * j + 2) (by simpa using hne)
        omega
      simp [ha2]
    · have : ¬ r < 3 := by omega
      simp [this]
  omega

theorem incompatible_testBit (a b k : Nat) :
    ((((a <<< 1) % 2 ^ 64) &&& b) ^^^ (((b <<< 1) % 2 ^ 64) &&& a)).testBit k
      = xor ((decide (k < 64) && (decide (1 ≤ k) && a.testBit (k - 1))) && b.testBit k)
          ((decide (k < 64) && (decide (1 ≤ k) && b.testBit (k - 1))) && a.testBit k) := by
  rw [Nat.testBit_xor, Nat.testBit_and, Nat.testBit_and, Nat.testBit_mod_two_pow,
    Nat.testBit_mod_two_pow, Nat.testBit_shiftLeft, Nat.testBit_shiftLeft]

theorem incompatible_iff {a b : Nat} (ha : WordOK a) (hb : WordOK b) :
    incompatible a b = true ↔
      ∃ j, j < 21 ∧ slot a j ≠ 0 ∧ slot b j ≠ 0 ∧ slot a j ≠ slot b j := by
  have hbit : ∀ {w : Nat}, WordOK w → ∀ k, k % 3 = 2 → w.testBit k = false := by
    intro w hw k hk
    by_contra hne
    have := hw k (by simpa using hne)
    omega
  unfold incompatible
  rw [bne_iff_ne]
  constructor
  · intro hne
    obtain ⟨k, hk⟩ := Nat.ne_zero_implies_bit_true hne
    rw [incompatible_testBit] at hk
    have hmod : k % 3 = 0 ∨ k % 3 = 1 ∨ k % 3 = 2 := by omega
    rcases hmod with h0 | h1 | h2
    · exfalso
      rcases Nat.eq_zero_or_pos k with hz | hpos
      · subst hz
        simp at hk
      · have ha2 := hbit ha (k - 1) (by omega)
        have hb2 := hbit hb (k - 1) (by omega)
        simp [ha2, hb2] at hk
    · by_cases h64 : k < 64
      · refine ⟨k / 3, by omega, ?_, ?_, ?_⟩
        · rw [Ne, slot_eq_zero_iff ha]
          rintro ⟨e0, e1⟩
          have e0' : a.testBit (k - 1) = false := by
            have : k - 1 = 3 * (k / 3) := by omega
            rw [this]; exact e0
          have e1' : a.testBit k = false := by
            have : k = 3 * (k / 3) + 1 := by omega
            rw [this]; exact e1
          simp [e0', e1'] at hk
        · rw [Ne, slot_eq_zero_iff hb]
          rintro ⟨e0, e1⟩
          have e0' : b.testBit (k - 1) = false := by
            have : k - 1 = 3 * (k / 3) := by omega
            rw [this]; exact e0
          have e1' : b.testBit k = false := by
            have : k = 3 * (k / 3) + 1 := by omega
            rw [this]; exact e1
          simp [e0', e1'] at hk
        · rw [Ne, slot_eq_iff ha hb]
          rintro ⟨e0, e1⟩
          have e0' : a.testBit (k - 1) = b.testBit (k - 1) := by
            have : k - 1 = 3 * (k / 3) := by omega
            rw [this]; exact e0
          have e1' : a.testBit k = b.testBit k := by
            have : k = 3 * (k / 3) + 1 := by omega
            rw [this]; exact e1
          rw [e0', e1'] at hk
          revert hk
          cases b.testBit (k - 1) <;> cases b.testBit k <;> simp
      · exfalso
        simp [h64] at hk
    · exfalso
      have ha2 := hbit ha k h2
      have hb2 := hbit hb k h2
      simp [ha2, hb2] at hk
  · rintro ⟨j, hj, hane, hbne, hne⟩
    rw [Ne, slot_eq_zero_iff ha] at hane
    rw [Ne, slot_eq_zero_iff hb] at hbne
    rw [Ne, slot_eq_iff ha hb] at hne
    intro hzero
    have hk := incompatible_testBit a b (3 * j + 1)
    rw [hzero] at hk
    have h64 : 3 * j + 1 < 64 := by omega
    simp only [Nat.zero_testBit, h64, decide_True, Bool.true_and, Nat.add_sub_cancel,
      Nat.le_add_left] at hk
    revert hk hane hbne hne
    cases a.testBit (3 * j) <;> cases a.testBit (3 * j + 1) <;>
      cases b.testBit (3 * j) <;> cases b.testBit (3 * j + 1) <;> simp

theorem add_symbol_getD {c c' : Config} {s v : Nat} (h : c.add_symbol s v = some c') (i : Nat) :
    c'.symbols.getD i 0 =
      if i = s / 21 then c.symbols.getD i 0 ||| shifted_value v ((s % 21) * 3)
      else c.symbols.getD i 0 := by
  unfold Config.add_symbol at h
  simp only at h
  split at h
  · rename_i hlt
    injection h with h
    subst h
    simp only [List.getD_eq_getElem?_getD, List.getElem?_set]
    by_cases hi : i = s / 21
    · subst hi
      simp [hlt]
    · have : ¬ (s / 21 = i) := fun e => hi e.symm
      simp [hi, this]
  · cases h

theorem add_symbol_bound {c c' : Config} {s v : Nat} (h : c.add_symbol s v = some c') :
    s / 21 < c.symbols.length ∧ c'.symbols.length = c.symbols.length
      ∧ c'.max_index = max c.max_index (s / 21)
      ∧ (c.min_index = 0 → c'.min_index = 0) := by
  unfold Config.add_symbol at h
  simp only at h
  split at h
  · rename_i hlt
    injection h with h
    subst h
    refine ⟨hlt, by simp, ?_, ?_⟩
    · simp only
      split <;> omega
    · intro h0
      simp only
      split
      · exact h0
      · split <;> omega
  · cases h

/-! ## Configurations built by `add_symbol` -/

theorem add_symbols_spec {ops : List (Nat × Nat)} :
    ∀ {c c' : Config}, c.add_symbols ops = some c' →
      c'.symbols.length = c.symbols.length
      ∧ (∀ p ∈ ops, p.1 / 21 < c.symbols.length)
      ∧ (c.min_index = 0 → c'.min_index = 0)
      ∧ c.max_index ≤ c'.max_index
      ∧ (∀ p ∈ ops, p.1 / 21 ≤ c'.max_index)
      ∧ (c'.max_index = c.max_index ∨ ∃ p ∈ ops, c'.max_index = p.1 / 21)
      ∧ ∀ i k, (c'.symbols.getD i 0).testBit k
          = ((c.symbols.getD i 0).testBit k
              || ops.any (fun p => decide (p.1 / 21 = i)
                    && (shifted_value p.2 ((p.1 % 21) * 3)).testBit k)) := by
  induction ops with
  | nil =>
    intro c c' h
    simp only [Config.add_symbols, Option.some.injEq] at h
    subst h
    simp
  | cons p rest ih =>
    intro c c' h
    obtain ⟨s, v⟩ := p
    simp only [Config.add_symbols] at h
    cases h1 : c.add_symbol s v with
    | none => rw [h1] at h; cases h
    | some c1 =>
      rw [h1] at h
      obtain ⟨hlen, hb, hmin, hle, hmax, hor, hbits⟩ := ih h
      obtain ⟨b1, b2, b3, b4⟩ := add_symbol_bound h1
      refine ⟨by omega, ?_, fun h0 => hmin (b4 h0), by omega, ?_, ?_, ?_⟩
      · intro p hp
        rcases List.mem_cons.1 hp with rfl | hp
        · exact b1
        · have := hb p hp
          omega
      · intro p hp
        rcases List.mem_cons.1 hp with rfl | hp
        · simp only
          omega
        · exact hmax p hp
      · rcases hor with e | ⟨p, hp, e⟩
        · rcases Nat.le_total c.max_index (s / 21) with hc | hc
          · right
            exact ⟨(s, v), List.mem_cons_self _ _, by simp only; omega⟩
          · left
            omega
        · right
          exact ⟨p, List.mem_cons_of_mem _ hp, e⟩
      · intro i k
        rw [hbits i k, add_symbol_getD h1 i]
        by_cases hi : i = s / 21
        · subst hi
          simp [Bool.or_assoc]
        · have : ¬ (s / 21 = i) := fun e => hi e.symm
          simp [hi, this]

theorem add_symbols_isSome {ops : List (Nat × Nat)} :
    ∀ {c : Config}, (∀ p ∈ ops, p.1 / 21 < c.symbols.length) →
      ∃ c', c.add_symbols ops = some c' := by
  induction ops with
  | nil => intro c _; exact ⟨c, rfl⟩
  | cons p rest ih =>
    intro c h
    obtain ⟨s, v⟩ := p
    have hs : s / 21 < c.symbols.length := h (s, v) (List.mem_cons_self _ _)
    cases h1 : c.add_symbol s v with
    | none =>
      exfalso
      simp [Config.add_symbol, hs] at h1
    | some c1 =>
      have hlen := (add_symbol_bound h1).2.1
      obtain ⟨c', hc'⟩ := ih (c := c1) (fun p hp => by
        have := h p (List.mem_cons_of_mem _ hp)
        omega)
      exact ⟨c', by simp only [Config.add_symbols, h1, hc']⟩

theorem getD_new (cap i : Nat) : (Config.new cap).symbols.getD i 0 = 0 := by
  simp only [Config.new, List.getD_eq_getElem?_getD, List.getElem?_replicate]
  split <;> rfl

/-- The bit `k` of a value at most 3 shifted to the slot of `s`, read at slot `j` bit `r`. -/
theorem testBit_shifted_slot {s v : Nat} (hv : v ≤ 3) (j r : Nat) (hj : j < 21) (hr : r < 3) :
    (shifted_value v ((s % 21) * 3)).testBit (3 * j + r)
      = (decide (s % 21 = j) && v.testBit r) := by
  rw [testBit_shifted_value]
  have h64 : 3 * j + r < 64 := by omega
  have hhigh : ∀ m, 2 ≤ m → v.testBit m = false := by
    intro m hm
    apply Nat.testBit_lt_two_pow
    calc v < 2 ^ 2 := by omega
      _ ≤ 2 ^ m := Nat.pow_le_pow_right (by norm_num) hm
  by_cases hjs : s % 21 = j
  · subst hjs
    have : 3 * (s % 21) + r - s % 21 * 3 = r := by omega
    simp [h64, this]
    intro hlt
    omega
  · simp only [h64, decide_True, Bool.true_and, hjs, decide_False, Bool.false_and]
    rcases Nat.lt_or_ge (3 * j + r) (s % 21 * 3) with hlt | hge
    · have : ¬ (s % 21 * 3 ≤ 3 * j + r) := by omega
      simp [this]
    · rw [hhigh _ (by omega)]
      simp

/-- The facts about a configuration obtained from the empty one by `add_symbol` calls whose
values are at most 3. -/
theorem built_facts {cap : Nat} {ops : List (Nat × Nat)} {c : Config}
    (hv : ∀ p ∈ ops, p.2 ≤ 3) (h : (Config.new cap).add_symbols ops = some c) :
    c.symbols.length = cap ∧ c.min_index = 0
      ∧ (∀ i, WordOK (c.symbols.getD i 0))
      ∧ (∀ i, c.max_index < i → c.symbols.getD i 0 = 0)
      ∧ (∀ p ∈ ops, p.1 / 21 ≤ c.max_index ∧ p.1 / 21 < cap)
      ∧ (∀ i j r, j < 21 → r < 3 → (c.symbols.getD i 0).testBit (3 * j + r)
            = ops.any (fun p => decide (p.1 = i * 21 + j) && p.2.testBit r)) := by
  obtain ⟨hlen, hb, hmin, hle, hmax, hor, hbits⟩ := add_symbols_spec h
  have hcap : (Config.new cap).symbols.length = cap := by simp [Config.new]
  have key : ∀ i j r, j < 21 → r < 3 → (c.symbols.getD i 0).testBit (3 * j + r)
            = ops.any (fun p => decide (p.1 = i * 21 + j) && p.2.testBit r) := by
    intro i j r hj hr
    rw [hbits, getD_new]
    simp only [Nat.zero_testBit, Bool.false_or]
    apply Bool.eq_iff_iff.2
    simp only [List.any_eq_true, Bool.and_eq_true, decide_eq_true_eq]
    constructor
    · rintro ⟨p, hp, h1, h2⟩
      rw [testBit_shifted_slot (hv p hp) j r hj hr] at h2
      simp only [Bool.and_eq_true, decide_eq_true_eq] at h2
      exact ⟨p, hp, by omega, h2.2⟩
    · rintro ⟨p, hp, h1, h2⟩
      refine ⟨p, hp, by omega, ?_⟩
      rw [testBit_shifted_slot (hv p hp) j r hj hr]
      simp only [Bool.and_eq_true, decide_eq_true_eq]
      exact ⟨by omega, h2⟩
  refine ⟨by rw [hlen, hcap], hmin rfl, ?_, ?_, ?_, key⟩
  · intro i k hk
    rw [hbits, getD_new] at hk
    simp only [Nat.zero_testBit, Bool.false_or, List.any_eq_true, Bool.and_eq_true,
      decide_eq_true_eq] at hk
    obtain ⟨p, hp, _, h2⟩ := hk
    rw [testBit_shifted_value] at h2
    simp only [Bool.and_eq_true, decide_eq_true_eq] at h2
    obtain ⟨h64, hpos, hbit⟩ := h2
    have hsmall : k - p.1 % 21 * 3 < 2 := by
      by_contra hge
      have : p.2.testBit (k - p.1 % 21 * 3) = false := by
        apply Nat.testBit_lt_two_pow
        calc p.2 < 2 ^ 2 := by have := hv p hp; omega
          _ ≤ 2 ^ (k - p.1 % 21 * 3) := Nat.pow_le_pow_right (by norm_num) (by omega)
      rw [this] at hbit
      cases hbit
    constructor <;> omega
  · intro i hi
    apply Nat.eq_of_testBit_eq
    intro k
    rw [hbits, getD_new]
    simp only [Nat.zero_testBit, Bool.false_or]
    apply Bool.eq_false_iff.2
    intro hany
    simp only [List.any_eq_true, Bool.and_eq_true, decide_eq_true_eq] at hany
    obtain ⟨p, hp, h1, _⟩ := hany
    have := hmax p hp
    omega
  · intro p hp
    have h1 := hmax p hp
    have h2 := hb p hp
    rw [hcap] at h2
    exact ⟨h1, h2⟩

theorem built_inv {cap : Nat} {ops : List (Nat × Nat)} {c : Config}
    (hv : ∀ p ∈ ops, p.2 ≤ 3) (h : (Config.new cap).add_symbols ops = some c) : c.Inv := by
  obtain ⟨_, h1, h2, h3, _, _⟩ := built_facts hv h
  exact ⟨h1, h2, h3⟩

theorem value_of_eq_slot (c : Config) (sid : Nat) :
    c.value_of sid = slot (c.symbols.getD (sid / 21) 0) (sid % 21) := rfl

theorem built_value_of_testBit {cap : Nat} {ops : List (Nat × Nat)} {c : Config}
    (hv : ∀ p ∈ ops, p.2 ≤ 3) (h : (Config.new cap).add_symbols ops = some c) (sid r : Nat) :
    (c.value_of sid).testBit r
      = (decide (r < 3) && ops.any (fun p => decide (p.1 = sid) && p.2.testBit r)) := by
  rw [value_of_eq_slot, testBit_slot]
  by_cases hr : r < 3
  · have hk := (built_facts hv h).2.2.2.2.2 (sid / 21) (sid % 21) r (Nat.mod_lt _ (by norm_num)) hr
    rw [hk]
    have : sid / 21 * 21 + sid % 21 = sid := by omega
    rw [this]
  · simp [hr]

theorem built_value_of_mem {cap : Nat} {ops : List (Nat × Nat)} {c : Config}
    (hv : ∀ p ∈ ops, p.2 ≤ 3) (hd : (ops.map Prod.fst).Nodup)
    (h : (Config.new cap).add_symbols ops = some c) {sid v : Nat} (hm : (sid, v) ∈ ops) :
    c.value_of sid = v := by
  apply Nat.eq_of_testBit_eq
  intro r
  rw [built_value_of_testBit hv h]
  have hv3 : v ≤ 3 := hv _ hm
  by_cases hr : r < 3
  · simp only [hr, decide_True, Bool.true_and]
    apply Bool.eq_iff_iff.2
    simp only [List.any_eq_true, Bool.and_eq_true, decide_eq_true_eq]
    constructor
    · rintro ⟨p, hp, h1, h2⟩
      have : p = (sid, v) := by
        have hinj := List.inj_on_of_nodup_map hd hp hm
        exact hinj h1
      rw [this] at h2
      exact h2
    · intro h2
      exact ⟨(sid, v), hm, rfl, h2⟩
  · simp only [hr, decide_False, Bool.false_and]
    symm
    apply Nat.testBit_lt_two_pow
    calc v < 2 ^ 2 := by omega
      _ ≤ 2 ^ r := Nat.pow_le_pow_right (by norm_num) (by omega)

theorem built_value_of_not_mem {cap : Nat} {ops : List (Nat × Nat)} {c : Config}
    (hv : ∀ p ∈ ops, p.2 ≤ 3)
    (h : (Config.new cap).add_symbols ops = some c) {sid : Nat}
    (hm : sid ∉ ops.map Prod.fst) : c.value_of sid = 0 := by
  apply Nat.eq_of_testBit_eq
  intro r
  rw [built_value_of_testBit hv h]
  simp only [Nat.zero_testBit, Bool.and_eq_false_imp, decide_eq_true_eq]
  intro _
  apply Bool.eq_false_iff.2
  intro hany
  simp only [List.any_eq_true, Bool.and_eq_true, decide_eq_true_eq] at hany
  obtain ⟨p, hp, h1, _⟩ := hany
  exact hm (List.mem_map.2 ⟨p, hp, h1⟩)

/-! ## The conflict test -/

theorem conflict_eq_true_iff (A B : Config) :
    A.conflict B = true ↔
      ∃ i, max A.min_index B.min_index ≤ i ∧ i ≤ max A.max_index B.max_index
        ∧ incompatible (A.symbols.getD i 0) (B.symbols.getD i 0) = true := by
  unfold Config.conflict
  simp only [List.any_eq_true, List.mem_range'_1]
  constructor
  · rintro ⟨i, ⟨h1, h2⟩, h3⟩
    exact ⟨i, h1, by omega, h3⟩
  · rintro ⟨i, h1, h2, h3⟩
    exact ⟨i, ⟨h1, by omega⟩, h3⟩

theorem incompatible_comm (a b : Nat) : incompatible a b = incompatible b a := by
  unfold incompatible
  rw [Nat.xor_comm]

theorem conflict_comm (A B : Config) : A.conflict B = B.conflict A := by
  apply Bool.eq_iff_iff.2
  rw [conflict_eq_true_iff, conflict_eq_true_iff]
  constructor
  · rintro ⟨i, h1, h2, h3⟩
    exact ⟨i, by rw [Nat.max_comm]; exact h1, by rw [Nat.max_comm]; exact h2,
      by rw [incompatible_comm]; exact h3⟩
  · rintro ⟨i, h1, h2, h3⟩
    exact ⟨i, by rw [Nat.max_comm]; exact h1, by rw [Nat.max_comm]; exact h2,
      by rw [incompatible_comm]; exact h3⟩

theorem slot_ne_zero_lt {w j : Nat} (hw : WordOK w) (h : slot w j ≠ 0) : j < 21 := by
  obtain ⟨r, hr⟩ := Nat.ne_zero_implies_bit_true h
  rw [testBit_slot] at hr
  simp only [Bool.and_eq_true, decide_eq_true_eq] at hr
  have := hw _ hr.2
  omega

/-- Under the store invariant, `conflict` holds exactly when some symbol has non-zero and
different slots on the two sides. -/
theorem conflict_iff_value_of {A B : Config} (hA : A.Inv) (hB : B.Inv) :
    A.conflict B = true ↔
      ∃ sid, A.value_of sid ≠ 0 ∧ B.value_of sid ≠ 0 ∧ A.value_of sid ≠ B.value_of sid := by
  rw [conflict_eq_true_iff]
  constructor
  · rintro ⟨i, _, _, h3⟩
    rw [incompatible_iff (hA.words i) (hB.words i)] at h3
    obtain ⟨j, hj, h⟩ := h3
    refine ⟨i * 21 + j, ?_⟩
    have e1 : (i * 21 + j) / 21 = i := by omega
    have e2 : (i * 21 + j) % 21 = j := by omega
    simp only [value_of_eq_slot, e1, e2]
    exact h
  · rintro ⟨sid, h1, h2, h3⟩
    simp only [value_of_eq_slot] at h1 h2 h3
    refine ⟨sid / 21, by rw [hA.min_zero, hB.min_zero]; simp, ?_, ?_⟩
    · by_contra hgt
      have hz := hA.beyond (sid / 21) (by omega)
      rw [hz, slot_zero] at h1
      exact h1 rfl
    · rw [incompatible_iff (hA.words _) (hB.words _)]
      exact ⟨sid % 21, Nat.mod_lt _ (by norm_num), h1, h2, h3⟩

/-! ## The conflict test on built configurations -/

/-- The conflict test on two built configurations, in terms of the assigned pairs. -/
theorem conflict_built_pairs (cap : Nat) (opsA opsB : List (Nat × Nat))
    (A B : Config)
    (hvA : ∀ p ∈ opsA, p.2 = 1 ∨ p.2 = 2 ∨ p.2 = 3)
    (hvB : ∀ p ∈ opsB, p.2 = 1 ∨ p.2 = 2 ∨ p.2 = 3)
    (hdA : (opsA.map Prod.fst).Nodup) (hdB : (opsB.map Prod.fst).Nodup)
    (hA : (Config.new cap).add_symbols opsA = some A)
    (hB : (Config.new cap).add_symbols opsB = some B) :
    A.conflict B = true ↔ ∃ sid va vb, (sid, va) ∈ opsA ∧ (sid, vb) ∈ opsB ∧ va ≠ vb := by
  have hvA3 : ∀ p ∈ opsA, p.2 ≤ 3 := fun p hp => by rcases hvA p hp with h | h | h <;> omega
  have hvB3 : ∀ p ∈ opsB, p.2 ≤ 3 := fun p hp => by rcases hvB p hp with h | h | h <;> omega
  rw [conflict_iff_value_of (built_inv hvA3 hA) (built_inv hvB3 hB)]
  constructor
  · rintro ⟨sid, ha, hb, hne⟩
    have hmA : sid ∈ opsA.map Prod.fst := by
      by_contra hn
      exact ha (built_value_of_not_mem hvA3 hA hn)
    have hmB : sid ∈ opsB.map Prod.fst := by
      by_contra hn
      exact hb (built_value_of_not_mem hvB3 hB hn)
    obtain ⟨⟨s1, va⟩, hpa, rfl⟩ := List.mem_map.1 hmA
    obtain ⟨⟨s2, vb⟩, hpb, hs⟩ := List.mem_map.1 hmB
    simp only at hs
    subst hs
    refine ⟨s2, va, vb, hpa, hpb, ?_⟩
    rw [built_value_of_mem hvA3 hdA hA hpa, built_value_of_mem hvB3 hdB hB hpb] at hne
    exact hne
  · rintro ⟨sid, va, vb, hpa, hpb, hne⟩
    refine ⟨sid, ?_, ?_, ?_⟩
    · rw [built_value_of_mem hvA3 hdA hA hpa]
      rcases hvA _ hpa with h | h | h <;> simp only at h <;> omega
    · rw [built_value_of_mem hvB3 hdB hB hpb]
      rcases hvB _ hpb with h | h | h <;> simp only at h <;> omega
    · rw [built_value_of_mem hvA3 hdA hA hpa, built_value_of_mem hvB3 hdB hB hpb]
      exact hne

/-- C1: for two configurations of equal capacity built from the empty configuration by
`add_symbol` calls with values in {1,2,3}, every sid assigned at most once, `conflict`
returns `true` exactly when some sid is set on both sides with different values, and
`false` exactly when the two sides agree on every shared symbol. -/
theorem conflict_iff_shared_symbol_differs (cap : Nat) (opsA opsB : List (Nat × Nat))
    (A B : Config)
    (hvA : ∀ p ∈ opsA, p.2 = 1 ∨ p.2 = 2 ∨ p.2 = 3)
    (hvB : ∀ p ∈ opsB, p.2 = 1 ∨ p.2 = 2 ∨ p.2 = 3)
    (hdA : (opsA.map Prod.fst).Nodup) (hdB : (opsB.map Prod.fst).Nodup)
    (hA : (Config.new cap).add_symbols opsA = some A)
    (hB : (Config.new cap).add_symbols opsB = some B) :
    (A.conflict B = true ↔
        ∃ sid, A.value_of sid ≠ 0 ∧ B.value_of sid ≠ 0 ∧ A.value_of sid ≠ B.value_of sid)
    ∧ (A.conflict B = true ↔ ∃ sid va vb, (sid, va) ∈ opsA ∧ (sid, vb) ∈ opsB ∧ va ≠ vb)
    ∧ (A.conflict B = false ↔
        ∀ sid va vb, (sid, va) ∈ opsA → (sid, vb) ∈ opsB → va = vb) := by
  have hvA3 : ∀ p ∈ opsA, p.2 ≤ 3 := fun p hp => by rcases hvA p hp with h | h | h <;> omega
  have hvB3 : ∀ p ∈ opsB, p.2 ≤ 3 := fun p hp => by rcases hvB p hp with h | h | h <;> omega
  have hpairs := conflict_built_pairs cap opsA opsB A B hvA hvB hdA hdB hA hB
  refine ⟨conflict_iff_value_of (built_inv hvA3 hA) (built_inv hvB3 hB), hpairs, ?_⟩
  rw [← Bool.not_eq_true, hpairs]
  constructor
  · intro h sid va vb ha hb
    by_contra hne
    exact h ⟨sid, va, vb, ha, hb, hne⟩
  · rintro h ⟨sid, va, vb, ha, hb, hne⟩
    exact hne (h sid va vb ha hb)

/-- C1, at a concrete input: `{22 = m, 3 = y}` and `{3 = y, 22 = n}` in stores of two words
conflict, since symbol 22 is set to `m` on one side and to `n` on the other. -/
theorem conflict_iff_shared_symbol_differs_witness :
    (∀ p ∈ [(22, 2), (3, 3)], p.2 = 1 ∨ p.2 = 2 ∨ p.2 = 3)
    ∧ (∀ p ∈ [(3, 3), (22, 1)], p.2 = 1 ∨ p.2 = 2 ∨ p.2 = 3)
    ∧ (Config.new 2).add_symbols [(22, 2), (3, 3)]
        = some { symbols := [1536, 16], max_index := 1, min_index := 0 }
    ∧ (Config.new 2).add_symbols [(3, 3), (22, 1)]
        = some { symbols := [1536, 8], max_index := 1, min_index := 0 }
    ∧ Config.conflict { symbols := [1536, 16], max_index := 1, min_index := 0 }
        { symbols := [1536, 8], max_index := 1, min_index := 0 } = true :=
  ⟨by decide, by decide, by decide, by decide,
    (conflict_iff_shared_symbol_differs 2 [(22, 2), (3, 3)] [(3, 3), (22, 1)]
      { symbols := [1536, 16], max_index := 1, min_index := 0 }
      { symbols := [1536, 8], max_index := 1, min_index := 0 }
      (by decide) (by decide) (by decide) (by decide) (by decide) (by decide)).2.1.2
      ⟨22, 2, 1, by decide, by decide, by decide⟩⟩

/-- C2, as stated, fails: with `A = {0 = y}` and `B = {0 = n}` in stores of 100 words,
`conflict` returns `true`, not `false`. -/
theorem conflict_y_n_not_false :
    conflict_of_ops 100 [(0, 3)] [(0, 1)] = some true
    ∧ conflict_of_ops 100 [(0, 3)] [(0, 1)] ≠ some false := by
  decide

/-- C2, amended: for every sid `X` within the capacity and all values `va`, `vb` in {1,2,3},
`conflict` on `{X = va}` and `{X = vb}` returns `true` exactly when `va ≠ vb`; in particular
it returns `true` for `y` against `n`. -/
theorem conflict_single_symbol (cap X va vb : Nat) (hX : X / 21 < cap)
    (hva : va = 1 ∨ va = 2 ∨ va = 3) (hvb : vb = 1 ∨ vb = 2 ∨ vb = 3) :
    conflict_of_ops cap [(X, va)] [(X, vb)] = some (decide (va ≠ vb))
    ∧ conflict_of_ops cap [(X, 3)] [(X, 1)] = some true := by
  have hcap : (Config.new cap).symbols.length = cap := by simp [Config.new]
  have key : ∀ a b : Nat, (a = 1 ∨ a = 2 ∨ a = 3) → (b = 1 ∨ b = 2 ∨ b = 3) →
      conflict_of_ops cap [(X, a)] [(X, b)] = some (decide (a ≠ b)) := by
    intro a b ha hb
    obtain ⟨A, hA⟩ := @add_symbols_isSome [(X, a)] (Config.new cap)
      (by intro p hp; simp only [List.mem_singleton] at hp; subst hp; rw [hcap]; exact hX)
    obtain ⟨B, hB⟩ := @add_symbols_isSome [(X, b)] (Config.new cap)
      (by intro p hp; simp only [List.mem_singleton] at hp; subst hp; rw [hcap]; exact hX)
    have h := conflict_built_pairs cap [(X, a)] [(X, b)] A B
      (by intro p hp; simp only [List.mem_singleton] at hp; subst hp; exact ha)
      (by intro p hp; simp only [List.mem_singleton] at hp; subst hp; exact hb)
      (by simp) (by simp) hA hB
    unfold conflict_of_ops
    rw [hA, hB]
    simp only [Option.some.injEq]
    apply Bool.eq_iff_iff.2
    rw [h]
    simp only [List.mem_singleton, Prod.mk.injEq, decide_eq_true_eq]
    constructor
    · rintro ⟨sid, x, y, ⟨_, rfl⟩, ⟨_, rfl⟩, hne⟩
      exact hne
    · intro hne
      exact ⟨X, a, b, ⟨rfl, rfl⟩, ⟨rfl, rfl⟩, hne⟩
  exact ⟨key va vb hva hvb, by simpa using key 3 1 (by simp) (by simp)⟩

/-- C2 amended, at a concrete input: `{25 = m}` against `{25 = y}`. -/
theorem conflict_single_symbol_witness :
    25 / 21 < 100 ∧ conflict_of_ops 100 [(25, 2)] [(25, 3)] = some true :=
  ⟨by decide, (conflict_single_symbol 100 25 2 3 (by decide) (by decide) (by decide)).1⟩

/-! ## Reading a configuration back: `get_set_symbols` -/

theorem scan_val_eq_slot (w j : Nat) : ((w >>> (j * 3)) % 2 ^ 32) &&& 7 = slot w j := by
  have h7 : (7 : Nat) = 2 ^ 3 - 1 := by norm_num
  have h8 : (8 : Nat) = 2 ^ 3 := by norm_num
  rw [h7, Nat.and_pow_two_sub_one_eq_mod, slot, Nat.mul_comm j 3, h8,
    Nat.mod_mod_of_dvd _ (Nat.pow_dvd_pow 2 (by norm_num : 3 ≤ 32))]

theorem umap_insert_fresh {syms : List (Nat × Nat)} {k v : Nat}
    (h : k ∉ syms.map Prod.fst) : umap_insert syms k v = syms ++ [(k, v)] := by
  unfold umap_insert
  have : syms.lookup k = none := by
    rw [List.lookup_eq_none_iff]
    intro p hp
    rw [bne_iff_ne]
    intro hk
    exact h (List.mem_map.2 ⟨p, hp, hk.symm⟩)
  simp [this]

theorem scan_slots_eq (w i : Nat) (hw : ∀ j, slot w j ≤ 3) :
    ∀ (js : List Nat) (syms : List (Nat × Nat)), js.Nodup →
      (∀ j ∈ js, i * 21 + j ∉ syms.map Prod.fst) →
      scan_slots w i js syms
        = some (syms ++ (js.filter fun j => slot w j ≠ 0).map fun j => (i * 21 + j, slot w j)) := by
  intro js
  induction js with
  | nil => intro syms _ _; simp [scan_slots]
  | cons j js ih =>
    intro syms hnd hfresh
    have hnd' := (List.nodup_cons.1 hnd)
    simp only [scan_slots, scan_val_eq_slot]
    by_cases hz : slot w j = 0
    · simp only [hz, if_true]
      rw [ih syms hnd'.2 (fun j' hj' => hfresh j' (List.mem_cons_of_mem _ hj'))]
      simp [List.filter_cons, hz]
    · simp only [hz, if_false, hw j, if_true]
      rw [umap_insert_fresh (hfresh j (List.mem_cons_self _ _))]
      rw [ih _ hnd'.2]
      · simp [List.filter_cons, hz]
      · intro j' hj'
        simp only [List.map_append, List.map_cons, List.map_nil, List.mem_append,
          List.mem_singleton, not_or]
        refine ⟨hfresh j' (List.mem_cons_of_mem _ hj'), ?_⟩
        intro e
        have : j' = j := by omega
        exact hnd'.1 (this ▸ hj')

theorem word_entries_zero (i : Nat) : word_entries 0 i = [] := by
  simp [word_entries, slot_zero]

theorem mem_word_entries {w i sid v : Nat} :
    (sid, v) ∈ word_entries w i ↔ sid / 21 = i ∧ v = slot w (sid % 21) ∧ v ≠ 0 := by
  simp only [word_entries, List.mem_map, List.mem_filter, List.mem_range, Prod.mk.injEq,
    decide_eq_true_eq]
  constructor
  · rintro ⟨j, ⟨hj, hne⟩, rfl, rfl⟩
    have e1 : (i * 21 + j) / 21 = i := by omega
    have e2 : (i * 21 + j) % 21 = j := by omega
    rw [e1, e2]
    exact ⟨rfl, rfl, hne⟩
  · rintro ⟨rfl, rfl, hne⟩
    exact ⟨sid % 21, ⟨Nat.mod_lt _ (by norm_num), hne⟩, by omega, rfl⟩

theorem scan_words_eq (c : Config) (hw : ∀ i, WordOK (c.symbols.getD i 0)) :
    ∀ (is : List Nat) (syms : List (Nat × Nat)), is.Nodup →
      (∀ p ∈ syms, p.1 / 21 ∉ is) →
      scan_words c is syms
        = some (syms ++ is.flatMap fun i => word_entries (c.symbols.getD i 0) i) := by
  intro is
  induction is with
  | nil => intro syms _ _; simp [scan_words]
  | cons i is ih =>
    intro syms hnd hfresh
    have hnd' := (List.nodup_cons.1 hnd)
    simp only [scan_words]
    by_cases hz : c.symbols.getD i 0 = 0
    · simp only [hz, if_true]
      rw [ih syms hnd'.2 (fun p hp hmem => hfresh p hp (List.mem_cons_of_mem _ hmem))]
      rw [List.flatMap_cons, hz, word_entries_zero, List.nil_append]
    · simp only [hz, if_false]
      rw [scan_slots_eq _ i (fun j => slot_le_three (hw i) j) _ _ (List.nodup_range 21)]
      · simp only
        rw [ih _ hnd'.2]
        · rw [List.flatMap_cons, List.append_assoc]
          rfl
        · intro p hp hmem
          rcases List.mem_append.1 hp with hp | hp
          · exact hfresh p hp (List.mem_cons_of_mem _ hmem)
          · have hp' : (p.1, p.2) ∈ word_entries (c.symbols.getD i 0) i := hp
            have := (mem_word_entries.1 hp').1
            rw [this] at hmem
            exact hnd'.1 hmem
      · intro j _ hmem
        obtain ⟨p, hp, hk⟩ := List.mem_map.1 hmem
        apply hfresh p hp
        rw [hk]
        have : (i * 21 + j) / 21 = i := by
          have := List.mem_range.1 ‹j ∈ List.range 21›
          omega
        rw [this]
        exact List.mem_cons_self _ _

/-- Under the store invariant `get_set_symbols` passes its assertion and returns the entries of
the words `0 .. max_index`, in order. -/
theorem get_set_symbols_eq {c : Config} (hc : c.Inv) :
    c.get_set_symbols
      = some ((List.range' 0 (c.max_index + 1)).flatMap
          fun i => word_entries (c.symbols.getD i 0) i) := by
  unfold Config.get_set_symbols
  rw [hc.min_zero, scan_words_eq c hc.words _ _ (List.nodup_range' _ _) (by simp)]
  simp

theorem mem_get_set_symbols {c : Config} (hc : c.Inv) {out : List (Nat × Nat)}
    (h : c.get_set_symbols = some out) (sid v : Nat) :
    (sid, v) ∈ out ↔ c.value_of sid = v ∧ v ≠ 0 := by
  rw [get_set_symbols_eq hc] at h
  injection h with h
  subst h
  simp only [List.mem_flatMap, List.mem_range'_1, value_of_eq_slot]
  constructor
  · rintro ⟨i, _, hm⟩
    obtain ⟨rfl, rfl, hne⟩ := mem_word_entries.1 hm
    exact ⟨rfl, hne⟩
  · rintro ⟨rfl, hne⟩
    refine ⟨sid / 21, ⟨Nat.zero_le _, ?_⟩, mem_word_entries.2 ⟨rfl, rfl, hne⟩⟩
    by_contra hgt
    have hz := hc.beyond (sid / 21) (by omega)
    rw [hz, slot_zero] at hne
    exact hne rfl

theorem get_set_symbols_keys_nodup {c : Config} (hc : c.Inv) {out : List (Nat × Nat)}
    (h : c.get_set_symbols = some out) : (out.map Prod.fst).Nodup := by
  rw [get_set_symbols_eq hc] at h
  injection h with h
  subst h
  rw [List.map_flatMap, List.nodup_flatMap]
  constructor
  · intro i _
    unfold word_entries
    rw [List.map_map]
    apply List.Nodup.map_on
    · intro a _ b _ hab
      simp only [Function.comp] at hab
      omega
    · exact (List.nodup_range 21).filter _
  · apply List.Pairwise.imp_of_mem _ (List.nodup_range' 0 (c.max_index + 1))
    intro a b _ _ hab
    intro k hka hkb
    obtain ⟨p, hp, rfl⟩ := List.mem_map.1 hka
    obtain ⟨q, hq, hqk⟩ := List.mem_map.1 hkb
    have h1 := (mem_word_entries.1 (show (p.1, p.2) ∈ _ from hp)).1
    have h2 := (mem_word_entries.1 (show (q.1, q.2) ∈ _ from hq)).1
    rw [hqk] at h2
    exact hab (h1.symm.trans h2)

/-- C7: round trip of the bit-packed store.  For a mapping given as a list `ops` of
`(sid, value)` pairs with distinct sids, values in {1,2,3} and `sid / 21` below the capacity,
the `add_symbol` calls (in the order of the list, which is arbitrary) succeed, and
`get_set_symbols` then passes its assertion and returns exactly the entries of `ops`, each
sid once; the value of `sid` sits in bits `[3 * (sid % 21), 3 * (sid % 21) + 3)` of word
`sid / 21`. -/
theorem add_symbols_get_set_symbols_roundtrip (cap : Nat) (ops : List (Nat × Nat))
    (hv : ∀ p ∈ ops, p.2 = 1 ∨ p.2 = 2 ∨ p.2 = 3)
    (hd : (ops.map Prod.fst).Nodup)
    (hcap : ∀ p ∈ ops, p.1 / 21 < cap) :
    ∃ c out, (Config.new cap).add_symbols ops = some c ∧ c.get_set_symbols = some out
      ∧ (∀ p, p ∈ out ↔ p ∈ ops) ∧ (out.map Prod.fst).Nodup ∧ out.Perm ops
      ∧ ∀ p ∈ ops, (c.symbols.getD (p.1 / 21) 0 >>> (3 * (p.1 % 21))) % 8 = p.2 := by
  have hv3 : ∀ p ∈ ops, p.2 ≤ 3 := fun p hp => by rcases hv p hp with h | h | h <;> omega
  obtain ⟨c, hc⟩ := @add_symbols_isSome ops (Config.new cap)
    (by intro p hp; simpa [Config.new] using hcap p hp)
  have hinv := built_inv hv3 hc
  have hout := get_set_symbols_eq hinv
  have hmem : ∀ p, p ∈ (List.range' 0 (c.max_index + 1)).flatMap
      (fun i => word_entries (c.symbols.getD i 0) i) ↔ p ∈ ops := by
    rintro ⟨sid, v⟩
    rw [mem_get_set_symbols hinv hout]
    constructor
    · rintro ⟨hval, hne⟩
      have hm : sid ∈ ops.map Prod.fst := by
        by_contra hn
        rw [built_value_of_not_mem hv3 hc hn] at hval
        exact hne hval.symm
      obtain ⟨⟨s, v'⟩, hp, rfl⟩ := List.mem_map.1 hm
      rw [built_value_of_mem hv3 hd hc hp] at hval
      rw [← hval]
      exact hp
    · intro hp
      refine ⟨built_value_of_mem hv3 hd hc hp, ?_⟩
      rcases hv _ hp with h | h | h <;> simp only at h <;> omega
  have hkeys := get_set_symbols_keys_nodup hinv hout
  refine ⟨c, _, hc, hout, hmem, hkeys, ?_, ?_⟩
  · exact (List.perm_ext_iff_of_nodup (List.Nodup.of_map _ hkeys) (List.Nodup.of_map _ hd)).2 hmem
  · rintro ⟨sid, v⟩ hp
    exact built_value_of_mem hv3 hd hc hp

/-- C7, at a concrete input: three symbols in two words, assigned out of order. -/
theorem add_symbols_get_set_symbols_roundtrip_witness :
    (∀ p ∈ [(22, 3), (1, 2), (20, 1)], p.2 = 1 ∨ p.2 = 2 ∨ p.2 = 3)
    ∧ ([(22, 3), (1, 2), (20, 1)].map Prod.fst).Nodup
    ∧ (∀ p ∈ [(22, 3), (1, 2), (20, 1)], p.1 / 21 < 2)
    ∧ ∃ c out, (Config.new 2).add_symbols [(22, 3), (1, 2), (20, 1)] = some c
      ∧ c.get_set_symbols = some out
      ∧ (∀ p, p ∈ out ↔ p ∈ [(22, 3), (1, 2), (20, 1)]) ∧ (out.map Prod.fst).Nodup
      ∧ out.Perm [(22, 3), (1, 2), (20, 1)]
      ∧ ∀ p ∈ [(22, 3), (1, 2), (20, 1)],
          (c.symbols.getD (p.1 / 21) 0 >>> (3 * (p.1 % 21))) % 8 = p.2 :=
  ⟨by decide, by decide, by decide,
    add_symbols_get_set_symbols_roundtrip 2 [(22, 3), (1, 2), (20, 1)]
      (by decide) (by decide) (by decide)⟩

/-! ## The merge of a clique -/

theorem lookup_some_mem {l : List (Nat × Nat)} {k v : Nat} (h : l.lookup k = some v) :
    (k, v) ∈ l := by
  obtain ⟨l₁, l₂, rfl, _⟩ := List.lookup_eq_some_iff.1 h
  simp

theorem lookup_of_mem_consistent {l : List (Nat × Nat)} {f : Nat → Nat}
    (hf : ∀ p ∈ l, p.2 = f p.1) {k v : Nat} (h : (k, v) ∈ l) : l.lookup k = some v := by
  cases hl : l.lookup k with
  | none =>
    exfalso
    have := List.lookup_eq_none_iff.1 hl (k, v) h
    simp at this
  | some old =>
    have h1 := hf _ (lookup_some_mem hl)
    have h2 := hf _ h
    simp only at h1 h2
    rw [h1, h2]

/-- Folding entries that all agree with one assignment `f` never reaches the disagreement
branch, and yields the union of the map and the entries. -/
theorem foldl_merge_entry_consistent (f : Nat → Nat) :
    ∀ (es : List (Nat × Nat)) (st : MergeState),
      (∀ p ∈ st.1, p.2 = f p.1) → (∀ p ∈ es, p.2 = f p.1) → (st.1.map Prod.fst).Nodup →
      (es.foldl merge_entry st).2 = st.2
      ∧ (∀ p, p ∈ (es.foldl merge_entry st).1 ↔ p ∈ st.1 ∨ p ∈ es)
      ∧ ((es.foldl merge_entry st).1.map Prod.fst).Nodup := by
  intro es
  induction es with
  | nil => intro st _ _ hnd; simp [hnd]
  | cons e es ih =>
    intro st hst hes hnd
    have he : e.2 = f e.1 := hes e (List.mem_cons_self _ _)
    have hes' : ∀ p ∈ es, p.2 = f p.1 := fun p hp => hes p (List.mem_cons_of_mem _ hp)
    rw [List.foldl_cons]
    cases hl : st.1.lookup e.1 with
    | some old =>
      have hmem := lookup_some_mem hl
      have hold : old = e.2 := by
        have := hst _ hmem
        simp only at this
        rw [this, he]
      have hstep : merge_entry st e = st := by
        simp [merge_entry, hl, hold]
      rw [hstep]
      obtain ⟨h1, h2, h3⟩ := ih st hst hes' hnd
      refine ⟨h1, ?_, h3⟩
      intro p
      rw [h2 p, List.mem_cons]
      constructor
      · rintro (h | h)
        · exact Or.inl h
        · exact Or.inr (Or.inr h)
      · rintro (h | h | h)
        · exact Or.inl h
        · left
          have hee : (e.1, old) = e := by rw [hold]
          rw [h, ← hee]
          exact hmem
        · exact Or.inr h
    | none =>
      have hstep : merge_entry st e = (st.1 ++ [(e.1, e.2)], st.2) := by
        simp [merge_entry, hl]
      rw [hstep]
      have hfresh : e.1 ∉ st.1.map Prod.fst := by
        intro hm
        obtain ⟨p, hp, hk⟩ := List.mem_map.1 hm
        have := List.lookup_eq_none_iff.1 hl p hp
        simp [hk] at this
      obtain ⟨h1, h2, h3⟩ := ih (st.1 ++ [(e.1, e.2)], st.2)
        (by
          intro p hp
          rcases List.mem_append.1 hp with hp | hp
          · exact hst p hp
          · simp only [List.mem_singleton] at hp
            subst hp
            exact he)
        hes'
        (by
          simp only [List.map_append, List.map_cons, List.map_nil]
          rw [List.nodup_append]
          refine ⟨hnd, by simp, ?_⟩
          intro a ha hb
          simp only [List.mem_singleton] at hb
          subst hb
          exact hfresh ha)
      refine ⟨h1, ?_, h3⟩
      intro p
      rw [h2 p]
      simp only [List.mem_append, List.mem_cons, List.not_mem_nil, or_false]
      constructor
      · rintro ((h | h) | h)
        · exact Or.inl h
        · exact Or.inr (Or.inl h)
        · exact Or.inr (Or.inr h)
      · rintro (h | h | h)
        · exact Or.inl (Or.inl h)
        · exact Or.inl (Or.inr h)
        · exact Or.inr h

/-- The merge loop over the members of a clique whose symbols all agree with one
assignment `f`. -/
theorem merge_clique_consistent (order : List (Nat × Nat) → List (Nat × Nat))
    (horder : ∀ l, (order l).Perm l) (configs : List Config) (f : Nat → Nat) :
    ∀ (clique : List Nat) (st : MergeState),
      (∀ u ∈ clique, ∃ c syms, configs[u]? = some c ∧ c.get_set_symbols = some syms
          ∧ ∀ p ∈ syms, p.2 = f p.1) →
      (∀ p ∈ st.1, p.2 = f p.1) → (st.1.map Prod.fst).Nodup →
      ∃ merged, merge_clique order configs clique st = some (merged, st.2)
        ∧ (∀ p ∈ merged, p.2 = f p.1)
        ∧ (merged.map Prod.fst).Nodup
        ∧ (∀ p, p ∈ merged ↔ p ∈ st.1 ∨ ∃ u ∈ clique, ∃ c syms, configs[u]? = some c
              ∧ c.get_set_symbols = some syms ∧ p ∈ syms) := by
  intro clique
  induction clique with
  | nil =>
    intro st _ hst hnd
    exact ⟨st.1, rfl, hst, hnd, by simp⟩
  | cons u rest ih =>
    intro st hcl hst hnd
    obtain ⟨c, syms, hc, hsyms, hf⟩ := hcl u (List.mem_cons_self _ _)
    have hperm := horder syms
    have hf' : ∀ p ∈ order syms, p.2 = f p.1 := fun p hp => hf p (hperm.mem_iff.1 hp)
    obtain ⟨h1, h2, h3⟩ := foldl_merge_entry_consistent f (order syms) st hst hf' hnd
    obtain ⟨merged, hm, hmf, hmnd, hmem⟩ := ih ((order syms).foldl merge_entry st)
      (fun v hv => hcl v (List.mem_cons_of_mem _ hv))
      (by
        intro p hp
        rcases (h2 p).1 hp with h | h
        · exact hst p h
        · exact hf' p h)
      h3
    refine ⟨merged, ?_, hmf, hmnd, ?_⟩
    · simp only [merge_clique, hc, hsyms]
      rw [hm, h1]
    · intro p
      rw [hmem p, h2 p]
      constructor
      · rintro ((h | h) | ⟨v, hv, h⟩)
        · exact Or.inl h
        · exact Or.inr ⟨u, List.mem_cons_self _ _, c, syms, hc, hsyms, hperm.mem_iff.1 h⟩
        · exact Or.inr ⟨v, List.mem_cons_of_mem _ hv, h⟩
      · rintro (h | ⟨v, hv, c', syms', hc', hsyms', hp⟩)
        · exact Or.inl (Or.inl h)
        · rcases List.mem_cons.1 hv with rfl | hv
          · rw [hc] at hc'
            injection hc' with hc'
            subst hc'
            rw [hsyms] at hsyms'
            injection hsyms' with hsyms'
            subst hsyms'
            exact Or.inl (Or.inr (hperm.mem_iff.2 hp))
          · exact Or.inr ⟨v, hv, c', syms', hc', hsyms', hp⟩

theorem built_of_map_eq {cap : Nat} {opss : List (List (Nat × Nat))} {configs : List Config}
    (hbuilt : opss.map (fun ops => (Config.new cap).add_symbols ops) = configs.map some)
    {u : Nat} {c : Config} (hc : configs[u]? = some c) :
    ∃ ops ∈ opss, (Config.new cap).add_symbols ops = some c := by
  have h := congrArg (fun l => l[u]?) hbuilt
  simp only [List.getElem?_map, hc, Option.map_some'] at h
  cases ho : opss[u]? with
  | none => rw [ho] at h; cases h
  | some ops =>
    rw [ho] at h
    simp only [Option.map_some', Option.some.injEq] at h
    exact ⟨ops, List.getElem?_mem ho, h⟩

/-- C3: for a clique whose members are pairwise non-conflicting (the configurations being
built by `add_symbol` calls with values in {1,2,3} in stores of equal capacity), the merge
loop never enters the disagreement branch (no diagnostic is written), whatever the iteration
order of the maps, and the merged map is the union of the members' assignments:
`merged[sid] = v` exactly when some member has `sid` set to `v`. -/
theorem merge_clique_union (cap : Nat) (opss : List (List (Nat × Nat)))
    (configs : List Config) (clique : List Nat)
    (order : List (Nat × Nat) → List (Nat × Nat)) (horder : ∀ l, (order l).Perm l)
    (hv : ∀ ops ∈ opss, ∀ p ∈ ops, p.2 = 1 ∨ p.2 = 2 ∨ p.2 = 3)
    (hbuilt : opss.map (fun ops => (Config.new cap).add_symbols ops) = configs.map some)
    (hidx : ∀ u ∈ clique, u < configs.length)
    (hpair : ∀ u ∈ clique, ∀ v ∈ clique, u ≠ v →
      (config_at configs u).conflict (config_at configs v) = false) :
    ∃ merged, merge_clique order configs clique ([], []) = some (merged, [])
      ∧ (merged.map Prod.fst).Nodup
      ∧ (∀ sid v, merged.lookup sid = some v ↔
          ∃ u ∈ clique, ∃ c syms, configs[u]? = some c ∧ c.get_set_symbols = some syms
            ∧ (sid, v) ∈ syms)
      ∧ (∀ sid v, merged.lookup sid = some v ↔
          ∃ u ∈ clique, ∃ c, configs[u]? = some c ∧ c.value_of sid = v ∧ v ≠ 0) := by
  classical
  have hinv : ∀ (u : Nat) (c : Config), configs[u]? = some c → c.Inv := by
    intro u c hc
    obtain ⟨ops, hops, hadd⟩ := built_of_map_eq hbuilt hc
    exact built_inv (fun p hp => by rcases hv ops hops p hp with h | h | h <;> omega) hadd
  have hagree : ∀ u ∈ clique, ∀ w ∈ clique, ∀ cu cw, configs[u]? = some cu →
      configs[w]? = some cw → ∀ sid, cu.value_of sid ≠ 0 → cw.value_of sid ≠ 0 →
      cu.value_of sid = cw.value_of sid := by
    intro u hu w hw cu cw hcu hcw sid h1 h2
    by_cases huw : u = w
    · subst huw
      rw [hcu] at hcw
      injection hcw with hcw
      rw [hcw]
    · have hconf := hpair u hu w hw huw
      simp only [config_at, List.getD_eq_getElem?_getD, hcu, hcw, Option.getD_some] at hconf
      by_contra hne
      have := (conflict_iff_value_of (hinv u cu hcu) (hinv w cw hcw)).2 ⟨sid, h1, h2, hne⟩
      rw [hconf] at this
      cases this
  let S : Nat → Nat → Prop := fun k v =>
    ∃ u ∈ clique, ∃ c, configs[u]? = some c ∧ c.value_of k = v ∧ v ≠ 0
  let f : Nat → Nat := fun k => if h : ∃ v, S k v then Classical.choose h else 0
  have hS : ∀ k v, S k v → v = f k := by
    intro k v hkv
    have hex : ∃ v, S k v := ⟨v, hkv⟩
    have hch : S k (Classical.choose hex) := Classical.choose_spec hex
    have hfk : f k = Classical.choose hex := by simp only [f, hex, dif_pos]
    rw [hfk]
    obtain ⟨u, hu, cu, hcu, e1, n1⟩ := hkv
    obtain ⟨w, hw, cw, hcw, e2, n2⟩ := hch
    rw [← e1, ← e2]
    exact hagree u hu w hw cu cw hcu hcw k (by rw [e1]; exact n1) (by rw [e2]; exact n2)
  have hmembers : ∀ u ∈ clique, ∃ c syms, configs[u]? = some c ∧ c.get_set_symbols = some syms
      ∧ ∀ p ∈ syms, p.2 = f p.1 := by
    intro u hu
    have hlt := hidx u hu
    have hc : configs[u]? = some configs[u] := List.getElem?_eq_getElem hlt
    have hci := hinv u _ hc
    refine ⟨configs[u], _, hc, get_set_symbols_eq hci, ?_⟩
    rintro ⟨k, v⟩ hp
    have := (mem_get_set_symbols hci (get_set_symbols_eq hci) k v).1 hp
    exact hS k v ⟨u, hu, _, hc, this.1, this.2⟩
  obtain ⟨merged, hm, hmf, hmnd, hmem⟩ := merge_clique_consistent order horder configs f
    clique ([], []) hmembers (by simp) (by simp)
  have hlook : ∀ sid v, merged.lookup sid = some v ↔
      ∃ u ∈ clique, ∃ c syms, configs[u]? = some c ∧ c.get_set_symbols = some syms
        ∧ (sid, v) ∈ syms := by
    intro sid v
    constructor
    · intro h
      have := (hmem (sid, v)).1 (lookup_some_mem h)
      simpa using this
    · intro h
      exact lookup_of_mem_consistent hmf ((hmem (sid, v)).2 (Or.inr h))
  refine ⟨merged, hm, hmnd, hlook, ?_⟩
  intro sid v
  rw [hlook]
  constructor
  · rintro ⟨u, hu, c, syms, hc, hsyms, hp⟩
    exact ⟨u, hu, c, hc, (mem_get_set_symbols (hinv u c hc) hsyms sid v).1 hp⟩
  · rintro ⟨u, hu, c, hc, hval⟩
    have hci := hinv u c hc
    exact ⟨u, hu, c, _, hc, get_set_symbols_eq hci,
      (mem_get_set_symbols hci (get_set_symbols_eq hci) sid v).2 hval⟩

/-- C3, at the input of the claim: with X, Y, Z the sids 0, 1, 2, the configurations
`A = {X=y, Y=n}`, `B = {Y=n, Z=m}`, `C = {X=y, Z=m}` are pairwise non-conflicting and merge to
`{X=y, Y=n, Z=m}` without a diagnostic. -/
theorem merge_clique_union_witness :
    (∀ ops ∈ [[(0, 3), (1, 1)], [(1, 1), (2, 2)], [(0, 3), (2, 2)]],
        ∀ p ∈ ops, p.2 = 1 ∨ p.2 = 2 ∨ p.2 = 3)
    ∧ [[(0, 3), (1, 1)], [(1, 1), (2, 2)], [(0, 3), (2, 2)]].map
          (fun ops => (Config.new 1).add_symbols ops)
        = [(⟨[11], 0, 0⟩ : Config), ⟨[136], 0, 0⟩, ⟨[131], 0, 0⟩].map some
    ∧ (∀ u ∈ [0, 1, 2], ∀ v ∈ [0, 1, 2], u ≠ v →
        (config_at [⟨[11], 0, 0⟩, ⟨[136], 0, 0⟩, ⟨[131], 0, 0⟩] u).conflict
          (config_at [⟨[11], 0, 0⟩, ⟨[136], 0, 0⟩, ⟨[131], 0, 0⟩] v) = false)
    ∧ merge_clique id [(⟨[11], 0, 0⟩ : Config), ⟨[136], 0, 0⟩, ⟨[131], 0, 0⟩] [0, 1, 2] ([], [])
        = some ([(0, 3), (1, 1), (2, 2)], [])
    ∧ ∃ merged, merge_clique id [(⟨[11], 0, 0⟩ : Config), ⟨[136], 0, 0⟩, ⟨[131], 0, 0⟩]
          [0, 1, 2] ([], []) = some (merged, [])
        ∧ (merged.map Prod.fst).Nodup
        ∧ (∀ sid v, merged.lookup sid = some v ↔
            ∃ u ∈ [0, 1, 2], ∃ c syms,
              [(⟨[11], 0, 0⟩ : Config), ⟨[136], 0, 0⟩, ⟨[131], 0, 0⟩][u]? = some c
              ∧ c.get_set_symbols = some syms ∧ (sid, v) ∈ syms)
        ∧ (∀ sid v, merged.lookup sid = some v ↔
            ∃ u ∈ [0, 1, 2], ∃ c,
              [(⟨[11], 0, 0⟩ : Config), ⟨[136], 0, 0⟩, ⟨[131], 0, 0⟩][u]? = some c
              ∧ c.value_of sid = v ∧ v ≠ 0) :=
  ⟨by decide, by decide, by decide, by decide,
    merge_clique_union 1 [[(0, 3), (1, 1)], [(1, 1), (2, 2)], [(0, 3), (2, 2)]]
      [⟨[11], 0, 0⟩, ⟨[136], 0, 0⟩, ⟨[131], 0, 0⟩] [0, 1, 2] id (fun l => List.Perm.refl l)
      (by decide) (by decide) (by decide) (by decide)⟩

/-! ## The graph builder -/

theorem compat_matrix_comm (configs : List Config) (a b : Nat) :
    compat_matrix configs a b = compat_matrix configs b a := by
  unfold compat_matrix
  by_cases h : a = b
  · subst h; rfl
  · have h' : ¬ b = a := fun e => h e.symm
    simp only [h, h', if_false]
    rw [conflict_comm]

theorem build_cell_spec (configs : List Config) (gsize i j : Nat) (hi : i < gsize)
    (hj : j < gsize) (st : BuildState) (hs : GraphSound configs gsize st.graph) :
    GraphSound configs gsize (build_cell configs i st j).graph
    ∧ (∀ a b, st.graph a b = 1 → (build_cell configs i st j).graph a b = 1)
    ∧ (compat_matrix configs i j = 1 → (build_cell configs i st j).graph i j = 1) := by
  unfold build_cell
  by_cases hji : j = i
  · subst hji
    simp only [if_true]
    refine ⟨?_, ?_, ?_⟩
    · intro a b
      simp only [Graph.set]
      split
      · rename_i h
        right
        obtain ⟨rfl, rfl⟩ := h
        exact ⟨rfl, hi, hi, by simp [compat_matrix]⟩
      · exact hs a b
    · intro a b h
      simp only [Graph.set]
      split
      · rfl
      · exact h
    · intro _
      simp [Graph.set]
  · simp only [hji, if_false]
    by_cases hc : (config_at configs i).conflict (config_at configs j) = true
    · simp only [hc, if_true]
      refine ⟨hs, fun a b h => h, ?_⟩
      intro h
      have hij : ¬ i = j := fun e => hji e.symm
      simp [compat_matrix, hij, hc] at h
    · rw [if_neg hc]
      have hij : ¬ i = j := fun e => hji e.symm
      have hcm : compat_matrix configs i j = 1 := by
        simp [compat_matrix, hij, hc]
      refine ⟨?_, ?_, ?_⟩
      · intro a b
        simp only [Graph.set]
        split
        · rename_i h
          right
          obtain ⟨rfl, rfl⟩ := h
          exact ⟨rfl, hj, hi, by rw [compat_matrix_comm]; exact hcm⟩
        · split
          · rename_i h
            right
            obtain ⟨rfl, rfl⟩ := h
            exact ⟨rfl, hi, hj, hcm⟩
          · exact hs a b
      · intro a b h
        simp only [Graph.set]
        split
        · rfl
        · split
          · rfl
          · exact h
      · intro _
        simp only [Graph.set]
        split
        · rfl
        · simp

theorem build_row_spec (configs : List Config) (gsize i : Nat) (hi : i < gsize) :
    ∀ (js : List Nat) (st : BuildState), (∀ j ∈ js, j < gsize) →
      GraphSound configs gsize st.graph →
      GraphSound configs gsize (js.foldl (build_cell configs i) st).graph
      ∧ (∀ a b, st.graph a b = 1 → (js.foldl (build_cell configs i) st).graph a b = 1)
      ∧ (∀ j ∈ js, compat_matrix configs i j = 1 →
          (js.foldl (build_cell configs i) st).graph i j = 1) := by
  intro js
  induction js with
  | nil => intro st _ hs; exact ⟨hs, fun _ _ h => h, by simp⟩
  | cons j js ih =>
    intro st hjs hs
    obtain ⟨c1, c2, c3⟩ := build_cell_spec configs gsize i j hi
      (hjs j (List.mem_cons_self _ _)) st hs
    obtain ⟨r1, r2, r3⟩ := ih (build_cell configs i st j)
      (fun j' hj' => hjs j' (List.mem_cons_of_mem _ hj')) c1
    rw [List.foldl_cons]
    refine ⟨r1, fun a b h => r2 a b (c2 a b h), ?_⟩
    intro j' hj' hcm
    rcases List.mem_cons.1 hj' with rfl | hj'
    · exact r2 _ _ (c3 hcm)
    · exact r3 j' hj' hcm

theorem build_rows_spec (configs : List Config) (gsize : Nat) :
    ∀ (rows : List Nat) (st : BuildState), (∀ i ∈ rows, i < gsize) →
      GraphSound configs gsize st.graph →
      GraphSound configs gsize (build_rows configs gsize rows st).graph
      ∧ (∀ a b, st.graph a b = 1 → (build_rows configs gsize rows st).graph a b = 1)
      ∧ (∀ i ∈ rows, ∀ j, j < gsize → compat_matrix configs i j = 1 →
          (build_rows configs gsize rows st).graph i j = 1) := by
  intro rows
  induction rows with
  | nil => intro st _ hs; exact ⟨hs, fun _ _ h => h, by simp⟩
  | cons i rows ih =>
    intro st hrows hs
    obtain ⟨c1, c2, c3⟩ := build_row_spec configs gsize i
      (hrows i (List.mem_cons_self _ _)) (List.range gsize) st
      (fun j hj => List.mem_range.1 hj) hs
    obtain ⟨r1, r2, r3⟩ := ih ((List.range gsize).foldl (build_cell configs i) st)
      (fun i' hi' => hrows i' (List.mem_cons_of_mem _ hi')) c1
    unfold build_rows at r1 r2 r3 ⊢
    rw [List.foldl_cons]
    refine ⟨r1, fun a b h => r2 a b (c2 a b h), ?_⟩
    intro i' hi' j hj hcm
    rcases List.mem_cons.1 hi' with rfl | hi'
    · exact r2 _ _ (c3 j (List.mem_range.2 hj) hcm)
    · exact r3 i' hi' j hj hcm

theorem build_graph_args_rows (gsize MAXTHREADS w i : Nat) :
    i ∈ List.range' (build_graph_args gsize MAXTHREADS w).from_row
        ((build_graph_args gsize MAXTHREADS w).to_row
          - (build_graph_args gsize MAXTHREADS w).from_row)
      ↔ w * (gsize / MAXTHREADS + 1) ≤ i ∧ i < (w + 1) * (gsize / MAXTHREADS + 1)
          ∧ i < gsize := by
  simp only [build_graph_args, List.mem_range'_1]
  split <;> constructor <;> intro h <;> omega

theorem task_build_graph_spec (configs : List Config) (gsize MAXTHREADS w : Nat)
    (st : BuildState) (hs : GraphSound configs gsize st.graph) :
    GraphSound configs gsize
      (task_build_graph configs (build_graph_args gsize MAXTHREADS w) st).graph
    ∧ (∀ a b, st.graph a b = 1 →
        (task_build_graph configs (build_graph_args gsize MAXTHREADS w) st).graph a b = 1)
    ∧ (∀ i, w * (gsize / MAXTHREADS + 1) ≤ i → i < (w + 1) * (gsize / MAXTHREADS + 1) →
        i < gsize → ∀ j, j < gsize → compat_matrix configs i j = 1 →
        (task_build_graph configs (build_graph_args gsize MAXTHREADS w) st).graph i j
          = 1) := by
  have hg : (build_graph_args gsize MAXTHREADS w).gsize = gsize := rfl
  obtain ⟨r1, r2, r3⟩ := build_rows_spec configs gsize
    (List.range' (build_graph_args gsize MAXTHREADS w).from_row
        ((build_graph_args gsize MAXTHREADS w).to_row
          - (build_graph_args gsize MAXTHREADS w).from_row))
    ⟨st.graph, 0, 0⟩
    (fun i hi => ((build_graph_args_rows gsize MAXTHREADS w i).1 hi).2.2) hs
  simp only [task_build_graph, hg]
  refine ⟨r1, r2, ?_⟩
  intro i h1 h2 h3 j hj hcm
  exact r3 i ((build_graph_args_rows gsize MAXTHREADS w i).2 ⟨h1, h2, h3⟩) j hj hcm

theorem build_sched_spec (configs : List Config) (gsize MAXTHREADS : Nat) :
    ∀ (sched : List Nat) (st : BuildState), GraphSound configs gsize st.graph →
      GraphSound configs gsize (sched.foldl
        (fun st w => task_build_graph configs (build_graph_args gsize MAXTHREADS w) st)
        st).graph
      ∧ (∀ a b, st.graph a b = 1 → (sched.foldl
        (fun st w => task_build_graph configs (build_graph_args gsize MAXTHREADS w) st)
        st).graph a b = 1)
      ∧ (∀ w ∈ sched, ∀ i, w * (gsize / MAXTHREADS + 1) ≤ i →
          i < (w + 1) * (gsize / MAXTHREADS + 1) → i < gsize → ∀ j, j < gsize →
          compat_matrix configs i j = 1 → (sched.foldl
        (fun st w => task_build_graph configs (build_graph_args gsize MAXTHREADS w) st)
        st).graph i j = 1) := by
  intro sched
  induction sched with
  | nil => intro st hs; exact ⟨hs, fun _ _ h => h, by simp⟩
  | cons w sched ih =>
    intro st hs
    obtain ⟨c1, c2, c3⟩ := task_build_graph_spec configs gsize MAXTHREADS w st hs
    obtain ⟨r1, r2, r3⟩ := ih _ c1
    rw [List.foldl_cons]
    refine ⟨r1, fun a b h => r2 a b (c2 a b h), ?_⟩
    intro w' hw' i h1 h2 h3 j hj hcm
    rcases List.mem_cons.1 hw' with rfl | hw'
    · exact r2 _ _ (c3 i h1 h2 h3 j hj hcm)
    · exact r3 w' hw' i h1 h2 h3 j hj hcm

/-- Every row below `gsize` lies in the range of a worker below `MAXTHREADS`. -/
theorem row_has_worker (gsize MAXTHREADS i : Nat) (hT : 1 ≤ MAXTHREADS) (hi : i < gsize) :
    i / (gsize / MAXTHREADS + 1) < MAXTHREADS
    ∧ i / (gsize / MAXTHREADS + 1) * (gsize / MAXTHREADS + 1) ≤ i
    ∧ i < (i / (gsize / MAXTHREADS + 1) + 1) * (gsize / MAXTHREADS + 1) := by
  have hpos : 0 < gsize / MAXTHREADS + 1 := Nat.succ_pos _
  refine ⟨?_, Nat.div_mul_le_self _ _, ?_⟩
  · rw [Nat.div_lt_iff_lt_mul hpos]
    have h1 : gsize < MAXTHREADS * (gsize / MAXTHREADS + 1) := by
      have := Nat.lt_mul_div_succ gsize (by omega : 0 < MAXTHREADS)
      rw [Nat.mul_add, Nat.mul_one]
      exact this
    omega
  · rw [Nat.mul_comm]
    exact Nat.lt_mul_div_succ i hpos

/-- The matrix built by `build_graph`, for every thread count and every worker order. -/
theorem build_graph_matrix (configs : List Config) (gsize MAXTHREADS : Nat) (sched : List Nat)
    (c0 c1 : Nat) (hT : 1 ≤ MAXTHREADS) (hsched : sched.Perm (List.range MAXTHREADS)) :
    ∀ i j, i < gsize → j < gsize →
      (build_graph configs gsize MAXTHREADS sched c0 c1).graph i j = compat_matrix configs i j := by
  intro i j hi hj
  obtain ⟨r1, _, r3⟩ := build_sched_spec configs gsize MAXTHREADS sched ⟨Graph.zero, c0, c1⟩
    (fun a b => Or.inl rfl)
  have hval : compat_matrix configs i j = 0 ∨ compat_matrix configs i j = 1 := by
    unfold compat_matrix
    split
    · exact Or.inr rfl
    · split
      · exact Or.inl rfl
      · exact Or.inr rfl
  unfold build_graph
  rcases hval with h0 | h1
  · rcases r1 i j with h | ⟨_, _, _, h⟩
    · rw [h, h0]
    · rw [h0] at h
      cases h
  · obtain ⟨w1, w2, w3⟩ := row_has_worker gsize MAXTHREADS i hT hi
    rw [h1]
    exact r3 _ (hsched.mem_iff.2 (List.mem_range.2 w1)) i w2 w3 hi j hj h1

/-- C6: for every thread count `T ≥ 1` and every order `sched` in which the `T` workers of
`task_build_graph` run over their row ranges, the matrix after `build_graph` has
`G[i][i] = 1`, and for `i ≠ j` has `G[i][j] = 1` if `conflict (configs[i], configs[j])` is
false and `0` otherwise; hence it is the same for every thread count and order. -/
theorem build_graph_spec (configs : List Config) (T : Nat) (sched : List Nat)
    (hT : 1 ≤ T) (hsched : sched.Perm (List.range T)) :
    (∀ i, i < configs.length →
      (build_graph configs configs.length T sched 0 0).graph i i = 1)
    ∧ (∀ i j, i < configs.length → j < configs.length → i ≠ j →
      (build_graph configs configs.length T sched 0 0).graph i j
        = if (config_at configs i).conflict (config_at configs j) = false then 1 else 0)
    ∧ (∀ T' sched', 1 ≤ T' → sched'.Perm (List.range T') →
        ∀ i j, i < configs.length → j < configs.length →
          (build_graph configs configs.length T' sched' 0 0).graph i j
            = (build_graph configs configs.length T sched 0 0).graph i j) := by
  refine ⟨?_, ?_, ?_⟩
  · intro i hi
    rw [build_graph_matrix configs _ T sched 0 0 hT hsched i i hi hi]
    simp [compat_matrix]
  · intro i j hi hj hij
    rw [build_graph_matrix configs _ T sched 0 0 hT hsched i j hi hj]
    simp only [compat_matrix, hij, if_false]
    cases (config_at configs i).conflict (config_at configs j) <;> simp
  · intro T' sched' hT' hsched' i j hi hj
    rw [build_graph_matrix configs _ T sched 0 0 hT hsched i j hi hj,
      build_graph_matrix configs _ T' sched' 0 0 hT' hsched' i j hi hj]

/-- C6, at a concrete input: the three configurations `{0=y, 1=n}`, `{1=n, 2=m}`, `{0=m}`
with two workers, the second one running first. -/
theorem build_graph_spec_witness :
    1 ≤ 2 ∧ [1, 0].Perm (List.range 2)
    ∧ (build_graph [⟨[11], 0, 0⟩, ⟨[136], 0, 0⟩, ⟨[2], 0, 0⟩] 3 2 [1, 0] 0 0).graph 0 1 = 1
    ∧ (build_graph [⟨[11], 0, 0⟩, ⟨[136], 0, 0⟩, ⟨[2], 0, 0⟩] 3 2 [1, 0] 0 0).graph 2 0 = 0
    ∧ (build_graph [⟨[11], 0, 0⟩, ⟨[136], 0, 0⟩, ⟨[2], 0, 0⟩] 3 2 [1, 0] 0 0).graph 2 2 = 1 :=
  ⟨by decide, by decide,
    ((build_graph_spec [⟨[11], 0, 0⟩, ⟨[136], 0, 0⟩, ⟨[2], 0, 0⟩] 2 [1, 0] (by decide)
        (by decide)).2.1 0 1 (by decide) (by decide) (by decide)).trans (by decide),
    ((build_graph_spec [⟨[11], 0, 0⟩, ⟨[136], 0, 0⟩, ⟨[2], 0, 0⟩] 2 [1, 0] (by decide)
        (by decide)).2.1 2 0 (by decide) (by decide) (by decide)).trans (by decide),
    (build_graph_spec [⟨[11], 0, 0⟩, ⟨[136], 0, 0⟩, ⟨[2], 0, 0⟩] 2 [1, 0] (by decide)
        (by decide)).1 2 (by decide)⟩

/-! ## The graph serializer -/

theorem wrap_int_zero : wrap_int 0 = 0 := by decide

theorem wrap_int_succ (x : Int) : wrap_int (wrap_int x + 1) = wrap_int (x + 1) := by
  unfold wrap_int
  omega

/-- A counter that stays within the range of `int` is not changed by the reduction. -/
theorem wrap_int_of_lt (n : Nat) (h : n < 2 ^ 31) : wrap_int n = n := by
  unfold wrap_int
  omega

/-- Past the range of `int`, the reduction changes the counter. -/
theorem wrap_int_ne_of_ge (n : Nat) (h : 2 ^ 31 ≤ n) : wrap_int n ≠ n := by
  unfold wrap_int
  omega

theorem dump_row_eq (G : Graph) (i : Nat) :
    ∀ (js : List Nat) (body : List Line) (x : Int),
      js.foldl (dump_cell G i) (body, wrap_int x)
        = (body ++ ((js.filter fun j => G i j ≠ 0).map fun j => (i, j)).map
              (fun p => Line.ints [p.2 + 1, p.1 + 1]),
            wrap_int (x + (((js.filter fun j => G i j ≠ 0).map fun j => (i, j)).length : Nat))) := by
  intro js
  induction js with
  | nil => intro body x; simp
  | cons j js ih =>
    intro body x
    rw [List.foldl_cons]
    by_cases h : G i j ≠ 0
    · have hc : dump_cell G i (body, wrap_int x) j
          = (body ++ [Line.ints [j + 1, i + 1]], wrap_int (x + 1)) := by
        simp [dump_cell, h, wrap_int_succ]
      rw [hc, ih]
      simp [h, List.filter_cons, Int.add_assoc, Int.add_comm 1]
    · have hc : dump_cell G i (body, wrap_int x) j = (body, wrap_int x) := by
        simp [dump_cell, h]
      rw [hc, ih]
      simp [h, List.filter_cons]

theorem dump_rows_eq (G : Graph) (N : Nat) :
    ∀ (is : List Nat) (body : List Line) (x : Int),
      is.foldl (fun st i => (List.range' (i + 1) (N - (i + 1))).foldl (dump_cell G i) st)
          (body, wrap_int x)
        = (body ++ (is.flatMap (row_pairs G N)).map (fun p => Line.ints [p.2 + 1, p.1 + 1]),
            wrap_int (x + ((is.flatMap (row_pairs G N)).length : Nat))) := by
  intro is
  induction is with
  | nil => intro body x; simp
  | cons i is ih =>
    intro body x
    rw [List.foldl_cons, dump_row_eq G, ih]
    simp [row_pairs, List.flatMap_cons, Int.add_assoc]

/-- The file written by `dump_graph`: the counter printed in the size line is the number of
edge lines reduced to the range of `int`. -/
theorem dump_graph_eq (G : Graph) (N : Nat) :
    dump_graph G N
      = Line.text mtx_header :: Line.size N N (wrap_int ((edge_pairs G N).length : Nat))
          :: (edge_pairs G N).map (fun p => Line.ints [p.2 + 1, p.1 + 1]) := by
  unfold dump_graph
  rw [← wrap_int_zero, dump_rows_eq]
  simp [edge_pairs]

theorem mem_edge_pairs (G : Graph) (N i j : Nat) :
    (i, j) ∈ edge_pairs G N ↔ i < j ∧ j < N ∧ G i j ≠ 0 := by
  simp only [edge_pairs, row_pairs, List.mem_flatMap, List.mem_range, List.mem_map,
    List.mem_filter, List.mem_range'_1, decide_eq_true_eq, Prod.mk.injEq]
  constructor
  · rintro ⟨a, ha, b, ⟨⟨h1, h2⟩, h3⟩, rfl, rfl⟩
    exact ⟨by omega, by omega, h3⟩
  · rintro ⟨h1, h2, h3⟩
    exact ⟨i, by omega, j, ⟨⟨by omega, by omega⟩, h3⟩, rfl, rfl⟩

theorem edge_pairs_sorted (G : Graph) (N : Nat) :
    (edge_pairs G N).Pairwise (fun p q => p.1 < q.1 ∨ (p.1 = q.1 ∧ p.2 < q.2)) := by
  unfold edge_pairs
  rw [List.pairwise_flatMap]
  constructor
  · intro i _
    unfold row_pairs
    rw [List.pairwise_map]
    apply List.Pairwise.filter
    exact (List.pairwise_lt_range' (i + 1) (N - (i + 1))).imp (fun h => Or.inr ⟨rfl, h⟩)
  · apply (List.pairwise_lt_range N).imp
    intro a b hab x hx y hy
    left
    have hx1 : x.1 = a := by
      simp only [row_pairs, List.mem_map] at hx
      obtain ⟨_, _, rfl⟩ := hx
      rfl
    have hy1 : y.1 = b := by
      simp only [row_pairs, List.mem_map] at hy
      obtain ⟨_, _, rfl⟩ := hy
      rfl
    omega

theorem mem_dump_graph_edge (G : Graph) (N a b : Nat) :
    Line.ints [a, b] ∈ dump_graph G N ↔ ∃ i j, i < j ∧ j < N ∧ G i j ≠ 0 ∧ a = j + 1 ∧ b = i + 1 := by
  rw [dump_graph_eq]
  simp only [List.mem_cons, List.mem_map, Line.ints.injEq, List.cons.injEq, and_true,
    reduceCtorEq, false_or, Prod.exists]
  constructor
  · rintro ⟨i, j, hm, h1, h2⟩
    exact ⟨i, j, ((mem_edge_pairs G N i j).1 hm).1, ((mem_edge_pairs G N i j).1 hm).2.1,
      ((mem_edge_pairs G N i j).1 hm).2.2, h1.symm, h2.symm⟩
  · rintro ⟨i, j, h1, h2, h3, rfl, rfl⟩
    exact ⟨i, j, (mem_edge_pairs G N i j).2 ⟨h1, h2, h3⟩, rfl, rfl⟩

theorem list_sum_range (f : Nat → Nat) (N : Nat) :
    ((List.range N).map f).sum = ∑ i ∈ Finset.range N, f i := by
  induction N with
  | zero => simp
  | succ N ih => rw [List.range_succ, List.map_append, List.sum_append, ih,
      Finset.sum_range_succ]; simp

theorem row_pairs_length_le (G : Graph) (N i : Nat) : (row_pairs G N i).length ≤ N - (i + 1) := by
  unfold row_pairs
  rw [List.length_map]
  exact (List.length_filter_le _ _).trans (by rw [List.length_range'])

theorem row_pairs_full_length (G : Graph) (N i : Nat) (h : ∀ j, i < j → j < N → G i j ≠ 0) :
    (row_pairs G N i).length = N - (i + 1) := by
  unfold row_pairs
  rw [List.length_map, List.filter_eq_self.2, List.length_range']
  intro j hj
  rw [List.mem_range'_1] at hj
  exact decide_eq_true (h j (by omega) (by omega))

theorem sum_range_rows (N : Nat) :
    ((List.range N).map fun i => N - (i + 1)).sum * 2 = N * (N - 1) := by
  rw [list_sum_range, ← Finset.sum_range_id_mul_two N,
    ← Finset.sum_range_reflect (fun i => i) N]
  congr 1
  apply Finset.sum_congr rfl
  intro i _
  omega

/-- A matrix of `N` rows has at most `N * (N - 1) / 2` set cells above the diagonal. -/
theorem edge_pairs_length_le (G : Graph) (N : Nat) :
    (edge_pairs G N).length * 2 ≤ N * (N - 1) := by
  rw [← sum_range_rows N]
  apply Nat.mul_le_mul_right
  unfold edge_pairs
  rw [List.length_flatMap]
  apply List.sum_le_sum
  intro i _
  exact row_pairs_length_le G N i

/-- A matrix of `N` rows with every cell above the diagonal set has `N * (N - 1) / 2` of
them. -/
theorem edge_pairs_full_length (G : Graph) (N : Nat) (h : ∀ i j, i < j → j < N → G i j ≠ 0) :
    (edge_pairs G N).length * 2 = N * (N - 1) := by
  rw [← sum_range_rows N]
  congr 1
  unfold edge_pairs
  rw [List.length_flatMap]
  congr 1
  apply List.map_congr_left
  intro i _
  exact row_pairs_full_length G N i (h i)

/-- Up to 65536 rows the number of edge lines stays within the range of `int`. -/
theorem edge_count_fits (G : Graph) (N : Nat) (hN : N ≤ 65536) :
    (edge_pairs G N).length < 2 ^ 31 := by
  have h1 := edge_pairs_length_le G N
  have h2 : N * (N - 1) ≤ 65536 * 65535 := Nat.mul_le_mul hN (by omega)
  omega

/-- The serializer within the range of `int`: when the matrix has fewer than `2 ^ 31` set
cells above the diagonal (as every matrix of at most 65536 rows has), `dump_graph` writes the
header line, the line `N N E`, and then one line `j+1 i+1` for each pair `(i, j)` of
`edge_pairs` and no other line, `E` being the number of these pairs; `edge_pairs` holds
exactly the pairs with `i < j < N` and `G[i][j] ≠ 0`, each once, in row-major order.  For a
symmetric matrix the off-diagonal cells are recoverable: for `i ≠ j`, `G[i][j] ≠ 0` exactly when
the line `max(i,j)+1 min(i,j)+1` is in the file. -/
theorem dump_graph_spec (G : Graph) (N : Nat) (hE : (edge_pairs G N).length < 2 ^ 31) :
    dump_graph G N
      = Line.text mtx_header :: Line.size N N ((edge_pairs G N).length : Nat)
          :: (edge_pairs G N).map (fun p => Line.ints [p.2 + 1, p.1 + 1])
    ∧ (∀ i j, (i, j) ∈ edge_pairs G N ↔ i < j ∧ j < N ∧ G i j ≠ 0)
    ∧ (edge_pairs G N).Pairwise (fun p q => p.1 < q.1 ∨ (p.1 = q.1 ∧ p.2 < q.2))
    ∧ (edge_pairs G N).Nodup
    ∧ ((∀ i, i < N → ∀ j, j < N → G i j = G j i) →
        ∀ i j, i < N → j < N → i ≠ j →
          (G i j ≠ 0 ↔ Line.ints [max i j + 1, min i j + 1] ∈ dump_graph G N)) := by
  refine ⟨?_, mem_edge_pairs G N, edge_pairs_sorted G N, ?_, ?_⟩
  · rw [dump_graph_eq, wrap_int_of_lt _ hE]
  · apply (edge_pairs_sorted G N).imp
    intro p q h e
    subst e
    omega
  · intro hsym i j hi hj hij
    rw [mem_dump_graph_edge]
    constructor
    · intro h
      rcases Nat.lt_or_gt_of_ne hij with hlt | hgt
      · exact ⟨i, j, hlt, hj, h, by omega, by omega⟩
      · exact ⟨j, i, hgt, hi, by rw [← hsym i hi j hj]; exact h, by omega, by omega⟩
    · rintro ⟨a, b, hab, hb, hne, e1, e2⟩
      rcases Nat.lt_or_gt_of_ne hij with hlt | hgt
      · have ha : a = i := by omega
        have hb' : b = j := by omega
        subst ha hb'
        exact hne
      · have ha : a = j := by omega
        have hb' : b = i := by omega
        subst ha hb'
        rw [hsym _ hi _ hj]
        exact hne

/-- The serializer at a concrete input: the symmetric 3 x 3 matrix with the edges `{0,1}` and
`{1,2}`. -/
theorem dump_graph_spec_witness :
    (edge_pairs (fun a b : Nat => if a + 1 = b ∨ b + 1 = a ∨ a = b then 1 else 0) 3).length
        < 2 ^ 31
    ∧ (∀ i, i < 3 → ∀ j, j < 3 →
      (fun a b : Nat => if a + 1 = b ∨ b + 1 = a ∨ a = b then 1 else 0) i j
        = (fun a b : Nat => if a + 1 = b ∨ b + 1 = a ∨ a = b then 1 else 0) j i)
    ∧ dump_graph (fun a b : Nat => if a + 1 = b ∨ b + 1 = a ∨ a = b then 1 else 0) 3
        = [Line.text mtx_header, Line.size 3 3 2, Line.ints [2, 1], Line.ints [3, 2]]
    ∧ ((fun a b : Nat => if a + 1 = b ∨ b + 1 = a ∨ a = b then 1 else 0) 2 1 ≠ 0 ↔
        Line.ints [max 2 1 + 1, min 2 1 + 1]
          ∈ dump_graph (fun a b : Nat => if a + 1 = b ∨ b + 1 = a ∨ a = b then 1 else 0) 3) :=
  ⟨by decide, by decide, by decide,
    (dump_graph_spec (fun a b : Nat => if a + 1 = b ∨ b + 1 = a ∨ a = b then 1 else 0) 3
      (by decide)).2.2.2.2 (by decide) 2 1 (by decide) (by decide) (by decide)⟩

/-- What `dump_graph` writes for any matrix: the edge lines are those of `edge_pairs`, and
the size line holds their number exactly when that number is below `2 ^ 31`. -/
theorem dump_graph_size_line (G : Graph) (N : Nat) :
    (Line.size N N ((edge_pairs G N).length : Nat) ∈ dump_graph G N
      ↔ (edge_pairs G N).length < 2 ^ 31) := by
  rw [dump_graph_eq]
  simp only [List.mem_cons, List.mem_map, reduceCtorEq, false_or, Line.size.injEq, true_and,
    and_false, exists_false, or_false]
  constructor
  · intro h
    by_contra hlt
    exact wrap_int_ne_of_ge _ (by omega) h.symm
  · intro h
    exact (wrap_int_of_lt _ h).symm

/-- C9: at the 65537 x 65537 matrix with every cell set, 2147516416 pairs `(i, j)` with
`i < j < N` are set and each of them gets its line, but the counter `edges` has left the
range of `int`: the size line reads `65537 65537 -2147450880`, and no line
`65537 65537 2147516416` is written, so the `E` of the file is not the number of pairs. -/
theorem dump_graph_edge_count_overflows :
    (edge_pairs (fun _ _ => 1) 65537).length = 2147516416
    ∧ dump_graph (fun _ _ => 1) 65537
        = Line.text mtx_header :: Line.size 65537 65537 (-2147450880)
            :: (edge_pairs (fun _ _ => 1) 65537).map (fun p => Line.ints [p.2 + 1, p.1 + 1])
    ∧ Line.size 65537 65537 2147516416 ∉ dump_graph (fun _ _ => 1) 65537 := by
  have hlen : (edge_pairs (fun _ _ => 1) 65537).length = 2147516416 := by
    have h := edge_pairs_full_length (fun _ _ => 1) 65537 (fun _ _ _ _ => Nat.one_ne_zero)
    omega
  have hw : wrap_int ((2147516416 : Nat) : Int) = -2147450880 := by decide
  have hd : dump_graph (fun _ _ => 1) 65537
      = Line.text mtx_header :: Line.size 65537 65537 (-2147450880)
          :: (edge_pairs (fun _ _ => 1) 65537).map (fun p => Line.ints [p.2 + 1, p.1 + 1]) := by
    rw [dump_graph_eq, hlen, hw]
  refine ⟨hlen, hd, ?_⟩
  rw [hd]
  simp only [List.mem_cons, List.mem_map, reduceCtorEq, false_or, Line.size.injEq, true_and,
    and_false, exists_false, or_false]
  decide

/-! ## The counters of the graph builder -/

theorem build_cell_counters (configs : List Config) (i j : Nat) (st : BuildState) :
    (build_cell configs i st j).conflicts = st.conflicts + cell_conflict configs i j
    ∧ (build_cell configs i st j).compatibles = st.compatibles + cell_compat configs i j := by
  unfold build_cell cell_conflict cell_compat
  by_cases hji : j = i
  · simp [hji]
  · by_cases hc : (config_at configs i).conflict (config_at configs j) = true
    · simp [hji, hc]
    · simp [hji, hc]

theorem build_row_counters (configs : List Config) (i : Nat) :
    ∀ (js : List Nat) (st : BuildState),
      (js.foldl (build_cell configs i) st).conflicts
          = st.conflicts + (js.map (cell_conflict configs i)).sum
      ∧ (js.foldl (build_cell configs i) st).compatibles
          = st.compatibles + (js.map (cell_compat configs i)).sum := by
  intro js
  induction js with
  | nil => intro st; simp
  | cons j js ih =>
    intro st
    obtain ⟨h1, h2⟩ := ih (build_cell configs i st j)
    obtain ⟨c1, c2⟩ := build_cell_counters configs i j st
    rw [List.foldl_cons, h1, h2, c1, c2]
    simp [Nat.add_assoc]

theorem build_rows_counters (configs : List Config) (gsize : Nat) :
    ∀ (rows : List Nat) (st : BuildState),
      (build_rows configs gsize rows st).conflicts
          = st.conflicts
            + (rows.map fun i => ((List.range gsize).map (cell_conflict configs i)).sum).sum
      ∧ (build_rows configs gsize rows st).compatibles
          = st.compatibles
            + (rows.map fun i => ((List.range gsize).map (cell_compat configs i)).sum).sum := by
  intro rows
  induction rows with
  | nil => intro st; simp [build_rows]
  | cons i rows ih =>
    intro st
    obtain ⟨h1, h2⟩ := ih ((List.range gsize).foldl (build_cell configs i) st)
    obtain ⟨c1, c2⟩ := build_row_counters configs i (List.range gsize) st
    unfold build_rows at h1 h2 ⊢
    rw [List.foldl_cons, h1, h2, c1, c2]
    simp [Nat.add_assoc]

theorem build_sched_counters (configs : List Config) (gsize MAXTHREADS : Nat) :
    ∀ (sched : List Nat) (st : BuildState),
      (sched.foldl
        (fun st w => task_build_graph configs (build_graph_args gsize MAXTHREADS w) st)
        st).conflicts
          = st.conflicts + (sched.map fun w => ((worker_rows gsize MAXTHREADS w).map
              fun i => ((List.range gsize).map (cell_conflict configs i)).sum).sum).sum
      ∧ (sched.foldl
        (fun st w => task_build_graph configs (build_graph_args gsize MAXTHREADS w) st)
        st).compatibles
          = st.compatibles + (sched.map fun w => ((worker_rows gsize MAXTHREADS w).map
              fun i => ((List.range gsize).map (cell_compat configs i)).sum).sum).sum := by
  intro sched
  induction sched with
  | nil => intro st; simp
  | cons w sched ih =>
    intro st
    obtain ⟨h1, h2⟩ := ih (task_build_graph configs (build_graph_args gsize MAXTHREADS w) st)
    obtain ⟨c1, c2⟩ := build_rows_counters configs gsize (worker_rows gsize MAXTHREADS w)
      ⟨st.graph, 0, 0⟩
    have hg : (build_graph_args gsize MAXTHREADS w).gsize = gsize := rfl
    rw [List.foldl_cons, h1, h2]
    simp only [task_build_graph, hg, List.map_cons, List.sum_cons]
    unfold worker_rows at c1 c2 ⊢
    rw [c1, c2]
    simp [Nat.add_assoc]

theorem worker_rows_flatMap (gsize MAXTHREADS : Nat) :
    ∀ k, (List.range k).flatMap (worker_rows gsize MAXTHREADS)
      = List.range (min (k * (gsize / MAXTHREADS + 1)) gsize) := by
  intro k
  induction k with
  | zero => simp
  | succ k ih =>
    rw [List.range_succ, List.flatMap_append, ih]
    simp only [List.flatMap_cons, List.flatMap_nil, List.append_nil, worker_rows,
      build_graph_args]
    have hsucc : (k + 1) * (gsize / MAXTHREADS + 1)
        = k * (gsize / MAXTHREADS + 1) + (gsize / MAXTHREADS + 1) := Nat.succ_mul _ _
    rw [hsucc]
    generalize k * (gsize / MAXTHREADS + 1) = a
    generalize gsize / MAXTHREADS + 1 = c
    rw [List.range_eq_range', List.range_eq_range']
    rcases Nat.lt_or_ge a gsize with hlt | hge
    · have h1 : min a gsize = a := by omega
      rw [h1]
      have := List.range'_append_1 0 a
        ((if a + c > gsize then gsize else a + c) - a)
      rw [Nat.zero_add] at this
      rw [this]
      congr 1
      split <;> omega
    · have h1 : min a gsize = gsize := by omega
      have h2 : (if a + c > gsize then gsize else a + c) - a = 0 := by
        split <;> omega
      have h3 : min (a + c) gsize = gsize := by omega
      rw [h1, h2, h3]
      simp

theorem sum_map_flatMap (f : Nat → List Nat) (r : Nat → Nat) :
    ∀ l : List Nat, (l.map fun w => ((f w).map r).sum).sum = ((l.flatMap f).map r).sum := by
  intro l
  induction l with
  | nil => simp
  | cons w l ih => simp [List.flatMap_cons, List.map_append, List.sum_append, ih]

/-- After `build_graph`, the global counters hold the sums over all cells. -/
theorem build_graph_counters (configs : List Config) (gsize MAXTHREADS : Nat)
    (sched : List Nat) (c0 c1 : Nat) (hT : 1 ≤ MAXTHREADS)
    (hsched : sched.Perm (List.range MAXTHREADS)) :
    (build_graph configs gsize MAXTHREADS sched c0 c1).conflicts
        = c0 + ((List.range gsize).map
            fun i => ((List.range gsize).map (cell_conflict configs i)).sum).sum
    ∧ (build_graph configs gsize MAXTHREADS sched c0 c1).compatibles
        = c1 + ((List.range gsize).map
            fun i => ((List.range gsize).map (cell_compat configs i)).sum).sum := by
  obtain ⟨h1, h2⟩ := build_sched_counters configs gsize MAXTHREADS sched ⟨Graph.zero, c0, c1⟩
  have hcover : min (MAXTHREADS * (gsize / MAXTHREADS + 1)) gsize = gsize := by
    have h1 : gsize < MAXTHREADS * (gsize / MAXTHREADS + 1) := by
      have := Nat.lt_mul_div_succ gsize (by omega : 0 < MAXTHREADS)
      rw [Nat.mul_add, Nat.mul_one]
      exact this
    omega
  unfold build_graph
  rw [h1, h2]
  constructor
  · rw [(hsched.map _).sum_eq, sum_map_flatMap, worker_rows_flatMap, hcover]
  · rw [(hsched.map _).sum_eq, sum_map_flatMap, worker_rows_flatMap, hcover]

theorem countP_range' (p : Nat → Bool) (a : Nat) :
    ∀ n, (List.range' a n).countP p
      = ∑ j ∈ Finset.range (a + n), if a ≤ j ∧ p j = true then 1 else 0 := by
  intro n
  induction n with
  | zero =>
    simp only [List.range'_zero, List.countP_nil, Nat.add_zero]
    symm
    apply Finset.sum_eq_zero
    intro j hj
    have := Finset.mem_range.1 hj
    have h : ¬ (a ≤ j ∧ p j = true) := fun h => by omega
    simp [h]
  | succ n ih =>
    rw [List.range'_concat, List.countP_append, ih, ← Nat.add_assoc, Finset.sum_range_succ]
    congr 1
    simp [List.countP_cons]

theorem cell_sum_eq (configs : List Config) (i j : Nat) :
    cell_conflict configs i j + cell_compat configs i j = if j ≠ i then 1 else 0 := by
  unfold cell_conflict cell_compat
  by_cases hji : j = i
  · simp [hji]
  · cases (config_at configs i).conflict (config_at configs j) <;> simp [hji]

theorem cell_compat_eq (configs : List Config) (i j : Nat) :
    cell_compat configs i j = pair_compat configs i j + pair_compat configs j i := by
  unfold cell_compat pair_compat
  rw [conflict_comm (config_at configs j) (config_at configs i)]
  rcases Nat.lt_trichotomy i j with h | h | h
  · have h1 : j ≠ i := by omega
    have h2 : ¬ j < i := by omega
    simp [h, h1, h2]
  · subst h
    simp
  · have h1 : j ≠ i := by omega
    have h2 : ¬ i < j := by omega
    simp [h, h1, h2]

theorem sum_ne_range (N i : Nat) (hi : i < N) :
    (∑ j ∈ Finset.range N, if j ≠ i then 1 else 0) = N - 1 := by
  rw [← Finset.card_filter, Finset.filter_ne' (Finset.range N) i,
    Finset.card_erase_of_mem (Finset.mem_range.2 hi), Finset.card_range]

/-- The two counters add up to the number of ordered pairs of distinct vertices. -/
theorem counters_total (configs : List Config) (N : Nat) :
    ((List.range N).map fun i => ((List.range N).map (cell_conflict configs i)).sum).sum
      + ((List.range N).map fun i => ((List.range N).map (cell_compat configs i)).sum).sum
      = N * (N - 1) := by
  simp only [list_sum_range]
  rw [← Finset.sum_add_distrib]
  have : ∀ i ∈ Finset.range N,
      (∑ j ∈ Finset.range N, cell_conflict configs i j)
        + (∑ j ∈ Finset.range N, cell_compat configs i j) = N - 1 := by
    intro i hi
    rw [← Finset.sum_add_distrib]
    simp only [cell_sum_eq]
    exact sum_ne_range N i (Finset.mem_range.1 hi)
  rw [Finset.sum_congr rfl this]
  simp

/-- The counter of compatible pairs counts every unordered compatible pair twice. -/
theorem compat_total (configs : List Config) (N : Nat) :
    ((List.range N).map fun i => ((List.range N).map (cell_compat configs i)).sum).sum
      = 2 * ∑ i ∈ Finset.range N, ∑ j ∈ Finset.range N, pair_compat configs i j := by
  simp only [list_sum_range, cell_compat_eq, Finset.sum_add_distrib]
  rw [Finset.sum_comm (f := fun i j => pair_compat configs j i)]
  omega

theorem edge_pairs_length (configs : List Config) (G : Graph) (N : Nat)
    (hG : ∀ i j, i < N → j < N → G i j = compat_matrix configs i j) :
    (edge_pairs G N).length
      = ∑ i ∈ Finset.range N, ∑ j ∈ Finset.range N, pair_compat configs i j := by
  unfold edge_pairs
  rw [List.length_flatMap, ← list_sum_range]
  congr 1
  apply List.map_congr_left
  intro i hi
  have hiN := List.mem_range.1 hi
  simp only [Function.comp, row_pairs, List.length_map, ← List.countP_eq_length_filter]
  rw [countP_range']
  have hN : i + 1 + (N - (i + 1)) = N := by omega
  rw [hN]
  apply Finset.sum_congr rfl
  intro j hj
  have hjN := Finset.mem_range.1 hj
  unfold pair_compat
  by_cases hij : i < j
  · have h1 : i + 1 ≤ j := hij
    have hne : ¬ i = j := by omega
    rw [hG i j hiN hjN]
    simp only [compat_matrix, hne, if_false]
    cases (config_at configs i).conflict (config_at configs j) <;> simp [hij, h1]
  · have h1 : ¬ i + 1 ≤ j := by omega
    simp [hij, h1]

/-- After `build_graph` from counters at 0, `compatibles` is twice the number of set cells
above the diagonal, and the two counters add up to `N * (N - 1)`. -/
theorem build_graph_counts_edges (configs : List Config) (T : Nat) (sched : List Nat)
    (hT : 1 ≤ T) (hsched : sched.Perm (List.range T)) :
    (build_graph configs configs.length T sched 0 0).compatibles
        = 2 * (edge_pairs (build_graph configs configs.length T sched 0 0).graph
                configs.length).length
    ∧ (build_graph configs configs.length T sched 0 0).conflicts
        + (build_graph configs configs.length T sched 0 0).compatibles
        = configs.length * (configs.length - 1) := by
  obtain ⟨h1, h2⟩ := build_graph_counters configs configs.length T sched 0 0 hT hsched
  have hE := edge_pairs_length configs
    (build_graph configs configs.length T sched 0 0).graph configs.length
    (build_graph_matrix configs configs.length T sched 0 0 hT hsched)
  have hc := compat_total configs configs.length
  have ht := counters_total configs configs.length
  constructor
  · rw [h2, hc, hE]
    omega
  · omega

/-- The edge count within the range of `int`: for at most 65536 configurations, with the
global counters starting at 0, for every thread count `T ≥ 1` and every worker order, the
edge count `E` that `dump_graph` writes for the freshly built matrix is `compatibles / 2`;
`compatibles` is even, being twice the number of edge lines, and
`conflicts + compatibles = N * (N - 1)`. -/
theorem edge_count_half_compatibles (configs : List Config) (T : Nat) (sched : List Nat)
    (hN : configs.length ≤ 65536) (hT : 1 ≤ T) (hsched : sched.Perm (List.range T)) :
    dump_graph (build_graph configs configs.length T sched 0 0).graph configs.length
        = Line.text mtx_header
          :: Line.size configs.length configs.length
              (((build_graph configs configs.length T sched 0 0).compatibles / 2 : Nat) : Int)
          :: (edge_pairs (build_graph configs configs.length T sched 0 0).graph
                configs.length).map (fun p => Line.ints [p.2 + 1, p.1 + 1])
    ∧ (build_graph configs configs.length T sched 0 0).compatibles % 2 = 0
    ∧ (build_graph configs configs.length T sched 0 0).compatibles
        = 2 * (edge_pairs (build_graph configs configs.length T sched 0 0).graph
                configs.length).length
    ∧ (build_graph configs configs.length T sched 0 0).conflicts
        + (build_graph configs configs.length T sched 0 0).compatibles
        = configs.length * (configs.length - 1) := by
  obtain ⟨h2E, ht⟩ := build_graph_counts_edges configs T sched hT hsched
  refine ⟨?_, by omega, h2E, ht⟩
  rw [dump_graph_eq, wrap_int_of_lt _ (edge_count_fits _ _ hN)]
  have : (edge_pairs (build_graph configs configs.length T sched 0 0).graph
            configs.length).length
      = (build_graph configs configs.length T sched 0 0).compatibles / 2 := by omega
  rw [this]

/-- The edge count at a concrete input: three configurations of which the pairs `{0,1}` and
`{1,2}` are compatible and `{0,2}` conflicts, built by two workers. -/
theorem edge_count_half_compatibles_witness :
    [(⟨[11], 0, 0⟩ : Config), ⟨[136], 0, 0⟩, ⟨[2], 0, 0⟩].length ≤ 65536
    ∧ 1 ≤ 2 ∧ [1, 0].Perm (List.range 2)
    ∧ (build_graph [⟨[11], 0, 0⟩, ⟨[136], 0, 0⟩, ⟨[2], 0, 0⟩] 3 2 [1, 0] 0 0).compatibles = 4
    ∧ (build_graph [⟨[11], 0, 0⟩, ⟨[136], 0, 0⟩, ⟨[2], 0, 0⟩] 3 2 [1, 0] 0 0).conflicts = 2
    ∧ dump_graph (build_graph [⟨[11], 0, 0⟩, ⟨[136], 0, 0⟩, ⟨[2], 0, 0⟩] 3 2 [1, 0] 0 0).graph 3
        = [Line.text mtx_header, Line.size 3 3 2, Line.ints [2, 1], Line.ints [3, 2]]
    ∧ (build_graph [⟨[11], 0, 0⟩, ⟨[136], 0, 0⟩, ⟨[2], 0, 0⟩] 3 2 [1, 0] 0 0).conflicts
        + (build_graph [⟨[11], 0, 0⟩, ⟨[136], 0, 0⟩, ⟨[2], 0, 0⟩] 3 2 [1, 0] 0 0).compatibles
        = 3 * (3 - 1) :=
  ⟨by decide, by decide, by decide, by decide, by decide, by decide,
    (edge_count_half_compatibles [⟨[11], 0, 0⟩, ⟨[136], 0, 0⟩, ⟨[2], 0, 0⟩] 2 [1, 0]
      (by decide) (by decide) (by decide)).2.2.2⟩

theorem config_at_replicate (n : Nat) (c : Config) (i : Nat) (hi : i < n) :
    config_at (List.replicate n c) i = c := by
  unfold config_at
  rw [List.getD_eq_getElem?_getD, List.getElem?_replicate]
  simp [hi]

/-- The graph built from `n` copies of the empty configuration has every cell of the
`n x n` matrix set. -/
theorem build_graph_replicate_new (n T : Nat) (sched : List Nat) (hT : 1 ≤ T)
    (hsched : sched.Perm (List.range T)) :
    ∀ i j, i < j → j < n →
      (build_graph (List.replicate n (Config.new 100)) n T sched 0 0).graph i j ≠ 0 := by
  intro i j hij hj
  rw [build_graph_matrix _ n T sched 0 0 hT hsched i j (by omega) hj]
  unfold compat_matrix
  rw [config_at_replicate n _ i (by omega), config_at_replicate n _ j hj]
  have hc : (Config.new 100).conflict (Config.new 100) = false := by decide
  rw [hc]
  simp

/-- C10: for 65537 empty configurations (no two of which conflict), built by one worker from
counters at 0, `compatibles = 65537 * 65536 = 4295032832` and `conflicts = 0`, so
`conflicts + compatibles = N * (N - 1)` and `compatibles / 2 = 2147516416` is the number of
edge lines; but the counter `edges` has left the range of `int`: the size line reads
`65537 65537 -2147450880`, and no line `65537 65537 2147516416` is written, so the `E` of the
file is not `compatibles / 2`. -/
theorem edge_count_overflows_half_compatibles :
    (build_graph (List.replicate 65537 (Config.new 100)) 65537 1 [0] 0 0).compatibles
        = 4295032832
    ∧ (build_graph (List.replicate 65537 (Config.new 100)) 65537 1 [0] 0 0).conflicts = 0
    ∧ (edge_pairs (build_graph (List.replicate 65537 (Config.new 100)) 65537 1 [0] 0 0).graph
          65537).length = 4295032832 / 2
    ∧ dump_graph (build_graph (List.replicate 65537 (Config.new 100)) 65537 1 [0] 0 0).graph
          65537
        = Line.text mtx_header :: Line.size 65537 65537 (-2147450880)
            :: (edge_pairs (build_graph (List.replicate 65537 (Config.new 100)) 65537 1 [0]
                  0 0).graph 65537).map (fun p => Line.ints [p.2 + 1, p.1 + 1])
    ∧ Line.size 65537 65537 ((4295032832 / 2 : Nat) : Int)
        ∉ dump_graph
            (build_graph (List.replicate 65537 (Config.new 100)) 65537 1 [0] 0 0).graph
            65537 := by
  have hb := build_graph_counts_edges (List.replicate 65537 (Config.new 100)) 1 [0]
    (by decide) (by decide)
  rw [List.length_replicate] at hb
  obtain ⟨h2E, ht⟩ := hb
  have hfull := edge_pairs_full_length
    (build_graph (List.replicate 65537 (Config.new 100)) 65537 1 [0] 0 0).graph 65537
    (build_graph_replicate_new 65537 1 [0] (by decide) (by decide))
  have hlen : (edge_pairs
      (build_graph (List.replicate 65537 (Config.new 100)) 65537 1 [0] 0 0).graph
        65537).length = 2147516416 := by omega
  have hw : wrap_int ((2147516416 : Nat) : Int) = -2147450880 := by decide
  have hd : dump_graph
      (build_graph (List.replicate 65537 (Config.new 100)) 65537 1 [0] 0 0).graph 65537
      = Line.text mtx_header :: Line.size 65537 65537 (-2147450880)
          :: (edge_pairs (build_graph (List.replicate 65537 (Config.new 100)) 65537 1 [0]
                0 0).graph 65537).map (fun p => Line.ints [p.2 + 1, p.1 + 1]) := by
    rw [dump_graph_eq, hlen, hw]
  refine ⟨by omega, by omega, by omega, hd, ?_⟩
  rw [hd]
  simp only [List.mem_cons, List.mem_map, reduceCtorEq, false_or, Line.size.injEq, true_and,
    and_false, exists_false, or_false]
  decide

/-! ## Removing a clique -/

theorem foldl_set_row (N v : Nat) (g : Graph) (a b : Nat) :
    ((List.range N).foldl (fun g i => g.set v i 0) g) a b
      = if a = v ∧ b < N then 0 else g a b := by
  induction N with
  | zero => simp
  | succ N ih =>
    rw [List.range_succ, List.foldl_append]
    simp only [List.foldl_cons, List.foldl_nil, Graph.set]
    rw [ih]
    by_cases h1 : a = v ∧ b = N
    · have : a = v ∧ b < N + 1 := ⟨h1.1, by omega⟩
      simp [h1, this]
    · simp only [h1, if_false]
      by_cases h2 : a = v ∧ b < N
      · have : a = v ∧ b < N + 1 := ⟨h2.1, by omega⟩
        simp [h2, this]
      · have : ¬ (a = v ∧ b < N + 1) := by
          rintro ⟨e, hlt⟩
          rcases Nat.lt_or_ge b N with h | h
          · exact h2 ⟨e, h⟩
          · exact h1 ⟨e, by omega⟩
        simp [h2, this]

theorem foldl_set_col (N v : Nat) (g : Graph) (a b : Nat) :
    ((List.range N).foldl (fun g i => g.set i v 0) g) a b
      = if b = v ∧ a < N then 0 else g a b := by
  induction N with
  | zero => simp
  | succ N ih =>
    rw [List.range_succ, List.foldl_append]
    simp only [List.foldl_cons, List.foldl_nil, Graph.set]
    rw [ih]
    by_cases h1 : a = N ∧ b = v
    · have : b = v ∧ a < N + 1 := ⟨h1.2, by omega⟩
      simp [h1, this]
    · simp only [h1, if_false]
      by_cases h2 : b = v ∧ a < N
      · have : b = v ∧ a < N + 1 := ⟨h2.1, by omega⟩
        simp [h2, this]
      · have : ¬ (b = v ∧ a < N + 1) := by
          rintro ⟨e, hlt⟩
          rcases Nat.lt_or_ge a N with h | h
          · exact h2 ⟨e, h⟩
          · exact h1 ⟨by omega, e⟩
        simp [h2, this]

theorem zero_node_eq (N v : Nat) (g : Graph) : zero_node N g v = cleared N [v] g := by
  funext a b
  unfold zero_node cleared
  rw [foldl_set_col, foldl_set_row]
  simp only [List.mem_singleton]
  by_cases h1 : b = v ∧ a < N
  · simp [h1]
  · by_cases h2 : a = v ∧ b < N
    · simp [h2]
    · simp [h1, h2]

theorem cleared_append (N : Nat) (xs ys : List Nat) (g : Graph) :
    cleared N ys (cleared N xs g) = cleared N (xs ++ ys) g := by
  funext a b
  unfold cleared
  simp only [List.mem_append]
  by_cases h1 : (a ∈ ys ∧ b < N) ∨ (b ∈ ys ∧ a < N)
  · have : ((a ∈ xs ∨ a ∈ ys) ∧ b < N) ∨ ((b ∈ xs ∨ b ∈ ys) ∧ a < N) := by
      rcases h1 with ⟨h, hb⟩ | ⟨h, ha⟩
      · exact Or.inl ⟨Or.inr h, hb⟩
      · exact Or.inr ⟨Or.inr h, ha⟩
    simp [h1, this]
  · simp only [h1, if_false]
    by_cases h2 : (a ∈ xs ∧ b < N) ∨ (b ∈ xs ∧ a < N)
    · have : ((a ∈ xs ∨ a ∈ ys) ∧ b < N) ∨ ((b ∈ xs ∨ b ∈ ys) ∧ a < N) := by
        rcases h2 with ⟨h, hb⟩ | ⟨h, ha⟩
        · exact Or.inl ⟨Or.inl h, hb⟩
        · exact Or.inr ⟨Or.inl h, ha⟩
      simp [h2, this]
    · have : ¬ (((a ∈ xs ∨ a ∈ ys) ∧ b < N) ∨ ((b ∈ xs ∨ b ∈ ys) ∧ a < N)) := by
        rintro (⟨h | h, hb⟩ | ⟨h | h, ha⟩)
        · exact h2 (Or.inl ⟨h, hb⟩)
        · exact h1 (Or.inl ⟨h, hb⟩)
        · exact h2 (Or.inr ⟨h, ha⟩)
        · exact h1 (Or.inr ⟨h, ha⟩)
      simp [h2, this]

theorem cleared_nil (N : Nat) (g : Graph) : cleared N [] g = g := by
  funext a b
  simp [cleared]

theorem task_update_graph_eq (N : Nat) :
    ∀ (nodes : List Nat) (g : Graph), task_update_graph N nodes g = cleared N nodes g := by
  intro nodes
  induction nodes with
  | nil => intro g; rw [cleared_nil]; rfl
  | cons v nodes ih =>
    intro g
    unfold task_update_graph at ih ⊢
    rw [List.foldl_cons, ih, zero_node_eq, cleared_append]
    rfl

theorem workers_update_eq (N : Nat) :
    ∀ (args : List (List Nat)) (g : Graph),
      args.foldl (fun g nodes => task_update_graph N nodes g) g = cleared N args.flatten g := by
  intro args
  induction args with
  | nil => intro g; rw [List.flatten_nil, cleared_nil]; rfl
  | cons ns args ih =>
    intro g
    rw [List.foldl_cons, ih, task_update_graph_eq, cleared_append, List.flatten_cons]

theorem take_chunk_eq :
    ∀ (n : Nat) (mine stack : List Nat),
      take_chunk n mine stack = (mine ++ stack.take n, stack.drop n) := by
  intro n
  induction n with
  | zero => intro mine stack; simp [take_chunk]
  | succ n ih =>
    intro mine stack
    cases stack with
    | nil => simp [take_chunk]
    | cons x stack =>
      simp only [take_chunk]
      split
      · rename_i h
        have : stack = [] := by simpa using h
        subst this
        simp
      · rw [ih]
        simp

theorem chunk_loop_eq (c : Nat) :
    ∀ (t : Nat) (args : List (List Nat)) (stack : List Nat),
      (chunk_loop c t args stack).1.flatten = args.flatten ++ stack.take (t * c)
      ∧ (chunk_loop c t args stack).2 = stack.drop (t * c) := by
  intro t
  induction t with
  | zero => intro args stack; simp [chunk_loop]
  | succ t ih =>
    intro args stack
    simp only [chunk_loop, take_chunk_eq, List.nil_append]
    have hmul : (t + 1) * c = c + t * c := by rw [Nat.succ_mul, Nat.add_comm]
    split
    · rename_i h
      have hd : stack.drop c = [] := by simpa using h
      have hlen : stack.length ≤ c := List.drop_eq_nil_iff.1 hd
      simp only [List.flatten_append, List.flatten_cons, List.flatten_nil, List.append_nil]
      rw [List.take_of_length_le hlen, List.take_of_length_le (by rw [hmul]; omega), hd]
      refine ⟨rfl, ?_⟩
      symm
      exact List.drop_eq_nil_iff.2 (by rw [hmul]; omega)
    · obtain ⟨h1, h2⟩ := ih (args ++ [stack.take c]) (stack.drop c)
      rw [h1, h2, hmul]
      simp only [List.flatten_append, List.flatten_cons, List.flatten_nil, List.append_nil,
        List.append_assoc, List.drop_drop]
      rw [List.take_add]
      exact ⟨rfl, trivial⟩

/-- For a non-empty clique and at least one thread, `update_graph` passes both assertions and
zeroes exactly the rows and columns of the clique. -/
theorem update_graph_eq (T : Nat) (g : Graph) (clique : List Nat) (N : Nat)
    (hT : 1 ≤ T) (hne : clique ≠ []) :
    update_graph T g clique N = some (cleared N clique g) := by
  unfold update_graph
  have h1 : clique.isEmpty = false := by
    cases clique with
    | nil => exact absurd rfl hne
    | cons _ _ => rfl
  simp only [h1, Bool.false_eq_true, if_false]
  obtain ⟨e1, e2⟩ := chunk_loop_eq (clique.length / T + 1) T [] clique.reverse
  have hbig : clique.reverse.length ≤ T * (clique.length / T + 1) := by
    have := Nat.lt_mul_div_succ clique.length (by omega : 0 < T)
    rw [List.length_reverse]
    omega
  rw [List.drop_eq_nil_iff.2 hbig] at e2
  rw [List.take_of_length_le hbig, List.flatten_nil, List.nil_append] at e1
  rw [e2]
  simp only [List.isEmpty_nil, if_true, workers_update_eq, e1]
  congr 1
  funext a b
  simp [cleared]

/-! ## The cover driver -/

theorem cleared_ne_zero {N : Nat} {nodes : List Nat} {g : Graph} {a b : Nat}
    (h : cleared N nodes g a b ≠ 0) : g a b ≠ 0 := by
  unfold cleared at h
  split at h
  · exact absurd rfl h
  · exact h

/-- Soundness invariant of the driver: cells are only ever cleared, and the members of a
recorded clique are pairwise joined by a set upper-triangle cell of the initial matrix. -/
theorem driver_loop_sound (find_clique : List Line → List Nat) (T N : Nat) (G0 : Graph)
    (hsolver : SolverAdjacent find_clique N) :
    ∀ k, (∀ i j, (driver_loop find_clique T N G0 k).graph i j ≠ 0 → G0 i j ≠ 0)
      ∧ ∀ c ∈ (driver_loop find_clique T N G0 k).cliques, ∀ u ∈ c, ∀ v ∈ c, u ≠ v →
          min u v < max u v ∧ max u v < N ∧ G0 (min u v) (max u v) ≠ 0 := by
  intro k
  induction k with
  | zero =>
    refine ⟨fun i j h => h, ?_⟩
    intro c hc
    simp [driver_loop] at hc
  | succ k ih =>
    obtain ⟨ih1, ih2⟩ := ih
    simp only [driver_loop]
    generalize driver_loop find_clique T N G0 k = d at ih1 ih2
    have hnew : ∀ u ∈ find_clique (dump_graph d.graph N),
        ∀ v ∈ find_clique (dump_graph d.graph N), u ≠ v →
          min u v < max u v ∧ max u v < N ∧ G0 (min u v) (max u v) ≠ 0 := by
      intro u hu v hv huv
      have hline := hsolver d.graph u hu v hv huv
      obtain ⟨i, j, hij, hj, hne, e1, e2⟩ := (mem_dump_graph_edge d.graph N _ _).1 hline
      have e1' : max u v = j := by omega
      have e2' : min u v = i := by omega
      rw [e1', e2']
      exact ⟨hij, hj, ih1 i j hne⟩
    unfold driver_step
    cases hst : d.status with
    | running =>
      simp only
      split
      · exact ⟨ih1, ih2⟩
      · cases hup : update_graph T d.graph (find_clique (dump_graph d.graph N)) N with
        | none =>
          simp only
          refine ⟨ih1, ?_⟩
          intro c hc
          rcases List.mem_append.1 hc with hc | hc
          · exact ih2 c hc
          · simp only [List.mem_singleton] at hc
            subst hc
            exact hnew
        | some g =>
          simp only
          have hg : g = cleared N (find_clique (dump_graph d.graph N)) d.graph := by
            unfold update_graph at hup
            split at hup
            · cases hup
            · simp only at hup
              split at hup
              · injection hup with hup
                rw [← hup, workers_update_eq]
                funext a b
                unfold cleared
                have hfl := (chunk_loop_eq
                  ((find_clique (dump_graph d.graph N)).length / T + 1) T []
                  (find_clique (dump_graph d.graph N)).reverse).1
                rename_i hempty
                have hrest := (chunk_loop_eq
                  ((find_clique (dump_graph d.graph N)).length / T + 1) T []
                  (find_clique (dump_graph d.graph N)).reverse).2
                have hd : List.drop (T * ((find_clique (dump_graph d.graph N)).length / T + 1))
                    (find_clique (dump_graph d.graph N)).reverse = [] := by
                  rw [← hrest]
                  simpa using hempty
                rw [List.take_of_length_le (List.drop_eq_nil_iff.1 hd), List.flatten_nil,
                  List.nil_append] at hfl
                rw [hfl]
                simp
              · cases hup
          subst hg
          refine ⟨fun i j h => ih1 i j (cleared_ne_zero h), ?_⟩
          intro c hc
          rcases List.mem_append.1 hc with hc | hc
          · exact ih2 c hc
          · simp only [List.mem_singleton] at hc
            subst hc
            exact hnew
    | finished => exact ⟨ih1, ih2⟩
    | aborted => exact ⟨ih1, ih2⟩

/-- C5: with a solver whose answer is pairwise adjacent in the file written by `dump_graph`
for the current matrix, every clique recorded by the driver loop on the matrix of
`build_graph`, after any number of iterations, and every leftover singleton of `empty_graph`
is a clique of the original compatibility graph: two distinct members never conflict. -/
theorem recorded_cliques_compatible (configs : List Config) (T : Nat) (sched : List Nat)
    (find_clique : List Line → List Nat)
    (hT : 1 ≤ T) (hsched : sched.Perm (List.range T))
    (hsolver : SolverAdjacent find_clique configs.length) (k : Nat) :
    ∀ c ∈ (driver_loop find_clique T configs.length
              (build_graph configs configs.length T sched 0 0).graph k).cliques
            ++ empty_graph (driver_loop find_clique T configs.length
              (build_graph configs configs.length T sched 0 0).graph k).graph configs.length,
      ∀ u ∈ c, ∀ v ∈ c, u ≠ v →
        (config_at configs u).conflict (config_at configs v) = false := by
  intro c hc u hu v hv huv
  rcases List.mem_append.1 hc with hc | hc
  · obtain ⟨_, h2⟩ := driver_loop_sound find_clique T configs.length
      (build_graph configs configs.length T sched 0 0).graph hsolver k
    obtain ⟨hlt, hmax, hne⟩ := h2 c hc u hu v hv huv
    rw [build_graph_matrix configs _ T sched 0 0 hT hsched _ _ (by omega) hmax] at hne
    have hmn : ¬ min u v = max u v := by omega
    simp only [compat_matrix, hmn, if_false] at hne
    have hconf : (config_at configs (min u v)).conflict (config_at configs (max u v)) = false := by
      cases h : (config_at configs (min u v)).conflict (config_at configs (max u v))
      · rfl
      · rw [h] at hne
        simp at hne
    rcases Nat.lt_or_gt_of_ne huv with h | h
    · rw [Nat.min_eq_left (Nat.le_of_lt h), Nat.max_eq_right (Nat.le_of_lt h)] at hconf
      exact hconf
    · rw [Nat.min_eq_right (Nat.le_of_lt h), Nat.max_eq_left (Nat.le_of_lt h)] at hconf
      rw [conflict_comm]
      exact hconf
  · simp only [empty_graph, List.mem_map, List.mem_filter] at hc
    obtain ⟨i, _, rfl⟩ := hc
    simp only [List.mem_singleton] at hu hv
    exact absurd (hu.trans hv.symm) huv

theorem edge_pairs_congr (G G' : Graph) (N : Nat)
    (h : ∀ i j, i < j → j < N → (G i j ≠ 0 ↔ G' i j ≠ 0)) : edge_pairs G N = edge_pairs G' N := by
  unfold edge_pairs
  apply List.flatMap_congr
  intro i _
  unfold row_pairs
  congr 1
  apply List.filter_congr
  intro j hj
  have hj' := List.mem_range'_1.1 hj
  have := h i j (by omega) (by omega)
  by_cases h1 : G i j ≠ 0
  · simp [h1, this.1 h1]
  · have h2 : ¬ G' i j ≠ 0 := fun h2 => h1 (this.2 h2)
    simp [h1, h2]

theorem dump_graph_congr (G G' : Graph) (N : Nat)
    (h : ∀ i j, i < j → j < N → (G i j ≠ 0 ↔ G' i j ≠ 0)) : dump_graph G N = dump_graph G' N := by
  rw [dump_graph_eq, dump_graph_eq, edge_pairs_congr G G' N h]

theorem first_edge_solver_spec (N : Nat) : SolverSpec first_edge_solver N := by
  intro G
  rw [dump_graph_eq]
  cases hE : edge_pairs G N with
  | nil => simp [first_edge_solver]
  | cons p ps =>
    have hp : (p.1, p.2) ∈ edge_pairs G N := by rw [hE]; exact List.mem_cons_self _ _
    obtain ⟨h1, h2, _⟩ := (mem_edge_pairs G N p.1 p.2).1 hp
    simp only [List.map_cons, first_edge_solver, Nat.add_sub_cancel]
    refine ⟨?_, ?_, ?_⟩
    · simp only [List.nodup_cons, List.mem_singleton, List.not_mem_nil, not_false_eq_true,
        List.nodup_nil, and_true]
      omega
    · intro v hv
      simp only [List.mem_cons, List.not_mem_nil, or_false] at hv
      omega
    · intro u hu v hv huv
      simp only [List.mem_cons, List.not_mem_nil, or_false] at hu hv
      have e1 : max u v = p.2 := by omega
      have e2 : min u v = p.1 := by omega
      rw [e1, e2]
      simp

theorem solverSpec_adjacent {find_clique : List Line → List Nat} {N : Nat}
    (h : SolverSpec find_clique N) : SolverAdjacent find_clique N :=
  fun G => (h G).2.2

theorem driver_stuck_step (find_clique : List Line → List Nat) (T N : Nat) (hT : 1 ≤ T)
    (d : Driver) (h : DriverStuck find_clique N d) :
    DriverStuck find_clique N (driver_step find_clique T N d) := by
  obtain ⟨hrun, v, hv, hvN, hzero⟩ := h
  have hdump : dump_graph (cleared N [v] d.graph) N = dump_graph d.graph N := by
    apply dump_graph_congr
    intro i j hij hj
    unfold cleared
    simp only [List.mem_singleton]
    by_cases hc : (i = v ∧ j < N) ∨ (j = v ∧ i < N)
    · have hz : d.graph i j = 0 := by
        rcases hc with ⟨e, _⟩ | ⟨e, _⟩
        · exact hzero i j hij hj (Or.inl e)
        · exact hzero i j hij hj (Or.inr e)
      simp [hc, hz]
    · simp [hc]
  unfold driver_step
  rw [hrun]
  simp only [hv, List.isEmpty_cons, Bool.false_eq_true, if_false,
    update_graph_eq T d.graph [v] N hT (by simp)]
  refine ⟨rfl, v, ?_, hvN, ?_⟩
  · simp only
    rw [hdump]
    exact hv
  · intro i j hij hj hor
    simp only [cleared, List.mem_singleton]
    split
    · rfl
    · exact hzero i j hij hj hor

theorem driver_good_step (find_clique : List Line → List Nat) (T N : Nat) (hT : 1 ≤ T)
    (hsolver : SolverSpec find_clique N) (d : Driver) (h : DriverGood N d) :
    DriverGood N (driver_step find_clique T N d) ∨ DriverStuck find_clique N d := by
  unfold driver_step
  cases hst : d.status with
  | finished => exact Or.inl h
  | aborted => exact absurd hst h.not_aborted
  | running =>
    simp only
    obtain ⟨hnd, hlt, hadj⟩ := hsolver d.graph
    generalize hC : find_clique (dump_graph d.graph N) = C at hnd hlt hadj
    cases C with
    | nil =>
      left
      simp only [List.isEmpty_nil, if_true]
      exact ⟨by simp, h.nodup, h.below, h.diag, h.zeroed⟩
    | cons x xs =>
      simp only [List.isEmpty_cons, Bool.false_eq_true, if_false,
        update_graph_eq T d.graph (x :: xs) N hT (by simp)]
      by_cases hall : ∀ v ∈ x :: xs, d.graph v v ≠ 0
      · left
        have hfresh : ∀ v ∈ x :: xs, v ∉ d.cliques.flatten :=
          fun v hv => (h.diag v (hlt v hv)).1 (hall v hv)
        refine ⟨by simp, ?_, ?_, ?_, ?_⟩
        · simp only [List.flatten_append, List.flatten_cons, List.flatten_nil, List.append_nil]
          rw [List.nodup_append]
          exact ⟨h.nodup, hnd, fun a ha hb => hfresh a hb ha⟩
        · intro v hv
          simp only [List.flatten_append, List.flatten_cons, List.flatten_nil, List.append_nil,
            List.mem_append] at hv
          rcases hv with hv | hv
          · exact h.below v hv
          · exact hlt v hv
        · intro v hv
          simp only [List.flatten_append, List.flatten_cons, List.flatten_nil, List.append_nil,
            List.mem_append, not_or, cleared]
          by_cases hmem : v ∈ x :: xs
          · have : (v ∈ x :: xs ∧ v < N) ∨ (v ∈ x :: xs ∧ v < N) := Or.inl ⟨hmem, hv⟩
            rw [if_pos this]
            constructor
            · intro hne
              exact absurd rfl hne
            · intro hcon
              exact absurd hmem hcon.2
          · have : ¬ ((v ∈ x :: xs ∧ v < N) ∨ (v ∈ x :: xs ∧ v < N)) := by
              rintro (⟨h1, _⟩ | ⟨h1, _⟩) <;> exact hmem h1
            simp only [this, if_false, hmem, not_false_eq_true, and_true]
            exact h.diag v hv
        · intro v hv i hi
          simp only [List.flatten_append, List.flatten_cons, List.flatten_nil, List.append_nil,
            List.mem_append] at hv
          simp only [cleared]
          rcases hv with hv | hv
          · constructor
            · split
              · rfl
              · exact (h.zeroed v hv i hi).1
            · split
              · rfl
              · exact (h.zeroed v hv i hi).2
          · have hvN := hlt v hv
            constructor
            · rw [if_pos (Or.inl ⟨hv, hi⟩)]
            · rw [if_pos (Or.inr ⟨hv, hi⟩)]
      · right
        simp only [not_forall, Decidable.not_not] at hall
        obtain ⟨v, hvC, hv0⟩ := hall
        have hvN := hlt v hvC
        have hvold : v ∈ d.cliques.flatten := by
          by_contra hn
          exact (h.diag v hvN).2 hn hv0
        have hzero := h.zeroed v hvold
        have hall_eq : ∀ u ∈ x :: xs, u = v := by
          intro u hu
          by_contra hne
          have hline := hadj u hu v hvC hne
          obtain ⟨i, j, hij, hj, hcell, e1, e2⟩ := (mem_dump_graph_edge d.graph N _ _).1 hline
          have hi : i < N := by omega
          rcases Nat.lt_or_gt_of_ne hne with hlt' | hgt
          · have ej : j = v := by omega
            rw [ej] at hcell
            exact hcell (hzero i hi).2
          · have ei : i = v := by omega
            rw [ei] at hcell
            exact hcell (hzero j hj).1
        have hCv : x :: xs = [v] := by
          have hx : x = v := hall_eq x (List.mem_cons_self _ _)
          subst hx
          cases xs with
          | nil => rfl
          | cons y ys =>
            exfalso
            have hy : y = x := hall_eq y (List.mem_cons_of_mem _ (List.mem_cons_self _ _))
            subst hy
            simp at hnd
        refine ⟨hst, v, by rw [hC, hCv], hvN, ?_⟩
        intro i j hij hj hor
        rcases hor with e | e
        · rw [e]
          exact (hzero j hj).1
        · rw [e]
          exact (hzero i (by omega)).2

theorem driver_loop_good_or_stuck (find_clique : List Line → List Nat) (T N : Nat) (G0 : Graph)
    (hT : 1 ≤ T) (hsolver : SolverSpec find_clique N) (hdiag : ∀ v, v < N → G0 v v ≠ 0) :
    ∀ k, DriverGood N (driver_loop find_clique T N G0 k)
      ∨ DriverStuck find_clique N (driver_loop find_clique T N G0 k) := by
  intro k
  induction k with
  | zero =>
    left
    exact ⟨by simp [driver_loop], by simp [driver_loop], by simp [driver_loop],
      fun v hv => by simp [driver_loop, hdiag v hv], by simp [driver_loop]⟩
  | succ k ih =>
    simp only [driver_loop]
    rcases ih with hg | hs
    · rcases driver_good_step find_clique T N hT hsolver _ hg with h | h
      · exact Or.inl h
      · exact Or.inr (driver_stuck_step find_clique T N hT _ h)
    · exact Or.inr (driver_stuck_step find_clique T N hT _ hs)

theorem flatten_map_singleton (l : List Nat) : (l.map fun i => [i]).flatten = l := by
  induction l with
  | nil => rfl
  | cons a l ih => simp [List.flatten_cons, ih]

/-- C4: with the solver a function of the file written by `dump_graph` that returns distinct
vertices of `[0, N)` pairwise adjacent in that file (or nothing), if the driver loop on the
matrix of `build_graph` leaves through `break` (after some number `fuel` of iterations), then
the final clique list, the recorded cliques followed by the singletons of `empty_graph`, is
pairwise disjoint and its union is `[0, N)`: every vertex is in exactly one output clique. -/
theorem cover_is_partition (configs : List Config) (T : Nat) (sched : List Nat)
    (find_clique : List Line → List Nat) (fuel : Nat) (result : List (List Nat))
    (hT : 1 ≤ T) (hsched : sched.Perm (List.range T))
    (hsolver : SolverSpec find_clique configs.length)
    (hmain : main_cliques find_clique T configs.length
      (build_graph configs configs.length T sched 0 0).graph fuel = some result) :
    result.flatten.Perm (List.range configs.length)
    ∧ result.Pairwise List.Disjoint
    ∧ (∀ v, v < configs.length ↔ ∃ c ∈ result, v ∈ c)
    ∧ (∀ v, v < configs.length → result.flatten.count v = 1) := by
  have hdiag : ∀ v, v < configs.length →
      (build_graph configs configs.length T sched 0 0).graph v v ≠ 0 := by
    intro v hv
    rw [build_graph_matrix configs _ T sched 0 0 hT hsched v v hv hv]
    simp [compat_matrix]
  have hinv := driver_loop_good_or_stuck find_clique T configs.length
    (build_graph configs configs.length T sched 0 0).graph hT hsolver hdiag fuel
  unfold main_cliques at hmain
  generalize driver_loop find_clique T configs.length
    (build_graph configs configs.length T sched 0 0).graph fuel = d at hinv hmain
  split at hmain
  · rename_i hfin
    injection hmain with hres
    have hgood : DriverGood configs.length d := by
      rcases hinv with h | h
      · exact h
      · rw [h.1] at hfin
        cases hfin
    have hflat : result.flatten = d.cliques.flatten
        ++ (List.range configs.length).filter (fun i => d.graph i i ≠ 0) := by
      rw [← hres, List.flatten_append, empty_graph, flatten_map_singleton]
    have hnodup : result.flatten.Nodup := by
      rw [hflat, List.nodup_append]
      refine ⟨hgood.nodup, (List.nodup_range _).filter _, ?_⟩
      intro a ha hb
      simp only [List.mem_filter, List.mem_range, decide_eq_true_eq] at hb
      exact (hgood.diag a hb.1).1 hb.2 ha
    have hmem : ∀ a, a ∈ result.flatten ↔ a ∈ List.range configs.length := by
      intro a
      rw [hflat, List.mem_append, List.mem_range]
      simp only [List.mem_filter, List.mem_range, decide_eq_true_eq]
      constructor
      · rintro (h | h)
        · exact hgood.below a h
        · exact h.1
      · intro ha
        by_cases hin : a ∈ d.cliques.flatten
        · exact Or.inl hin
        · exact Or.inr ⟨ha, (hgood.diag a ha).2 hin⟩
    refine ⟨(List.perm_ext_iff_of_nodup hnodup (List.nodup_range _)).2 hmem,
      (List.nodup_flatten.1 hnodup).2, ?_, ?_⟩
    · intro v
      rw [← List.mem_range, ← hmem v, List.mem_flatten]
    · intro v hv
      exact List.count_eq_one_of_mem hnodup ((hmem v).2 (List.mem_range.2 hv))
  · cases hmain

/-- C4, at a concrete input: three configurations of which `{0,1}` and `{1,2}` are
compatible, two threads, and the solver that answers with the first edge of the file.  The
loop records `[1, 0]`, then finds no edge and stops; vertex 2 is left as a singleton. -/
theorem cover_is_partition_witness :
    1 ≤ 2 ∧ [1, 0].Perm (List.range 2)
    ∧ main_cliques first_edge_solver 2 3
        (build_graph [⟨[11], 0, 0⟩, ⟨[136], 0, 0⟩, ⟨[2], 0, 0⟩] 3 2 [1, 0] 0 0).graph 2
        = some [[1, 0], [2]]
    ∧ [[1, 0], [2]].flatten.Perm (List.range 3)
    ∧ [[1, 0], [2]].Pairwise List.Disjoint :=
  ⟨by decide, by decide, by decide,
    (cover_is_partition [⟨[11], 0, 0⟩, ⟨[136], 0, 0⟩, ⟨[2], 0, 0⟩] 2 [1, 0] first_edge_solver 2
      [[1, 0], [2]] (by decide) (by decide) (first_edge_solver_spec 3) (by decide)).1,
    (cover_is_partition [⟨[11], 0, 0⟩, ⟨[136], 0, 0⟩, ⟨[2], 0, 0⟩] 2 [1, 0] first_edge_solver 2
      [[1, 0], [2]] (by decide) (by decide) (first_edge_solver_spec 3) (by decide)).2.1⟩

/-- C5, at a concrete input: the same three configurations and solver; after two iterations
the recorded clique is `[1, 0]` and the leftover singleton is `[2]`. -/
theorem recorded_cliques_compatible_witness :
    1 ≤ 2 ∧ [1, 0].Perm (List.range 2)
    ∧ (driver_loop first_edge_solver 2 3
        (build_graph [⟨[11], 0, 0⟩, ⟨[136], 0, 0⟩, ⟨[2], 0, 0⟩] 3 2 [1, 0] 0 0).graph 2).cliques
        = [[1, 0]]
    ∧ ∀ c ∈ (driver_loop first_edge_solver 2 3
              (build_graph [⟨[11], 0, 0⟩, ⟨[136], 0, 0⟩, ⟨[2], 0, 0⟩] 3 2 [1, 0] 0 0).graph
              2).cliques
            ++ empty_graph (driver_loop first_edge_solver 2 3
              (build_graph [⟨[11], 0, 0⟩, ⟨[136], 0, 0⟩, ⟨[2], 0, 0⟩] 3 2 [1, 0] 0 0).graph
              2).graph 3,
        ∀ u ∈ c, ∀ v ∈ c, u ≠ v →
          (config_at [⟨[11], 0, 0⟩, ⟨[136], 0, 0⟩, ⟨[2], 0, 0⟩] u).conflict
            (config_at [⟨[11], 0, 0⟩, ⟨[136], 0, 0⟩, ⟨[2], 0, 0⟩] v) = false :=
  ⟨by decide, by decide, by decide,
    recorded_cliques_compatible [⟨[11], 0, 0⟩, ⟨[136], 0, 0⟩, ⟨[2], 0, 0⟩] 2 [1, 0]
      first_edge_solver (by decide) (by decide)
      (solverSpec_adjacent (first_edge_solver_spec 3)) 2⟩

/-! ## The parser -/

theorem parse_file_filter (counter : Nat) :
    ∀ (lines : List (List Char)) (st : ParseState),
      parse_file counter st lines
        = parse_file counter st (lines.filter fun line => !is_comment line) := by
  intro lines
  induction lines with
  | nil => intro st; rfl
  | cons line lines ih =>
    intro st
    by_cases hc : is_comment line = true
    · have h1 : parse_line st counter line = some st := by simp [parse_line, hc]
      simp only [parse_file, h1, List.filter_cons, hc, Bool.not_true, Bool.false_eq_true,
        if_false]
      exact ih st
    · have hc' : is_comment line = false := by simpa using hc
      simp only [parse_file, List.filter_cons, hc', Bool.not_false, if_true]
      cases parse_line st counter line with
      | none => rfl
      | some st' => exact ih st'

theorem parse_files_filter :
    ∀ (files : List (List (List Char))) (counter : Nat) (st : ParseState),
      parse_files counter st files
        = parse_files counter st
            (files.map fun file => file.filter fun line => !is_comment line) := by
  intro files
  induction files with
  | nil => intro counter st; rfl
  | cons file files ih =>
    intro counter st
    simp only [parse_files, List.map_cons, ← parse_file_filter]
    cases parse_file counter st file with
    | none => rfl
    | some st' => exact ih (counter + 1) st'

theorem parse_line_blank (st : ParseState) (counter : Nat) : parse_line st counter [] = none := by
  have h1 : is_comment [] = false := rfl
  have h2 : str_to_val (split_line []).2 = none := rfl
  simp only [parse_line, h1, h2, Bool.false_eq_true, if_false]

theorem parse_file_blank (counter : Nat) (post : List (List Char)) :
    ∀ (pre : List (List Char)) (st : ParseState),
      parse_file counter st (pre ++ [] :: post) = none := by
  intro pre
  induction pre with
  | nil => intro st; simp [parse_file, parse_line_blank]
  | cons line pre ih =>
    intro st
    simp only [List.cons_append, parse_file]
    cases parse_line st counter line with
    | none => rfl
    | some st' => exact ih st'

theorem is_assignment_split {line : List Char} (h : is_assignment line = true) :
    is_comment line = false ∧ ∃ v, str_to_val (split_line line).2 = some v := by
  unfold is_assignment at h
  simp only [Bool.and_eq_true, Bool.not_eq_true'] at h
  obtain ⟨h1, h2⟩ := h
  refine ⟨h1, ?_⟩
  unfold split_line
  cases hs : line.span (fun c => c != '=') with
  | mk symbol rest =>
    rw [hs] at h2
    cases rest with
    | nil => simp at h2
    | cons e value =>
      simp only [Bool.or_eq_true, beq_iff_eq] at h2
      simp only [str_to_val]
      rcases h2 with (h | h) | h <;> subst h <;> simp

theorem add_symbol_isSome {c : Config} {s v : Nat} (h : s / 21 < c.symbols.length) :
    ∃ c', c.add_symbol s v = some c' ∧ c'.symbols.length = c.symbols.length := by
  cases h1 : c.add_symbol s v with
  | none => simp [Config.add_symbol, h] at h1
  | some c' => exact ⟨c', rfl, (add_symbol_bound h1).2.1⟩

theorem mem_set_config {configs : List Config} {counter : Nat} {c' c : Config}
    (h : c ∈ configs.set counter c') : c ∈ configs ∨ c = c' := by
  rcases List.mem_or_eq_of_mem_set h with h | h
  · exact Or.inl h
  · exact Or.inr h

/-- A comment or an assignment line is parsed successfully and keeps the parser's
invariant. -/
theorem parse_line_ok (st : ParseState) (counter : Nat) (line : List Char)
    (hwf : st.WF counter) (hline : is_comment line = true ∨ is_assignment line = true) :
    ∃ st', parse_line st counter line = some st' ∧ st'.WF counter
      ∧ st'.configs.length = st.configs.length := by
  rcases hline with hc | ha
  · exact ⟨st, by simp [parse_line, hc], hwf, rfl⟩
  · obtain ⟨hc, v, hv⟩ := is_assignment_split ha
    have hlt : counter < st.configs.length := hwf.counter_lt
    obtain ⟨c, hcfg⟩ : ∃ c, st.configs[counter]? = some c :=
      ⟨st.configs[counter], List.getElem?_eq_getElem hlt⟩
    have hlen : c.symbols.length = st.SYM_ENTRIES := hwf.lengths c (List.getElem?_mem hcfg)
    simp only [parse_line, hc, Bool.false_eq_true, if_false, hv, hcfg]
    cases hl : st.symbols.lookup (split_line line).1 with
    | some sid =>
      have hsid : sid < st.SYM_COUNT := by
        obtain ⟨l₁, l₂, e, _⟩ := List.lookup_eq_some_iff.1 hl
        exact hwf.sids ((split_line line).1, sid) (by rw [e]; simp)
      have hroom := hwf.room
      have hdiv : sid / 21 ≤ st.SYM_COUNT / 21 := Nat.div_le_div_right (Nat.le_of_lt hsid)
      obtain ⟨c', hc', hlen'⟩ := add_symbol_isSome (c := c) (s := sid)
        (v := v) (by omega)
      simp only [hc']
      refine ⟨_, rfl, ⟨?_, ?_, hwf.room, hwf.sids⟩, by simp⟩
      · simpa using hwf.counter_lt
      · intro c hmem
        rcases mem_set_config hmem with h | h
        · exact hwf.lengths c h
        · rw [h, hlen', hlen]
    | none =>
      have hroom := hwf.room
      obtain ⟨c', hc', hlen'⟩ := add_symbol_isSome (c := c)
        (s := st.SYM_COUNT) (v := v) (by omega)
      simp only [hc']
      have hsids : ∀ p ∈ ((split_line line).1, st.SYM_COUNT) :: st.symbols,
          p.2 < st.SYM_COUNT + 1 := by
        intro p hp
        rcases List.mem_cons.1 hp with rfl | hp
        · exact Nat.lt_succ_self _
        · exact Nat.lt_succ_of_lt (hwf.sids p hp)
      have hlens : ∀ c ∈ st.configs.set counter c', c.symbols.length = st.SYM_ENTRIES := by
        intro c hmem
        rcases mem_set_config hmem with h | h
        · exact hwf.lengths c h
        · rw [h, hlen', hlen]
      have hstep : (st.SYM_COUNT + 1) / 21 ≤ st.SYM_COUNT / 21 + 1 := by omega
      split
      · refine ⟨_, rfl, ⟨?_, ?_, ?_, hsids⟩, by simp [resize_configs]⟩
        · simpa [resize_configs] using hwf.counter_lt
        · intro c hmem
          simp only [resize_configs, List.mem_map] at hmem
          obtain ⟨c0, hc0, rfl⟩ := hmem
          simp only [resize_configs, List.length_append, List.length_replicate]
          rw [hlens c0 hc0]
        · simp only [resize_configs]
          omega
      · rename_i hno
        refine ⟨_, rfl, ⟨?_, hlens, ?_, hsids⟩, by simp⟩
        · simpa using hwf.counter_lt
        · simp only at hno ⊢
          omega

theorem parse_file_ok (counter : Nat) :
    ∀ (lines : List (List Char)) (st : ParseState), st.WF counter →
      (∀ line ∈ lines, is_comment line = true ∨ is_assignment line = true) →
      ∃ st', parse_file counter st lines = some st' ∧ st'.WF counter
        ∧ st'.configs.length = st.configs.length := by
  intro lines
  induction lines with
  | nil => intro st hwf _; exact ⟨st, rfl, hwf, rfl⟩
  | cons line lines ih =>
    intro st hwf hlines
    obtain ⟨st1, h1, hwf1, hl1⟩ := parse_line_ok st counter line hwf
      (hlines line (List.mem_cons_self _ _))
    obtain ⟨st2, h2, hwf2, hl2⟩ := ih st1 hwf1
      (fun l hl => hlines l (List.mem_cons_of_mem _ hl))
    exact ⟨st2, by simp only [parse_file, h1, h2], hwf2, by rw [hl2, hl1]⟩

theorem parse_files_ok :
    ∀ (files : List (List (List Char))) (counter : Nat) (st : ParseState),
      counter + files.length ≤ st.configs.length →
      (∀ c ∈ st.configs, c.symbols.length = st.SYM_ENTRIES) →
      st.SYM_COUNT / 21 + 1 ≤ st.SYM_ENTRIES →
      (∀ p ∈ st.symbols, p.2 < st.SYM_COUNT) →
      (∀ file ∈ files, ∀ line ∈ file, is_comment line = true ∨ is_assignment line = true) →
      ∃ st', parse_files counter st files = some st' := by
  intro files
  induction files with
  | nil => intro counter st _ _ _ _ _; exact ⟨st, rfl⟩
  | cons file files ih =>
    intro counter st hcount hlen hroom hsids hfiles
    have hwf : st.WF counter :=
      ⟨by simp only [List.length_cons] at hcount; omega, hlen, hroom, hsids⟩
    obtain ⟨st1, h1, hwf1, hl1⟩ := parse_file_ok counter file st hwf
      (hfiles file (List.mem_cons_self _ _))
    obtain ⟨st2, h2⟩ := ih (counter + 1) st1
      (by simp only [List.length_cons] at hcount; omega)
      hwf1.lengths hwf1.room hwf1.sids
      (fun f hf => hfiles f (List.mem_cons_of_mem _ hf))
    exact ⟨st2, by simp only [parse_files, h1, h2]⟩

/-- C8, as stated, fails: a blank line between two valid lines makes the parser fail in
`str_to_val`, although the file without the blank line is parsed. -/
theorem parse_blank_line_fails :
    parse_configs [[['X', '=', 'y'], [], ['Y', '=', 'n']]] = none
    ∧ (parse_configs [[['X', '=', 'y'], ['Y', '=', 'n']]]).isSome = true := by
  decide

/-- C8, amended: for files whose lines are comment lines (first character `#`) or valid
`NAME=v` lines, `parse_configs` succeeds and yields the same state (interned symbols, reverse
table, counters and stored configurations) as on the files with the comment lines removed.
A blank line is not ignored: wherever it stands, the per-line loop fails on it. -/
theorem parse_ignores_comments (files : List (List (List Char)))
    (hvalid : ∀ file ∈ files, ∀ line ∈ file,
      is_comment line = true ∨ is_assignment line = true) :
    (∃ st, parse_configs files = some st
      ∧ parse_configs (files.map fun file => file.filter fun line => !is_comment line)
          = some st)
    ∧ (∀ (counter : Nat) (st : ParseState) (pre post : List (List Char)),
        parse_file counter st (pre ++ [] :: post) = none) := by
  refine ⟨?_, fun counter st pre post => parse_file_blank counter post pre st⟩
  obtain ⟨st, hst⟩ := parse_files_ok files 0 (ParseState.init files.length)
    (by simp [ParseState.init])
    (by
      intro c hc
      simp only [ParseState.init, List.mem_replicate] at hc
      rw [hc.2]
      simp [ParseState.init, Config.new])
    (by simp [ParseState.init])
    (by simp [ParseState.init])
    hvalid
  refine ⟨st, hst, ?_⟩
  unfold parse_configs
  rw [List.length_map, ← parse_files_filter]
  exact hst

/-- C8 amended, at a concrete input: two files with comment lines interleaved. -/
theorem parse_ignores_comments_witness :
    (∀ file ∈ [[['X', '=', 'y'], ['#', ' ', 'c'], ['Y', '=', 'n']], [['#'], ['Y', '=', 'm']]],
      ∀ line ∈ file, is_comment line = true ∨ is_assignment line = true)
    ∧ parse_configs [[['X', '=', 'y'], ['#', ' ', 'c'], ['Y', '=', 'n']], [['#'], ['Y', '=', 'm']]]
        = parse_configs [[['X', '=', 'y'], ['Y', '=', 'n']], [['Y', '=', 'm']]]
    ∧ ∃ st, parse_configs
          [[['X', '=', 'y'], ['#', ' ', 'c'], ['Y', '=', 'n']], [['#'], ['Y', '=', 'm']]] = some st
        ∧ parse_configs
          ([[['X', '=', 'y'], ['#', ' ', 'c'], ['Y', '=', 'n']], [['#'], ['Y', '=', 'm']]].map
            fun file => file.filter fun line => !is_comment line) = some st :=
  ⟨by decide, by decide,
    (parse_ignores_comments
      [[['X', '=', 'y'], ['#', ' ', 'c'], ['Y', '=', 'n']], [['#'], ['Y', '=', 'm']]]
      (by decide)).1⟩

/-! ## Further facts about the store -/

/-- C12: two configurations of equal capacity built by `add_symbol` calls with values in
{1,2,3} whose sets of assigned sids are disjoint never conflict, also when the sids share a
word: the 1-bit shifts carry nothing from one slot into the next. -/
theorem conflict_disjoint_sids (cap : Nat) (opsA opsB : List (Nat × Nat)) (A B : Config)
    (hvA : ∀ p ∈ opsA, p.2 = 1 ∨ p.2 = 2 ∨ p.2 = 3)
    (hvB : ∀ p ∈ opsB, p.2 = 1 ∨ p.2 = 2 ∨ p.2 = 3)
    (hdisj : ∀ s ∈ opsA.map Prod.fst, s ∉ opsB.map Prod.fst)
    (hA : (Config.new cap).add_symbols opsA = some A)
    (hB : (Config.new cap).add_symbols opsB = some B) :
    A.conflict B = false := by
  have hvA3 : ∀ p ∈ opsA, p.2 ≤ 3 := fun p hp => by rcases hvA p hp with h | h | h <;> omega
  have hvB3 : ∀ p ∈ opsB, p.2 ≤ 3 := fun p hp => by rcases hvB p hp with h | h | h <;> omega
  rw [← Bool.not_eq_true, conflict_iff_value_of (built_inv hvA3 hA) (built_inv hvB3 hB)]
  rintro ⟨sid, ha, hb, _⟩
  have hmA : sid ∈ opsA.map Prod.fst := by
    by_contra hn
    exact ha (built_value_of_not_mem hvA3 hA hn)
  have hmB : sid ∈ opsB.map Prod.fst := by
    by_contra hn
    exact hb (built_value_of_not_mem hvB3 hB hn)
  exact hdisj sid hmA hmB

/-- C12, at a concrete input: `{0 = y, 2 = y}` and `{1 = y, 3 = m}` interleave in adjacent
slots of word 0 and do not conflict. -/
theorem conflict_disjoint_sids_witness :
    (∀ p ∈ [(0, 3), (2, 3)], p.2 = 1 ∨ p.2 = 2 ∨ p.2 = 3)
    ∧ (∀ p ∈ [(1, 3), (3, 2)], p.2 = 1 ∨ p.2 = 2 ∨ p.2 = 3)
    ∧ (∀ s ∈ [(0, 3), (2, 3)].map Prod.fst, s ∉ [(1, 3), (3, 2)].map Prod.fst)
    ∧ (Config.new 1).add_symbols [(0, 3), (2, 3)] = some ⟨[195], 0, 0⟩
    ∧ (Config.new 1).add_symbols [(1, 3), (3, 2)] = some ⟨[1048], 0, 0⟩
    ∧ Config.conflict ⟨[195], 0, 0⟩ ⟨[1048], 0, 0⟩ = false :=
  ⟨by decide, by decide, by decide, by decide, by decide,
    conflict_disjoint_sids 1 [(0, 3), (2, 3)] [(1, 3), (3, 2)] ⟨[195], 0, 0⟩ ⟨[1048], 0, 0⟩
      (by decide) (by decide) (by decide) (by decide) (by decide)⟩

/-- C14: after any sequence of `add_symbol` calls with values in {1,2,3} within the capacity
of an initially zeroed configuration, repeated sids included, the calls have succeeded, every
3-bit slot of every word holds a code of at most 3 (bit 2 of the slot is 0), bit 63 of every
word is 0, and `get_set_symbols` passes its assertion `val <= 3`. -/
theorem store_slots_at_most_three (cap : Nat) (ops : List (Nat × Nat))
    (hv : ∀ p ∈ ops, p.2 = 1 ∨ p.2 = 2 ∨ p.2 = 3)
    (hcap : ∀ p ∈ ops, p.1 / 21 < cap) :
    ∃ c, (Config.new cap).add_symbols ops = some c
      ∧ (∀ w ∈ c.symbols, ∀ j, j < 21 →
          (w >>> (3 * j)) % 8 ≤ 3 ∧ w.testBit (3 * j + 2) = false)
      ∧ (∀ w ∈ c.symbols, w.testBit 63 = false ∧ w < 2 ^ 63)
      ∧ ∃ syms, c.get_set_symbols = some syms ∧ ∀ p ∈ syms, 1 ≤ p.2 ∧ p.2 ≤ 3 := by
  have hv3 : ∀ p ∈ ops, p.2 ≤ 3 := fun p hp => by rcases hv p hp with h | h | h <;> omega
  obtain ⟨c, hc⟩ := @add_symbols_isSome ops (Config.new cap)
    (by intro p hp; simpa [Config.new] using hcap p hp)
  have hinv := built_inv hv3 hc
  have hword : ∀ w ∈ c.symbols, WordOK w := by
    intro w hw
    obtain ⟨i, hi⟩ := List.getElem?_of_mem hw
    have := hinv.words i
    rw [List.getD_eq_getElem?_getD, hi] at this
    exact this
  have hclear : ∀ w, WordOK w → ∀ k, (k % 3 = 2 ∨ 63 ≤ k) → w.testBit k = false := by
    intro w hw k hk
    by_contra hne
    have := hw k (by simpa using hne)
    omega
  refine ⟨c, hc, ?_, ?_, _, get_set_symbols_eq hinv, ?_⟩
  · intro w hw j _
    exact ⟨slot_le_three (hword w hw) j, hclear w (hword w hw) _ (Or.inl (by omega))⟩
  · intro w hw
    refine ⟨hclear w (hword w hw) 63 (Or.inr (Nat.le_refl _)), ?_⟩
    apply Nat.lt_pow_two_of_testBit
    intro k hk
    exact hclear w (hword w hw) k (Or.inr hk)
  · rintro ⟨sid, v⟩ hp
    have h := (mem_get_set_symbols hinv (get_set_symbols_eq hinv) sid v).1 hp
    have hle : c.value_of sid ≤ 3 := by
      rw [value_of_eq_slot]
      exact slot_le_three (hinv.words _) _
    simp only
    omega

/-- C14, at a concrete input: sid 5 is assigned `n` and then `m` (the slot then reads 3),
and sid 20, the top slot of word 0, is assigned `y`. -/
theorem store_slots_at_most_three_witness :
    (∀ p ∈ [(5, 1), (5, 2), (20, 3), (5, 1)], p.2 = 1 ∨ p.2 = 2 ∨ p.2 = 3)
    ∧ (∀ p ∈ [(5, 1), (5, 2), (20, 3), (5, 1)], p.1 / 21 < 1)
    ∧ ((Config.new 1).add_symbols [(5, 1), (5, 2), (20, 3), (5, 1)]).bind
          Config.get_set_symbols = some [(5, 3), (20, 3)]
    ∧ ∃ c, (Config.new 1).add_symbols [(5, 1), (5, 2), (20, 3), (5, 1)] = some c
      ∧ (∀ w ∈ c.symbols, ∀ j, j < 21 →
          (w >>> (3 * j)) % 8 ≤ 3 ∧ w.testBit (3 * j + 2) = false)
      ∧ (∀ w ∈ c.symbols, w.testBit 63 = false ∧ w < 2 ^ 63)
      ∧ ∃ syms, c.get_set_symbols = some syms ∧ ∀ p ∈ syms, 1 ≤ p.2 ∧ p.2 ≤ 3 :=
  ⟨by decide, by decide, by decide,
    store_slots_at_most_three 1 [(5, 1), (5, 2), (20, 3), (5, 1)] (by decide) (by decide)⟩

/-- The scan bounds of a configuration built from an empty one, for arbitrary values:
`min_index` stays 0, `max_index` is the largest word index touched, and the words above
`max_index` are zero. -/
theorem built_bounds {cap : Nat} {ops : List (Nat × Nat)} {c : Config}
    (h : (Config.new cap).add_symbols ops = some c) :
    c.min_index = 0
    ∧ (∀ p ∈ ops, p.1 / 21 ≤ c.max_index)
    ∧ (ops ≠ [] → ∃ p ∈ ops, c.max_index = p.1 / 21)
    ∧ (∀ i, c.max_index < i → c.symbols.getD i 0 = 0)
    ∧ c.symbols.length = cap := by
  obtain ⟨hlen, _, hmin, _, hmax, hor, hbits⟩ := add_symbols_spec h
  refine ⟨hmin rfl, hmax, ?_, ?_, by rw [hlen]; simp [Config.new]⟩
  · intro hne
    rcases hor with e | hex
    · cases ops with
      | nil => exact absurd rfl hne
      | cons p rest =>
        refine ⟨p, List.mem_cons_self _ _, ?_⟩
        have h1 := hmax p (List.mem_cons_self _ _)
        have h2 : (Config.new cap).max_index = 0 := rfl
        omega
    · exact hex
  · intro i hi
    apply Nat.eq_of_testBit_eq
    intro k
    rw [hbits, getD_new]
    simp only [Nat.zero_testBit, Bool.false_or]
    apply Bool.eq_false_iff.2
    intro hany
    simp only [List.any_eq_true, Bool.and_eq_true, decide_eq_true_eq] at hany
    obtain ⟨p, hp, h1, _⟩ := hany
    have := hmax p hp
    omega

/-- C15, the failing input: after the single call `add_symbol(21, n)` on a fresh
configuration of 100 words the only word touched is word 1, and `max_index` is 1, but
`min_index` is still 0. -/
theorem min_index_stays_zero :
    ((Config.new 100).add_symbols [(21, 1)]).map (fun c => (c.min_index, c.max_index))
      = some (0, 1)
    ∧ ((Config.new 100).add_symbols [(21, 1)]).map (fun c => c.symbols.getD 0 0) = some 0
    ∧ ((Config.new 100).add_symbols [(21, 1)]).map (fun c => c.symbols.getD 1 0) = some 1 := by
  decide

theorem incompatible_ne_zero {a b : Nat} (h : incompatible a b = true) : a ≠ 0 ∧ b ≠ 0 := by
  constructor
  · rintro rfl
    simp [incompatible] at h
  · rintro rfl
    simp [incompatible] at h

/-- C16: for two configurations of equal capacity `E` built by `add_symbol` calls, the
bounded scan of `conflict` over `[max (min_index), max (max_index)]` gives the result of the
scan of all words `[0, E)`: the words outside a configuration's own
`[min_index, max_index]` are zero. -/
theorem conflict_eq_conflict_full (E : Nat) (opsA opsB : List (Nat × Nat)) (A B : Config)
    (hA : (Config.new E).add_symbols opsA = some A)
    (hB : (Config.new E).add_symbols opsB = some B) :
    A.conflict B = conflict_full A B E
    ∧ (∀ i, (i < A.min_index ∨ A.max_index < i) → A.symbols.getD i 0 = 0)
    ∧ (∀ i, (i < B.min_index ∨ B.max_index < i) → B.symbols.getD i 0 = 0) := by
  obtain ⟨a1, _, _, a4, a5⟩ := built_bounds hA
  obtain ⟨b1, _, _, b4, b5⟩ := built_bounds hB
  refine ⟨?_, ?_, ?_⟩
  · apply Bool.eq_iff_iff.2
    rw [conflict_eq_true_iff]
    simp only [conflict_full, List.any_eq_true, List.mem_range]
    constructor
    · rintro ⟨i, _, _, hinc⟩
      refine ⟨i, ?_, hinc⟩
      by_contra hge
      have hz : A.symbols.getD i 0 = 0 := by
        rw [List.getD_eq_getElem?_getD, List.getElem?_eq_none (by omega)]
        rfl
      exact (incompatible_ne_zero hinc).1 hz
    · rintro ⟨i, _, hinc⟩
      refine ⟨i, by rw [a1, b1]; simp, ?_, hinc⟩
      by_contra hgt
      exact (incompatible_ne_zero hinc).1 (a4 i (by omega))
  · rintro i (h | h)
    · omega
    · exact a4 i h
  · rintro i (h | h)
    · omega
    · exact b4 i h

/-- C16, at a concrete input: two configurations of three words that disagree on sid 22 in
word 1. -/
theorem conflict_eq_conflict_full_witness :
    (Config.new 3).add_symbols [(0, 3), (22, 1)] = some ⟨[3, 8, 0], 1, 0⟩
    ∧ (Config.new 3).add_symbols [(22, 2), (50, 1)] = some ⟨[0, 16, 16777216], 2, 0⟩
    ∧ conflict_full ⟨[3, 8, 0], 1, 0⟩ ⟨[0, 16, 16777216], 2, 0⟩ 3 = true
    ∧ Config.conflict ⟨[3, 8, 0], 1, 0⟩ ⟨[0, 16, 16777216], 2, 0⟩
        = conflict_full ⟨[3, 8, 0], 1, 0⟩ ⟨[0, 16, 16777216], 2, 0⟩ 3 :=
  ⟨by decide, by decide, by decide,
    (conflict_eq_conflict_full 3 [(0, 3), (22, 1)] [(22, 2), (50, 1)] ⟨[3, 8, 0], 1, 0⟩
      ⟨[0, 16, 16777216], 2, 0⟩ (by decide) (by decide)).1⟩

/-! ## The effect and the partitioning of `update_graph` -/

/-- C17: for a non-empty clique `C` of vertices in `[0, N)` and `T ≥ 1` threads,
`update_graph` passes its assertions and returns a matrix in which every cell of the
`N x N` matrix with its row or its column in `C` is 0, the self-loops of `C` included, and
every other cell, inside or outside the matrix, is unchanged. -/
theorem update_graph_frame (T : Nat) (G : Graph) (C : List Nat) (N : Nat)
    (hT : 1 ≤ T) (hne : C ≠ []) (hC : ∀ v ∈ C, v < N) :
    ∃ G', update_graph T G C N = some G'
      ∧ (∀ i j, i < N → j < N → (i ∈ C ∨ j ∈ C) → G' i j = 0)
      ∧ (∀ v ∈ C, G' v v = 0)
      ∧ (∀ i j, i ∉ C → j ∉ C → G' i j = G i j)
      ∧ (∀ i j, ¬ (i < N ∧ j < N) → G' i j = G i j) := by
  refine ⟨cleared N C G, update_graph_eq T G C N hT hne, ?_, ?_, ?_, ?_⟩
  · intro i j hi hj hor
    unfold cleared
    rcases hor with h | h
    · rw [if_pos (Or.inl ⟨h, hj⟩)]
    · rw [if_pos (Or.inr ⟨h, hi⟩)]
  · intro v hv
    unfold cleared
    rw [if_pos (Or.inl ⟨hv, hC v hv⟩)]
  · intro i j hi hj
    unfold cleared
    rw [if_neg]
    rintro (⟨h, _⟩ | ⟨h, _⟩)
    · exact hi h
    · exact hj h
  · intro i j hout
    unfold cleared
    rw [if_neg]
    rintro (⟨h, hj⟩ | ⟨h, hi⟩)
    · exact hout ⟨hC i h, hj⟩
    · exact hout ⟨hi, hC j h⟩

/-- C17, at a concrete input: vertices 0 and 2 are removed from a 3 x 3 matrix of ones by
two threads. -/
theorem update_graph_frame_witness :
    1 ≤ 2 ∧ [0, 2] ≠ [] ∧ (∀ v ∈ [0, 2], v < 3)
    ∧ (update_graph 2 (fun _ _ => 1) [0, 2] 3).map
        (fun G' => (List.range 3).map fun i => (List.range 3).map fun j => G' i j)
        = some [[0, 0, 0], [0, 1, 0], [0, 0, 0]]
    ∧ ∃ G', update_graph 2 (fun _ _ => 1) [0, 2] 3 = some G'
      ∧ (∀ i j, i < 3 → j < 3 → (i ∈ [0, 2] ∨ j ∈ [0, 2]) → G' i j = 0)
      ∧ (∀ v ∈ [0, 2], G' v v = 0)
      ∧ (∀ i j, i ∉ [0, 2] → j ∉ [0, 2] → G' i j = (fun _ _ => 1 : Graph) i j)
      ∧ (∀ i j, ¬ (i < 3 ∧ j < 3) → G' i j = (fun _ _ => 1 : Graph) i j) :=
  ⟨by decide, by decide, by decide, by decide,
    update_graph_frame 2 (fun _ _ => 1) [0, 2] 3 (by decide) (by decide) (by decide)⟩

/-- C13: the adjacency matrix is symmetric on `[0, N)` after `build_graph`, for every thread
count `T ≥ 1` and worker order, and every call of `update_graph` for a non-empty clique of
vertices in `[0, N)` succeeds and keeps a symmetric matrix symmetric. -/
theorem graph_symmetric_invariant (configs : List Config) (T : Nat) (sched : List Nat)
    (hT : 1 ≤ T) (hsched : sched.Perm (List.range T)) :
    (∀ i j, i < configs.length → j < configs.length →
      (build_graph configs configs.length T sched 0 0).graph i j
        = (build_graph configs configs.length T sched 0 0).graph j i)
    ∧ ∀ (G : Graph) (C : List Nat), C ≠ [] → (∀ v ∈ C, v < configs.length) →
        (∀ i j, i < configs.length → j < configs.length → G i j = G j i) →
        ∃ G', update_graph T G C configs.length = some G'
          ∧ ∀ i j, i < configs.length → j < configs.length → G' i j = G' j i := by
  constructor
  · intro i j hi hj
    rw [build_graph_matrix configs _ T sched 0 0 hT hsched i j hi hj,
      build_graph_matrix configs _ T sched 0 0 hT hsched j i hj hi, compat_matrix_comm]
  · intro G C hne _ hsym
    refine ⟨cleared configs.length C G, update_graph_eq T G C configs.length hT hne, ?_⟩
    intro i j hi hj
    unfold cleared
    by_cases h : (i ∈ C ∧ j < configs.length) ∨ (j ∈ C ∧ i < configs.length)
    · have h' : (j ∈ C ∧ i < configs.length) ∨ (i ∈ C ∧ j < configs.length) := h.symm
      rw [if_pos h, if_pos h']
    · have h' : ¬ ((j ∈ C ∧ i < configs.length) ∨ (i ∈ C ∧ j < configs.length)) :=
        fun h' => h h'.symm
      rw [if_neg h, if_neg h']
      exact hsym i j hi hj

/-- C13, at a concrete input: the matrix built for three configurations by two workers,
before and after the removal of the clique `[1, 0]`. -/
theorem graph_symmetric_invariant_witness :
    1 ≤ 2 ∧ [1, 0].Perm (List.range 2)
    ∧ (build_graph [⟨[11], 0, 0⟩, ⟨[136], 0, 0⟩, ⟨[2], 0, 0⟩] 3 2 [1, 0] 0 0).graph 0 1
        = (build_graph [⟨[11], 0, 0⟩, ⟨[136], 0, 0⟩, ⟨[2], 0, 0⟩] 3 2 [1, 0] 0 0).graph 1 0
    ∧ (build_graph [⟨[11], 0, 0⟩, ⟨[136], 0, 0⟩, ⟨[2], 0, 0⟩] 3 2 [1, 0] 0 0).graph 2 1 = 1
    ∧ (update_graph 2
          (build_graph [⟨[11], 0, 0⟩, ⟨[136], 0, 0⟩, ⟨[2], 0, 0⟩] 3 2 [1, 0] 0 0).graph
          [1, 0] 3).map
        (fun G' => (List.range 3).map fun i => (List.range 3).map fun j => G' i j)
        = some [[0, 0, 0], [0, 0, 0], [0, 0, 1]] :=
  ⟨by decide, by decide,
    (graph_symmetric_invariant [⟨[11], 0, 0⟩, ⟨[136], 0, 0⟩, ⟨[2], 0, 0⟩] 2 [1, 0]
      (by decide) (by decide)).1 0 1 (by decide) (by decide),
    by decide, by decide⟩

theorem chunk_loop_shape (c : Nat) (hc : 1 ≤ c) :
    ∀ (t : Nat) (args : List (List Nat)) (stack : List Nat), stack ≠ [] →
      ∃ news, (chunk_loop c t args stack).1 = args ++ news ∧ news.length ≤ t
        ∧ ∀ w ∈ news, w ≠ [] ∧ w.length ≤ c := by
  intro t
  induction t with
  | zero => intro args stack _; exact ⟨[], by simp [chunk_loop], by simp, by simp⟩
  | succ t ih =>
    intro args stack hne
    have htake : stack.take c ≠ [] ∧ (stack.take c).length ≤ c := by
      constructor
      · cases stack with
        | nil => exact absurd rfl hne
        | cons x xs =>
          obtain ⟨c', rfl⟩ : ∃ c', c = c' + 1 := ⟨c - 1, by omega⟩
          simp
      · rw [List.length_take]
        omega
    simp only [chunk_loop, take_chunk_eq, List.nil_append]
    split
    · exact ⟨[stack.take c], rfl, by simp, by simpa using htake⟩
    · rename_i h
      have hd : stack.drop c ≠ [] := by simpa using h
      obtain ⟨news, h1, h2, h3⟩ := ih (args ++ [stack.take c]) (stack.drop c) hd
      refine ⟨stack.take c :: news, by rw [h1]; simp, by simp only [List.length_cons]; omega, ?_⟩
      intro w hw
      rcases List.mem_cons.1 hw with rfl | hw
      · exact htake
      · exact h3 w hw

theorem length_le_length_flatten :
    ∀ l : List (List Nat), (∀ w ∈ l, w ≠ []) → l.length ≤ l.flatten.length := by
  intro l
  induction l with
  | nil => intro _; simp
  | cons w l ih =>
    intro h
    have h1 : w ≠ [] := h w (List.mem_cons_self _ _)
    have h2 := ih (fun x hx => h x (List.mem_cons_of_mem _ hx))
    have h3 : 0 < w.length := List.length_pos.2 h1
    simp only [List.length_cons, List.flatten_cons, List.length_append]
    omega

theorem update_workers_flatten (T : Nat) (C : List Nat) (hT : 1 ≤ T) :
    (update_workers T C).1.flatten = C.reverse ∧ (update_workers T C).2 = [] := by
  obtain ⟨e1, e2⟩ := chunk_loop_eq (C.length / T + 1) T [] C.reverse
  have hbig : C.reverse.length ≤ T * (C.length / T + 1) := by
    have := Nat.lt_mul_div_succ C.length (by omega : 0 < T)
    rw [List.length_reverse]
    omega
  rw [List.drop_eq_nil_iff.2 hbig] at e2
  rw [List.take_of_length_le hbig, List.flatten_nil, List.nil_append] at e1
  exact ⟨e1, e2⟩

/-- C18: for a non-empty clique `C` and `T ≥ 1` threads the chunking loop of `update_graph`
with `chunk = |C| / T + 1` ends with the working vector empty, so that `assert(nodes.empty())`
holds and `update_graph` returns; it starts at most `min (T, |C|)` workers, each with a
non-empty list of at most `chunk` vertices, and the lists together are a permutation of
`C`. -/
theorem chunking_partitions_clique (T : Nat) (C : List Nat) (hT : 1 ≤ T) (hne : C ≠ []) :
    (update_workers T C).2 = []
    ∧ (update_workers T C).1.length ≤ min T C.length
    ∧ (∀ w ∈ (update_workers T C).1, w ≠ [] ∧ w.length ≤ C.length / T + 1)
    ∧ (update_workers T C).1.flatten.Perm C
    ∧ ∀ (G : Graph) (N : Nat), (update_graph T G C N).isSome = true := by
  obtain ⟨hflat, hrest⟩ := update_workers_flatten T C hT
  have hstack : C.reverse ≠ [] := by simpa using hne
  obtain ⟨news, h1, h2, h3⟩ := chunk_loop_shape (C.length / T + 1) (Nat.succ_pos _) T []
    C.reverse hstack
  have hargs : (update_workers T C).1 = news := by
    rw [update_workers, h1, List.nil_append]
  refine ⟨hrest, ?_, ?_, ?_, ?_⟩
  · rw [hargs]
    have hlen := length_le_length_flatten news (fun w hw => (h3 w hw).1)
    rw [← hargs, hflat, List.length_reverse] at hlen
    rw [← hargs]
    exact Nat.le_min.2 ⟨by rw [hargs]; exact h2, hlen⟩
  · rw [hargs]
    exact h3
  · rw [hflat]
    exact List.reverse_perm C
  · intro G N
    rw [update_graph_eq T G C N hT hne]
    rfl

/-- C18, at a concrete input: a clique of three vertices and five threads; three workers
are started with one vertex each. -/
theorem chunking_partitions_clique_witness :
    1 ≤ 5 ∧ [4, 7, 9] ≠ []
    ∧ update_workers 5 [4, 7, 9] = ([[9], [7], [4]], [])
    ∧ (update_workers 5 [4, 7, 9]).1.length ≤ min 5 [4, 7, 9].length
    ∧ (update_workers 5 [4, 7, 9]).1.flatten.Perm [4, 7, 9] :=
  ⟨by decide, by decide, by decide,
    (chunking_partitions_clique 5 [4, 7, 9] (by decide) (by decide)).2.1,
    (chunking_partitions_clique 5 [4, 7, 9] (by decide) (by decide)).2.2.2.1⟩

/-- C19, as stated, fails: for the clique `[0, 1, 2]` and two threads the workers get the
lists `[2, 1]` and `[0]`, and the cell `(2, 0)` of a 3 x 3 matrix lies in the write footprint
of both (row 2 for the first worker, column 0 for the second). -/
theorem footprints_overlap :
    (update_workers 2 [0, 1, 2]).1 = [[2, 1], [0]]
    ∧ footprint 3 [2, 1] 2 0 ∧ footprint 3 [0] 2 0 := by
  decide

/-- C19, amended: for a clique of distinct vertices of `[0, N)` and every thread count, the
vertex lists of two different workers of `update_graph` are disjoint, so no row and no column
is zeroed by two workers; a cell `(a, b)` lies in the write footprints of two different
workers exactly when `a` is in the list of one and `b` in the list of the other. -/
theorem footprints_share_only_cross_cells (T N : Nat) (C : List Nat)
    (hnd : C.Nodup) (hC : ∀ v ∈ C, v < N) :
    (update_workers T C).1.Pairwise fun w1 w2 =>
      List.Disjoint w1 w2
      ∧ (∀ a b, ¬ ((a ∈ w1 ∧ b < N) ∧ (a ∈ w2 ∧ b < N)))
      ∧ (∀ a b, ¬ ((b ∈ w1 ∧ a < N) ∧ (b ∈ w2 ∧ a < N)))
      ∧ ∀ a b, (footprint N w1 a b ∧ footprint N w2 a b) ↔
          ((a ∈ w1 ∧ b ∈ w2) ∨ (a ∈ w2 ∧ b ∈ w1)) := by
  have hflat := (chunk_loop_eq (C.length / T + 1) T [] C.reverse).1
  rw [List.flatten_nil, List.nil_append] at hflat
  have hnodup : (update_workers T C).1.flatten.Nodup := by
    rw [update_workers, hflat]
    exact (List.nodup_reverse.2 hnd).sublist (List.take_sublist _ _)
  have hsub : ∀ w ∈ (update_workers T C).1, ∀ v ∈ w, v < N := by
    intro w hw v hv
    have hmem : v ∈ (update_workers T C).1.flatten := List.mem_flatten.2 ⟨w, hw, hv⟩
    rw [update_workers, hflat] at hmem
    exact hC v (List.mem_reverse.1 (List.mem_of_mem_take hmem))
  have hpair := (List.nodup_flatten.1 hnodup).2
  refine List.Pairwise.imp_of_mem ?_ hpair
  intro w1 w2 hw1 hw2 hdis
  refine ⟨hdis, ?_, ?_, ?_⟩
  · rintro a b ⟨⟨h1, _⟩, ⟨h2, _⟩⟩
    exact hdis h1 h2
  · rintro a b ⟨⟨h1, _⟩, ⟨h2, _⟩⟩
    exact hdis h1 h2
  · intro a b
    constructor
    · rintro ⟨h1 | h1, h2 | h2⟩
      · exact absurd h2.1 (fun h => hdis h1.1 h)
      · exact Or.inl ⟨h1.1, h2.1⟩
      · exact Or.inr ⟨h2.1, h1.1⟩
      · exact absurd h2.1 (fun h => hdis h1.1 h)
    · rintro (⟨ha, hb⟩ | ⟨ha, hb⟩)
      · exact ⟨Or.inl ⟨ha, hsub w2 hw2 b hb⟩, Or.inr ⟨hb, hsub w1 hw1 a ha⟩⟩
      · exact ⟨Or.inr ⟨hb, hsub w2 hw2 a ha⟩, Or.inl ⟨ha, hsub w1 hw1 b hb⟩⟩

/-- C19 amended, at a concrete input: the clique `[3, 0, 1, 2]` in a 4 x 4 matrix with two
threads. -/
theorem footprints_share_only_cross_cells_witness :
    [3, 0, 1, 2].Nodup ∧ (∀ v ∈ [3, 0, 1, 2], v < 4)
    ∧ (update_workers 2 [3, 0, 1, 2]).1 = [[2, 1, 0], [3]]
    ∧ (update_workers 2 [3, 0, 1, 2]).1.Pairwise fun w1 w2 =>
      List.Disjoint w1 w2
      ∧ (∀ a b, ¬ ((a ∈ w1 ∧ b < 4) ∧ (a ∈ w2 ∧ b < 4)))
      ∧ (∀ a b, ¬ ((b ∈ w1 ∧ a < 4) ∧ (b ∈ w2 ∧ a < 4)))
      ∧ ∀ a b, (footprint 4 w1 a b ∧ footprint 4 w2 a b) ↔
          ((a ∈ w1 ∧ b ∈ w2) ∨ (a ∈ w2 ∧ b ∈ w1)) :=
  ⟨by decide, by decide, by decide,
    footprints_share_only_cross_cells 2 4 [3, 0, 1, 2] (by decide) (by decide)⟩

/-! ## Capacity of the store during parsing -/

/-- One line that is not a comment and whose value is accepted: the `add_symbol` call that
`parse_line` makes is within the capacity, and the tables and the invariant afterwards. -/
theorem parse_line_step (st : ParseState) (counter : Nat) (line : List Char) (v : Nat)
    (hwf : st.WF counter) (hc : is_comment line = false)
    (hv : str_to_val (split_line line).2 = some v) :
    ∃ sid c c' st',
      st.configs[counter]? = some c ∧ c.add_symbol sid v = some c'
      ∧ sid / 21 < st.SYM_ENTRIES
      ∧ parse_line st counter line = some st' ∧ st'.WF counter
      ∧ st'.configs.length = st.configs.length
      ∧ ((st.symbols.lookup (split_line line).1 = some sid ∧ st'.symbols = st.symbols
            ∧ st'.translate = st.translate ∧ st'.SYM_COUNT = st.SYM_COUNT)
          ∨ (st.symbols.lookup (split_line line).1 = none ∧ sid = st.SYM_COUNT
            ∧ st'.symbols = ((split_line line).1, sid) :: st.symbols
            ∧ st'.translate = (sid, (split_line line).1) :: st.translate
            ∧ st'.SYM_COUNT = st.SYM_COUNT + 1))
      ∧ (st'.configs = st.configs.set counter c'
          ∨ st'.configs = (st.configs.set counter c').map
              fun c => { c with symbols := c.symbols ++ List.replicate 100 0 }) := by
  have hlt : counter < st.configs.length := hwf.counter_lt
  obtain ⟨c, hcfg⟩ : ∃ c, st.configs[counter]? = some c :=
    ⟨st.configs[counter], List.getElem?_eq_getElem hlt⟩
  have hlen : c.symbols.length = st.SYM_ENTRIES := hwf.lengths c (List.getElem?_mem hcfg)
  have hroom := hwf.room
  simp only [parse_line, hc, Bool.false_eq_true, if_false, hv, hcfg]
  cases hl : st.symbols.lookup (split_line line).1 with
  | some sid =>
    have hsid : sid < st.SYM_COUNT := by
      obtain ⟨l₁, l₂, e, _⟩ := List.lookup_eq_some_iff.1 hl
      exact hwf.sids ((split_line line).1, sid) (by rw [e]; simp)
    have hdiv : sid / 21 ≤ st.SYM_COUNT / 21 := Nat.div_le_div_right (Nat.le_of_lt hsid)
    obtain ⟨c', hc', hlen'⟩ := add_symbol_isSome (c := c) (s := sid) (v := v) (by omega)
    simp only [hc']
    refine ⟨sid, c, c', _, rfl, hc', by omega, rfl, ⟨?_, ?_, hwf.room, hwf.sids⟩, by simp,
      Or.inl ⟨rfl, rfl, rfl, rfl⟩, Or.inl rfl⟩
    · simpa using hwf.counter_lt
    · intro c0 hmem
      rcases mem_set_config hmem with h | h
      · exact hwf.lengths c0 h
      · rw [h, hlen', hlen]
  | none =>
    obtain ⟨c', hc', hlen'⟩ := add_symbol_isSome (c := c) (s := st.SYM_COUNT) (v := v)
      (by omega)
    simp only [hc']
    have hsids : ∀ p ∈ ((split_line line).1, st.SYM_COUNT) :: st.symbols,
        p.2 < st.SYM_COUNT + 1 := by
      intro p hp
      rcases List.mem_cons.1 hp with rfl | hp
      · exact Nat.lt_succ_self _
      · exact Nat.lt_succ_of_lt (hwf.sids p hp)
    have hlens : ∀ c0 ∈ st.configs.set counter c', c0.symbols.length = st.SYM_ENTRIES := by
      intro c0 hmem
      rcases mem_set_config hmem with h | h
      · exact hwf.lengths c0 h
      · rw [h, hlen', hlen]
    have hstep : (st.SYM_COUNT + 1) / 21 ≤ st.SYM_COUNT / 21 + 1 := by omega
    split
    · refine ⟨st.SYM_COUNT, c, c', _, rfl, hc', by omega, rfl, ⟨?_, ?_, ?_, hsids⟩,
        by simp [resize_configs], Or.inr ⟨trivial, rfl, rfl, rfl, rfl⟩, Or.inr rfl⟩
      · simpa [resize_configs] using hwf.counter_lt
      · intro c0 hmem
        simp only [resize_configs, List.mem_map] at hmem
        obtain ⟨c1, hc1, rfl⟩ := hmem
        simp only [resize_configs, List.length_append, List.length_replicate]
        rw [hlens c1 hc1]
      · simp only [resize_configs]
        omega
    · rename_i hno
      refine ⟨st.SYM_COUNT, c, c', _, rfl, hc', by omega, rfl, ⟨?_, hlens, ?_, hsids⟩,
        by simp, Or.inr ⟨trivial, rfl, rfl, rfl, rfl⟩, Or.inl rfl⟩
      · simpa using hwf.counter_lt
      · simp only at hno ⊢
        omega

theorem foldl_set_zero_getElem? (i : Nat) :
    ∀ (js : List Nat) (l : List Nat),
      (js.foldl (fun s j => s.set j 0) l)[i]?
        = if i ∈ js then (l[i]?).map (fun _ => 0) else l[i]? := by
  intro js
  induction js with
  | nil => intro l; simp
  | cons j js ih =>
    intro l
    rw [List.foldl_cons, ih, List.getElem?_set']
    by_cases hji : j = i
    · subst hji
      by_cases hmem : j ∈ js
      · cases l[j]? <;> simp [hmem]
      · cases l[j]? <;> simp [hmem]
    · have hij : ¬ i = j := fun e => hji e.symm
      by_cases hmem : i ∈ js
      · simp [hji, hij, hmem]
      · simp [hji, hij, hmem]

theorem zero_new_words_realloc (junk : Nat → Nat) (l : List Nat) :
    zero_new_words (realloc_words junk l (l.length + 100)) (l.length + 100)
      = l ++ List.replicate 100 0 := by
  apply List.ext_getElem?
  intro i
  unfold zero_new_words realloc_words
  rw [foldl_set_zero_getElem?, List.getElem?_map, Nat.add_sub_cancel]
  simp only [List.mem_range'_1]
  rcases Nat.lt_or_ge i l.length with h1 | h1
  · have hn : ¬ (l.length ≤ i ∧ i < l.length + 100) := by omega
    rw [if_neg hn, List.getElem?_range (by omega), List.getElem?_append_left h1]
    simp [h1, List.getD_eq_getElem?_getD, List.getElem?_eq_getElem h1]
  · rcases Nat.lt_or_ge i (l.length + 100) with h2 | h2
    · rw [if_pos ⟨h1, h2⟩, List.getElem?_range h2, List.getElem?_append_right h1,
        List.getElem?_replicate]
      have : i - l.length < 100 := by omega
      simp [this]
    · have hn : ¬ (l.length ≤ i ∧ i < l.length + 100) := by omega
      rw [if_neg hn, List.getElem?_append_right h1, List.getElem?_replicate]
      have : ¬ i - l.length < 100 := by omega
      simp only [this, if_false]
      simp only [Option.map_eq_none']
      exact List.getElem?_eq_none (by simp only [List.length_range]; omega)

/-- Whatever `realloc` leaves in the new words, the detailed resize of a configuration of
`n` words to `n + 100` appends 100 zero words. -/
theorem resize_config_eq (junk : Nat → Nat) (c : Config) :
    resize_config junk (c.symbols.length + 100) c
      = { c with symbols := c.symbols ++ List.replicate 100 0 } := by
  simp only [resize_config, zero_new_words_realloc]

theorem getD_append_zeros (l : List Nat) (k i : Nat) :
    (l ++ List.replicate k 0).getD i 0 = l.getD i 0 := by
  simp only [List.getD_eq_getElem?_getD]
  rcases Nat.lt_or_ge i l.length with h | h
  · rw [List.getElem?_append_left h]
  · rw [List.getElem?_append_right h, List.getElem?_replicate, List.getElem?_eq_none h]
    split <;> rfl

theorem scan_words_congr (c c' : Config)
    (h : ∀ i, c'.symbols.getD i 0 = c.symbols.getD i 0) :
    ∀ (is : List Nat) (syms : List (Nat × Nat)), scan_words c' is syms = scan_words c is syms := by
  intro is
  induction is with
  | nil => intro syms; rfl
  | cons i is ih =>
    intro syms
    simp only [scan_words, h i]
    split
    · exact ih syms
    · cases scan_slots (c.symbols.getD i 0) i (List.range 21) syms with
      | none => rfl
      | some syms' => exact ih syms'

theorem init_wf (n counter : Nat) (h : counter < n) : (ParseState.init n).WF counter := by
  refine ⟨by simpa [ParseState.init] using h, ?_, by simp [ParseState.init],
    by simp [ParseState.init]⟩
  intro c hc
  simp only [ParseState.init, List.mem_replicate] at hc
  rw [hc.2]
  simp [ParseState.init, Config.new]

theorem parse_files_wf :
    ∀ (files : List (List (List Char))) (counter : Nat) (st : ParseState),
      counter + files.length ≤ st.configs.length →
      (∀ c ∈ st.configs, c.symbols.length = st.SYM_ENTRIES) →
      st.SYM_COUNT / 21 + 1 ≤ st.SYM_ENTRIES →
      (∀ p ∈ st.symbols, p.2 < st.SYM_COUNT) →
      (∀ file ∈ files, ∀ line ∈ file, is_comment line = true ∨ is_assignment line = true) →
      ∃ st', parse_files counter st files = some st'
        ∧ (∀ c ∈ st'.configs, c.symbols.length = st'.SYM_ENTRIES)
        ∧ st'.SYM_COUNT / 21 + 1 ≤ st'.SYM_ENTRIES := by
  intro files
  induction files with
  | nil => intro counter st _ h1 h2 _ _; exact ⟨st, rfl, h1, h2⟩
  | cons file files ih =>
    intro counter st hcount hlen hroom hsids hfiles
    have hwf : st.WF counter :=
      ⟨by simp only [List.length_cons] at hcount; omega, hlen, hroom, hsids⟩
    obtain ⟨st1, h1, hwf1, hl1⟩ := parse_file_ok counter file st hwf
      (hfiles file (List.mem_cons_self _ _))
    obtain ⟨st2, h2, h3, h4⟩ := ih (counter + 1) st1
      (by simp only [List.length_cons] at hcount; omega)
      hwf1.lengths hwf1.room hwf1.sids
      (fun f hf => hfiles f (List.mem_cons_of_mem _ hf))
    exact ⟨st2, by simp only [parse_files, h1, h2], h3, h4⟩

/-- C20: capacity safety of parsing.  (1) For files of comment lines and valid `NAME=v`
lines, with any number of distinct symbols, `parse_configs` runs through, so no `add_symbol`
call left the allocated words, and at the end `SYM_COUNT / 21 + 1 ≤ SYM_ENTRIES` with every
configuration holding `SYM_ENTRIES` words.  (2) The invariant holds at the start, and for
every state with the invariant and every accepted line the sid handed to `add_symbol` has
`sid / 21` below `SYM_ENTRIES`, which is the word count of every configuration, the call
succeeds, and the invariant holds again afterwards, after the resize if there was one.
(3) `resize_configs` is, for whatever `realloc` leaves in the new words, the detailed
`realloc` and zero loop; it keeps all words of every configuration, adds 100 zero words, and
leaves `get_set_symbols` and every slot unchanged. -/
theorem parse_capacity_safe (files : List (List (List Char)))
    (hvalid : ∀ file ∈ files, ∀ line ∈ file,
      is_comment line = true ∨ is_assignment line = true) :
    (∃ st, parse_configs files = some st ∧ st.SYM_COUNT / 21 + 1 ≤ st.SYM_ENTRIES
      ∧ ∀ c ∈ st.configs, c.symbols.length = st.SYM_ENTRIES)
    ∧ (∀ n counter, counter < n → (ParseState.init n).WF counter)
    ∧ (∀ (st : ParseState) (counter : Nat) (line : List Char) (v : Nat),
        st.WF counter → is_comment line = false → str_to_val (split_line line).2 = some v →
        ∃ sid c c' st',
          (st.symbols.lookup (split_line line).1 = some sid
            ∨ (st.symbols.lookup (split_line line).1 = none ∧ sid = st.SYM_COUNT))
          ∧ sid / 21 < st.SYM_ENTRIES
          ∧ (∀ c0 ∈ st.configs, sid / 21 < c0.symbols.length)
          ∧ st.configs[counter]? = some c ∧ c.add_symbol sid v = some c'
          ∧ parse_line st counter line = some st' ∧ st'.WF counter)
    ∧ (∀ st : ParseState, (∀ c ∈ st.configs, c.symbols.length = st.SYM_ENTRIES) →
        (resize_configs st).SYM_ENTRIES = st.SYM_ENTRIES + 100
        ∧ (∀ junk : Nat → Nat, (resize_configs st).configs
            = st.configs.map (resize_config junk (st.SYM_ENTRIES + 100)))
        ∧ ∀ (k : Nat) (c : Config), st.configs[k]? = some c →
            ∃ c', (resize_configs st).configs[k]? = some c'
              ∧ c'.symbols = c.symbols ++ List.replicate 100 0
              ∧ (∀ i, i < c.symbols.length → c'.symbols[i]? = c.symbols[i]?)
              ∧ (∀ i, c.symbols.length ≤ i → i < c.symbols.length + 100 →
                  c'.symbols[i]? = some 0)
              ∧ c'.max_index = c.max_index ∧ c'.min_index = c.min_index
              ∧ c'.get_set_symbols = c.get_set_symbols
              ∧ ∀ sid, c'.value_of sid = c.value_of sid) := by
  refine ⟨?_, init_wf, ?_, ?_⟩
  · have hinit := init_wf (files.length + 1) 0 (Nat.succ_pos _)
    have hlens : ∀ c ∈ (ParseState.init files.length).configs,
        c.symbols.length = (ParseState.init files.length).SYM_ENTRIES := by
      intro c hc
      simp only [ParseState.init, List.mem_replicate] at hc
      rw [hc.2]
      simp [ParseState.init, Config.new]
    obtain ⟨st, h1, h2, h3⟩ := parse_files_wf files 0 (ParseState.init files.length)
      (by simp [ParseState.init]) hlens hinit.room hinit.sids hvalid
    exact ⟨st, h1, h3, h2⟩
  · intro st counter line v hwf hc hv
    obtain ⟨sid, c, c', st', h1, h2, h3, h4, h5, _, h7, _⟩ :=
      parse_line_step st counter line v hwf hc hv
    refine ⟨sid, c, c', st', ?_, h3, ?_, h1, h2, h4, h5⟩
    · rcases h7 with ⟨e, _⟩ | ⟨e1, e2, _⟩
      · exact Or.inl e
      · exact Or.inr ⟨e1, e2⟩
    · intro c0 hc0
      rw [hwf.lengths c0 hc0]
      exact h3
  · intro st hlen
    refine ⟨rfl, ?_, ?_⟩
    · intro junk
      simp only [resize_configs]
      apply List.map_congr_left
      intro c hc
      rw [← hlen c hc, resize_config_eq]
    · intro k c hk
      refine ⟨{ c with symbols := c.symbols ++ List.replicate 100 0 }, ?_, rfl, ?_, ?_, rfl, rfl,
        ?_, ?_⟩
      · simp only [resize_configs, List.getElem?_map, hk, Option.map_some']
      · intro i hi
        exact List.getElem?_append_left hi
      · intro i h1 h2
        simp only
        rw [List.getElem?_append_right h1, List.getElem?_replicate]
        have : i - c.symbols.length < 100 := by omega
        simp [this]
      · unfold Config.get_set_symbols
        exact scan_words_congr c _ (fun i => getD_append_zeros c.symbols 100 i) _ _
      · intro sid
        simp only [Config.value_of, getD_append_zeros]

/-! ## Symbol interning -/

theorem takeWhile_ne_append_of_mem {names : List (List Char)} (more : List (List Char))
    {n : List Char} (h : n ∈ names) :
    (names ++ more).takeWhile (fun x => decide (x ≠ n))
      = names.takeWhile (fun x => decide (x ≠ n)) := by
  induction names with
  | nil => cases h
  | cons a names ih =>
    by_cases ha : a = n
    · simp [List.takeWhile_cons, ha]
    · have hn : n ∈ names := by
        rcases List.mem_cons.1 h with e | e
        · exact absurd e.symm ha
        · exact e
      simp only [List.cons_append, List.takeWhile_cons, ha, ne_eq, not_false_eq_true,
        decide_True, if_true]
      rw [ih hn]

theorem takeWhile_ne_snoc_fresh {names : List (List Char)} {m : List Char} (h : m ∉ names) :
    (names ++ [m]).takeWhile (fun x => decide (x ≠ m)) = names := by
  induction names with
  | nil => simp [List.takeWhile_cons]
  | cons a names ih =>
    have ha : a ≠ m := fun e => h (by rw [e]; exact List.mem_cons_self _ _)
    have hn : m ∉ names := fun e => h (List.mem_cons_of_mem _ e)
    simp only [List.cons_append, List.takeWhile_cons, ha, ne_eq, not_false_eq_true,
      decide_True, if_true]
    rw [ih hn]

theorem expected_sid_append_of_mem {names : List (List Char)} (more : List (List Char))
    {n : List Char} (h : n ∈ names) :
    expected_sid (names ++ more) n = expected_sid names n := by
  unfold expected_sid
  rw [takeWhile_ne_append_of_mem more h]

theorem expected_sid_fresh {names : List (List Char)} {m : List Char} (h : m ∉ names) :
    expected_sid (names ++ [m]) m = names.dedup.length := by
  unfold expected_sid
  rw [takeWhile_ne_snoc_fresh h]

theorem dedup_length_snoc (names : List (List Char)) (m : List Char) :
    (names ++ [m]).dedup.length
      = if m ∈ names then names.dedup.length else names.dedup.length + 1 := by
  have hset : (names ++ [m]).toFinset = insert m names.toFinset := by
    ext x
    simp only [List.mem_toFinset, List.mem_append, List.mem_singleton, Finset.mem_insert]
    exact or_comm
  rw [← List.card_toFinset, ← List.card_toFinset, hset]
  split
  · rename_i h
    exact Finset.card_insert_of_mem (List.mem_toFinset.2 h)
  · rename_i h
    exact Finset.card_insert_of_not_mem (fun hm => h (List.mem_toFinset.1 hm))

theorem lookup_cons_ne_key {α β : Type} [BEq α] [LawfulBEq α] {a k : α} {b : β}
    {es : List (α × β)} (h : a ≠ k) : ((k, b) :: es).lookup a = es.lookup a := by
  rw [List.lookup_cons]
  have : (a == k) = false := by simpa using h
  rw [this]

/-- The interning tables after the observation of one more name `m`, and the sid that the
observation uses. -/
theorem interned_step {st st' : ParseState} {names : List (List Char)} {m : List Char}
    {sid : Nat} (hint : Interned st names) (hsids : ∀ p ∈ st.symbols, p.2 < st.SYM_COUNT)
    (hcase : (st.symbols.lookup m = some sid ∧ st'.symbols = st.symbols
          ∧ st'.translate = st.translate ∧ st'.SYM_COUNT = st.SYM_COUNT)
        ∨ (st.symbols.lookup m = none ∧ sid = st.SYM_COUNT
          ∧ st'.symbols = (m, sid) :: st.symbols
          ∧ st'.translate = (sid, m) :: st.translate
          ∧ st'.SYM_COUNT = st.SYM_COUNT + 1)) :
    Interned st' (names ++ [m]) ∧ sid = expected_sid (names ++ [m]) m := by
  have hbelow : ∀ n ∈ names, expected_sid names n < st.SYM_COUNT := by
    intro n hn
    have hl := hint.known n hn
    obtain ⟨l₁, l₂, e, _⟩ := List.lookup_eq_some_iff.1 hl
    exact hsids (n, expected_sid names n) (by rw [e]; simp)
  rcases hcase with ⟨hl, e1, e2, e3⟩ | ⟨hl, hs, e1, e2, e3⟩
  · have hm : m ∈ names := by
      by_contra hn
      rw [hint.unknown m hn] at hl
      cases hl
    have hsid : sid = expected_sid names m := by
      have := hint.known m hm
      rw [hl] at this
      exact Option.some.inj this
    have hmem : ∀ n, n ∈ names ++ [m] ↔ n ∈ names := by
      intro n
      simp only [List.mem_append, List.mem_singleton]
      constructor
      · rintro (h | h)
        · exact h
        · rw [h]; exact hm
      · exact Or.inl
    refine ⟨⟨?_, ?_, ?_, ?_, ?_⟩, ?_⟩
    · rw [e3, hint.count, dedup_length_snoc, if_pos hm]
    · intro n hn
      have hn' := (hmem n).1 hn
      rw [e1, expected_sid_append_of_mem _ hn']
      exact hint.known n hn'
    · intro n hn
      rw [e1]
      exact hint.unknown n (fun h => hn ((hmem n).2 h))
    · intro n hn
      have hn' := (hmem n).1 hn
      rw [e2, expected_sid_append_of_mem _ hn']
      exact hint.back n hn'
    · intro s hs
      rw [e3] at hs
      obtain ⟨n, hn, he⟩ := hint.onto s hs
      exact ⟨n, (hmem n).2 hn, by rw [expected_sid_append_of_mem _ hn]; exact he⟩
    · rw [expected_sid_append_of_mem _ hm]
      exact hsid
  · have hm : m ∉ names := by
      intro hn
      rw [hint.known m hn] at hl
      cases hl
    have hsid : sid = expected_sid (names ++ [m]) m := by
      rw [expected_sid_fresh hm, hs, hint.count]
    refine ⟨⟨?_, ?_, ?_, ?_, ?_⟩, hsid⟩
    · rw [e3, hint.count, dedup_length_snoc, if_neg hm]
    · intro n hn
      rw [e1]
      by_cases hnm : n = m
      · subst hnm
        rw [List.lookup_cons_self, hsid]
      · have hn' : n ∈ names := by
          rcases List.mem_append.1 hn with h | h
          · exact h
          · exact absurd (List.mem_singleton.1 h) hnm
        rw [lookup_cons_ne_key hnm, expected_sid_append_of_mem _ hn']
        exact hint.known n hn'
    · intro n hn
      have hnm : n ≠ m := fun e => hn (by rw [e]; simp)
      rw [e1, lookup_cons_ne_key hnm]
      exact hint.unknown n (fun h => hn (List.mem_append_left _ h))
    · intro n hn
      rw [e2]
      unfold val_to_sym
      by_cases hnm : n = m
      · subst hnm
        rw [← hsid, List.lookup_cons_self]
      · have hn' : n ∈ names := by
          rcases List.mem_append.1 hn with h | h
          · exact h
          · exact absurd (List.mem_singleton.1 h) hnm
        have hlt := hbelow n hn'
        rw [expected_sid_append_of_mem _ hn', lookup_cons_ne_key (by omega)]
        exact hint.back n hn'
    · intro s hs'
      rw [e3] at hs'
      by_cases hsk : s = st.SYM_COUNT
      · exact ⟨m, by simp, by rw [← hsid, hs, hsk]⟩
      · obtain ⟨n, hn, he⟩ := hint.onto s (by omega)
        exact ⟨n, List.mem_append_left _ hn, by rw [expected_sid_append_of_mem _ hn]; exact he⟩

theorem observed_cons_comment {line : List Char} (lines : List (List Char))
    (h : is_comment line = true) : observed (line :: lines) = observed lines := by
  simp [observed, List.filter_cons, h]

theorem observed_cons_name {line : List Char} (lines : List (List Char))
    (h : is_comment line = false) :
    observed (line :: lines) = (split_line line).1 :: observed lines := by
  simp [observed, List.filter_cons, h]

theorem observed_append (a b : List (List Char)) :
    observed (a ++ b) = observed a ++ observed b := by
  simp [observed, List.filter_append]

theorem parse_file_interned (counter : Nat) :
    ∀ (lines : List (List Char)) (st st' : ParseState) (names : List (List Char)),
      st.WF counter → Interned st names → parse_file counter st lines = some st' →
      st'.WF counter ∧ Interned st' (names ++ observed lines)
        ∧ st'.configs.length = st.configs.length := by
  intro lines
  induction lines with
  | nil =>
    intro st st' names hwf hint h
    simp only [parse_file, Option.some.injEq] at h
    subst h
    exact ⟨hwf, by simpa [observed] using hint, rfl⟩
  | cons line lines ih =>
    intro st st' names hwf hint h
    simp only [parse_file] at h
    by_cases hc : is_comment line = true
    · have h1 : parse_line st counter line = some st := by simp [parse_line, hc]
      rw [h1] at h
      rw [observed_cons_comment lines hc]
      exact ih st st' names hwf hint h
    · have hc' : is_comment line = false := by simpa using hc
      cases hv : str_to_val (split_line line).2 with
      | none =>
        have h1 : parse_line st counter line = none := by
          simp [parse_line, hc', hv]
        rw [h1] at h
        cases h
      | some v =>
        obtain ⟨sid, c, c', st1, _, _, _, h4, h5, h6, h7, _⟩ :=
          parse_line_step st counter line v hwf hc' hv
        rw [h4] at h
        obtain ⟨hint1, _⟩ := interned_step hint hwf.sids h7
        obtain ⟨r1, r2, r3⟩ := ih st1 st' (names ++ [(split_line line).1]) h5 hint1 h
        rw [observed_cons_name lines hc']
        refine ⟨r1, ?_, by rw [r3, h6]⟩
        rw [List.append_assoc] at r2
        exact r2

theorem parse_files_interned :
    ∀ (files : List (List (List Char))) (counter : Nat) (st st' : ParseState)
      (names : List (List Char)),
      counter + files.length ≤ st.configs.length →
      (∀ c ∈ st.configs, c.symbols.length = st.SYM_ENTRIES) →
      st.SYM_COUNT / 21 + 1 ≤ st.SYM_ENTRIES →
      (∀ p ∈ st.symbols, p.2 < st.SYM_COUNT) →
      Interned st names → parse_files counter st files = some st' →
      Interned st' (names ++ observed files.flatten)
        ∧ ∀ p ∈ st'.symbols, p.2 < st'.SYM_COUNT := by
  intro files
  induction files with
  | nil =>
    intro counter st st' names _ _ _ hsids hint h
    simp only [parse_files, Option.some.injEq] at h
    subst h
    exact ⟨by simpa [observed] using hint, hsids⟩
  | cons file files ih =>
    intro counter st st' names hcount hlen hroom hsids hint h
    have hwf : st.WF counter :=
      ⟨by simp only [List.length_cons] at hcount; omega, hlen, hroom, hsids⟩
    simp only [parse_files] at h
    cases h1 : parse_file counter st file with
    | none => rw [h1] at h; cases h
    | some st1 =>
      rw [h1] at h
      obtain ⟨hwf1, hint1, hl1⟩ := parse_file_interned counter file st st1 names hwf hint h1
      obtain ⟨r1, r2⟩ := ih (counter + 1) st1 st' (names ++ observed file)
        (by simp only [List.length_cons] at hcount; omega)
        hwf1.lengths hwf1.room hwf1.sids hint1 h
      refine ⟨?_, r2⟩
      rw [List.flatten_cons, observed_append, ← List.append_assoc]
      exact r1

theorem interned_init (n : Nat) : Interned (ParseState.init n) [] := by
  refine ⟨rfl, ?_, ?_, ?_, ?_⟩
  · intro m hm; cases hm
  · intro m _; rfl
  · intro m hm; cases hm
  · intro sid hs
    simp [ParseState.init] at hs

/-- C11: symbol interning in `parse_configs`.  For files that are parsed (as all files of
comment lines and valid `NAME=v` lines are), with `names` the names observed in order:
`SYM_COUNT` is the number of distinct names; the table maps every observed name to the number
of distinct names before its first observation, a sid below `SYM_COUNT`, and `val_to_sym`
maps that sid back to the name; every sid below `SYM_COUNT` belongs to an observed name and
distinct names have distinct sids; a name never observed is not in the table.  Every single
observation, the first and each later one, hands this same sid to `add_symbol`: the sid of a
name does not change when further names are observed. -/
theorem interning_dense (files : List (List (List Char))) :
    ((∀ file ∈ files, ∀ line ∈ file, is_comment line = true ∨ is_assignment line = true) →
        ∃ st, parse_configs files = some st)
    ∧ (∀ st, parse_configs files = some st →
        st.SYM_COUNT = (observed files.flatten).dedup.length
        ∧ (∀ n ∈ observed files.flatten,
            st.symbols.lookup n = some (expected_sid (observed files.flatten) n)
            ∧ expected_sid (observed files.flatten) n < st.SYM_COUNT
            ∧ val_to_sym st.translate (expected_sid (observed files.flatten) n) = some n)
        ∧ (∀ n, n ∉ observed files.flatten → st.symbols.lookup n = none)
        ∧ (∀ sid, sid < st.SYM_COUNT →
            ∃ n ∈ observed files.flatten, st.symbols.lookup n = some sid)
        ∧ (∀ n1 ∈ observed files.flatten, ∀ n2 ∈ observed files.flatten,
            expected_sid (observed files.flatten) n1 = expected_sid (observed files.flatten) n2 →
            n1 = n2))
    ∧ (∀ (st : ParseState) (counter : Nat) (names : List (List Char)) (line : List Char)
        (v : Nat), st.WF counter → Interned st names → is_comment line = false →
        str_to_val (split_line line).2 = some v →
        ∃ c c' st', st.configs[counter]? = some c
          ∧ c.add_symbol (expected_sid (names ++ [(split_line line).1]) (split_line line).1) v
              = some c'
          ∧ parse_line st counter line = some st'
          ∧ st'.WF counter ∧ Interned st' (names ++ [(split_line line).1])
          ∧ (st'.configs = st.configs.set counter c'
            ∨ st'.configs = (st.configs.set counter c').map
                fun c => { c with symbols := c.symbols ++ List.replicate 100 0 }))
    ∧ (∀ (names more : List (List Char)) (n : List Char), n ∈ names →
        expected_sid (names ++ more) n = expected_sid names n)
    ∧ (∀ n, Interned (ParseState.init n) []) := by
  refine ⟨?_, ?_, ?_, fun names more n h => expected_sid_append_of_mem more h, interned_init⟩
  · intro hvalid
    have hinit := init_wf (files.length + 1) 0 (Nat.succ_pos _)
    exact parse_files_ok files 0 (ParseState.init files.length)
      (by simp [ParseState.init])
      (by
        intro c hc
        simp only [ParseState.init, List.mem_replicate] at hc
        rw [hc.2]
        simp [ParseState.init, Config.new])
      hinit.room hinit.sids hvalid
  · intro st hst
    have hinit := init_wf (files.length + 1) 0 (Nat.succ_pos _)
    obtain ⟨hint, hsids⟩ := parse_files_interned files 0 (ParseState.init files.length) st []
      (by simp [ParseState.init])
      (by
        intro c hc
        simp only [ParseState.init, List.mem_replicate] at hc
        rw [hc.2]
        simp [ParseState.init, Config.new])
      hinit.room hinit.sids (interned_init files.length) hst
    rw [List.nil_append] at hint
    have hbelow : ∀ n ∈ observed files.flatten,
        expected_sid (observed files.flatten) n < st.SYM_COUNT := by
      intro n hn
      obtain ⟨l₁, l₂, e, _⟩ := List.lookup_eq_some_iff.1 (hint.known n hn)
      exact hsids (n, expected_sid (observed files.flatten) n) (by rw [e]; simp)
    refine ⟨hint.count, fun n hn => ⟨hint.known n hn, hbelow n hn, hint.back n hn⟩,
      hint.unknown, ?_, ?_⟩
    · intro sid hs
      obtain ⟨n, hn, he⟩ := hint.onto sid hs
      exact ⟨n, hn, by rw [← he]; exact hint.known n hn⟩
    · intro n1 h1 n2 h2 heq
      have b1 := hint.back n1 h1
      have b2 := hint.back n2 h2
      rw [heq, b2] at b1
      exact (Option.some.inj b1).symm
  · intro st counter names line v hwf hint hc hv
    obtain ⟨sid, c, c', st', h1, h2, _, h4, h5, _, h7, h8⟩ :=
      parse_line_step st counter line v hwf hc hv
    obtain ⟨hint', hsid⟩ := interned_step hint hwf.sids h7
    exact ⟨c, c', st', h1, by rw [← hsid]; exact h2, h4, h5, hint', h8⟩

/-- C11, at a concrete input: two files observing `B, A` and `A, C, B`; the sids are
`B = 0`, `A = 1`, `C = 2`. -/
theorem interning_dense_witness :
    (parse_configs [[['B', '=', 'y'], ['A', '=', 'n']],
        [['A', '=', 'm'], ['#', 'x'], ['C', '=', 'y'], ['B', '=', 'n']]]).map
      (fun st => (st.symbols, st.translate, st.SYM_COUNT))
      = some ([(['C'], 2), (['A'], 1), (['B'], 0)], [(2, ['C']), (1, ['A']), (0, ['B'])], 3)
    ∧ observed ([[['B', '=', 'y'], ['A', '=', 'n']],
        [['A', '=', 'm'], ['#', 'x'], ['C', '=', 'y'], ['B', '=', 'n']]].flatten)
      = [['B'], ['A'], ['A'], ['C'], ['B']]
    ∧ expected_sid [['B'], ['A'], ['A'], ['C'], ['B']] ['C'] = 2
    ∧ ∃ st, parse_configs [[['B', '=', 'y'], ['A', '=', 'n']],
        [['A', '=', 'm'], ['#', 'x'], ['C', '=', 'y'], ['B', '=', 'n']]] = some st :=
  ⟨by decide, by decide, by decide,
    (interning_dense [[['B', '=', 'y'], ['A', '=', 'n']],
        [['A', '=', 'm'], ['#', 'x'], ['C', '=', 'y'], ['B', '=', 'n']]]).1 (by decide)⟩

/-- C20, at a concrete input: two files are parsed within the capacity; and the line that
interns symbol number 2099, the last one of word 99, triggers the resize from 100 to 200
words. -/
theorem parse_capacity_safe_witness :
    (∀ file ∈ [[['B', '=', 'y'], ['A', '=', 'n']], [['A', '=', 'm'], ['#', 'x'], ['C', '=', 'y']]],
      ∀ line ∈ file, is_comment line = true ∨ is_assignment line = true)
    ∧ (parse_line ⟨[], [], 2099, 100, [Config.new 100]⟩ 0 ['Z', '=', 'y']).map
        (fun st => (st.SYM_COUNT, st.SYM_ENTRIES, st.configs.map fun c => c.symbols.length))
        = some (2100, 200, [200])
    ∧ ∃ st, parse_configs
          [[['B', '=', 'y'], ['A', '=', 'n']], [['A', '=', 'm'], ['#', 'x'], ['C', '=', 'y']]]
          = some st
        ∧ st.SYM_COUNT / 21 + 1 ≤ st.SYM_ENTRIES
        ∧ ∀ c ∈ st.configs, c.symbols.length = st.SYM_ENTRIES :=
  ⟨by decide, by decide,
    (parse_capacity_safe
      [[['B', '=', 'y'], ['A', '=', 'n']], [['A', '=', 'm'], ['#', 'x'], ['C', '=', 'y']]]
      (by decide)).1⟩

end Troll
